import Mathlib

/-!
Verification development for the connect4-ai-agent repository.

The Python sources are shallowly embedded:
* `Game`  — src/connect4/game.py (traditional 6x7 grid, PLAYER_AI = 1,
  PLAYER_HUMAN = -1, EMPTY = 0; row 0 is the bottom row),
* `Alg`   — src/connect4/algorithms.py (heuristic and the two plain
  minimax searches),
* `Agent` — src/connect4/agent.py (optimized minimax with caches),
* `BB`    — src/connect4/bitboard_engine.py (packed bitboard, pattern
  counting heuristic),
* `ABB`   — src/connect4/agent_bitboard.py (bitboard minimax engine),
* `MCTS`  — src/connect4/mcts_agent_v2.py (MCTS engine, mirror hashing).

Python `math.inf` / `float('inf')` sentinels are modelled by the type
`EV := WithBot (WithTop ℤ)` (integers extended with a bottom and a top
element); all genuine scores are integers.  Python's unbounded `int` is
modelled by `Nat`/`Int` directly.  Mutable global dictionaries are
modelled by explicit state passing (association lists).  Calls of
`random.choice` are modelled by explicit choice parameters, so theorems
quantified over the choice parameter cover every outcome of the random
generator.  Metrics bookkeeping and `print` calls have no effect on any
returned value and are dropped.
-/

set_option maxRecDepth 100000

/-- Extended evaluation values: integers plus `-inf` (`⊥`) and `+inf` (`⊤`),
modelling Python's `math.inf` sentinels mixed with integer scores. -/
abbrev EV : Type := WithBot (WithTop ℤ)

/-- Embed an integer score into `EV`. -/
def iv (z : ℤ) : EV := ((z : WithTop ℤ) : EV)

namespace Game

/-- A traditional board: a list of rows (row 0 = bottom), each a list of
7 cells with values 1 (AI), -1 (Human), 0 (empty).  From game.py. -/
abbrev Board : Type := List (List Int)

/-- `board[r][c]` (out-of-range reads default to 0; all embedded callers
stay in range on 6x7 boards). -/
def cell (b : Board) (r c : Nat) : Int := (b.getD r []).getD c 0

/-- game.py `drop_piece`: set `board[row][col] = piece`. -/
def drop_piece (b : Board) (row col : Nat) (piece : Int) : Board :=
  b.set row ((b.getD row []).set col piece)

/-- game.py `is_valid_location`: top cell of the column is empty. -/
def is_valid_location (b : Board) (col : Nat) : Bool :=
  cell b 5 col == 0

/-- game.py `get_next_open_row`: first row (bottom up) whose cell is
empty.  The source returns `None` for a full column, which callers never
hit (they guard with `is_valid_location`); we default to 6, where
`drop_piece` is a no-op on a 6-row board. -/
def get_next_open_row (b : Board) (col : Nat) : Nat :=
  (((List.range 6).find? (fun r => cell b r col == 0))).getD 6

/-- game.py `get_valid_locations`: the non-full columns, ascending. -/
def get_valid_locations (b : Board) : List Nat :=
  (List.range 7).filter (fun col => is_valid_location b col)

/-- game.py `winning_move`: full scan of all horizontal, vertical and
both diagonal 4-windows. -/
def winning_move (b : Board) (piece : Int) : Bool :=
  ((List.range 4).any fun c => (List.range 6).any fun r =>
    (List.range 4).all fun i => cell b r (c + i) == piece) ||
  ((List.range 7).any fun c => (List.range 3).any fun r =>
    (List.range 4).all fun i => cell b (r + i) c == piece) ||
  ((List.range 4).any fun c => (List.range 3).any fun r =>
    (List.range 4).all fun i => cell b (r + i) (c + i) == piece) ||
  ((List.range 4).any fun c => (List.range' 3 3).any fun r =>
    (List.range 4).all fun i => cell b (r - i) (c + i) == piece)

/-- game.py `is_terminal_node`. -/
def is_terminal_node (b : Board) : Bool :=
  winning_move b (-1) || winning_move b 1 || (get_valid_locations b).isEmpty

end Game

namespace Alg

open Game

/-- algorithms.py `evaluate_window`. -/
def evaluate_window (window : List Int) (piece : Int) : Int :=
  let opponent_piece : Int := if piece == 1 then -1 else 1
  let piece_count := window.count piece
  let empty_count := window.count 0
  let opponent_count := window.count opponent_piece
  (if piece_count == 4 then 10000
   else if piece_count == 3 && empty_count == 1 then 10
   else if piece_count == 2 && empty_count == 2 then 3
   else 0) +
  (if opponent_count == 3 && empty_count == 1 then -80 else 0)

/-- algorithms.py `score_position`: centre-column bonus plus the window
sums over rows, columns and both diagonals. -/
def score_position (b : Board) (piece : Int) : Int :=
  let center_count := ((List.range 6).map (fun r => cell b r 3)).count piece
  let horiz := ((List.range 6).map (fun r =>
    ((List.range 4).map (fun c =>
      evaluate_window (((b.getD r []).drop c).take 4) piece)).sum)).sum
  let vert := ((List.range 7).map (fun c =>
    ((List.range 3).map (fun r =>
      evaluate_window ((((List.range 6).map (fun i => cell b i c)).drop r).take 4)
        piece)).sum)).sum
  let posd := ((List.range 3).map (fun r =>
    ((List.range 4).map (fun c =>
      evaluate_window ((List.range 4).map (fun i => cell b (r + i) (c + i)))
        piece)).sum)).sum
  let negd := ((List.range 3).map (fun r =>
    ((List.range 4).map (fun c =>
      evaluate_window ((List.range 4).map (fun i => cell b (r + i) (c + 3 - i)))
        piece)).sum)).sum
  center_count * 5 + horiz + vert + posd + negd

/-- Shared leaf case of `minimax_basic` / `minimax_alpha_beta`
(`depth == 0 or is_terminal`). -/
def minimax_leaf (b : Board) : Option Nat × EV :=
  if is_terminal_node b then
    if winning_move b 1 then (none, iv 10000000)
    else if winning_move b (-1) then (none, iv (-10000000))
    else (none, iv 0)
  else (none, iv (score_position b 1))

/-- Maximizing loop of `minimax_basic` (drops `PLAYER_AI = 1`; strict
improvement updates both the value and the chosen column). -/
def bas_loop_max (eval : Board → EV) (b : Board) :
    List Nat → EV → Nat → (Option Nat × EV)
  | [], v, bc => (some bc, v)
  | col :: rest, v, bc =>
    let row := get_next_open_row b col
    let tb := drop_piece b row col 1
    let s := eval tb
    if v < s then bas_loop_max eval b rest s col
    else bas_loop_max eval b rest v bc

/-- Minimizing loop of `minimax_basic` (drops `PLAYER_HUMAN = -1`). -/
def bas_loop_min (eval : Board → EV) (b : Board) :
    List Nat → EV → Nat → (Option Nat × EV)
  | [], v, bc => (some bc, v)
  | col :: rest, v, bc =>
    let row := get_next_open_row b col
    let tb := drop_piece b row col (-1)
    let s := eval tb
    if s < v then bas_loop_min eval b rest s col
    else bas_loop_min eval b rest v bc

/-- algorithms.py `minimax_basic`.  `ch` models `random.choice` for the
initial `best_col` (its argument order: board, depth, maximizing flag);
the metrics object only records statistics and is dropped. -/
def minimax_basic (ch : Board → Nat → Bool → Nat) :
    Nat → Board → Bool → (Option Nat × EV)
  | 0, b, _ => minimax_leaf b
  | d + 1, b, maximizing =>
    if is_terminal_node b then minimax_leaf b
    else
      let valid := get_valid_locations b
      if maximizing then
        bas_loop_max (fun tb => (minimax_basic ch d tb false).2) b valid
          ⊥ (ch b (d + 1) maximizing)
      else
        bas_loop_min (fun tb => (minimax_basic ch d tb true).2) b valid
          ⊤ (ch b (d + 1) maximizing)

/-- Maximizing loop of `minimax_alpha_beta`: after each child,
`alpha = max(alpha, value)` and the loop breaks when `alpha >= beta`. -/
def ab_loop_max (eval : Board → EV → EV → EV) (b : Board) (beta : EV) :
    List Nat → EV → EV → Nat → (Option Nat × EV)
  | [], _, v, bc => (some bc, v)
  | col :: rest, alpha, v, bc =>
    let row := get_next_open_row b col
    let tb := drop_piece b row col 1
    let s := eval tb alpha beta
    let v2 := if v < s then s else v
    let bc2 := if v < s then col else bc
    let alpha2 := max alpha v2
    if beta ≤ alpha2 then (some bc2, v2)
    else ab_loop_max eval b beta rest alpha2 v2 bc2

/-- Minimizing loop of `minimax_alpha_beta`:
`beta = min(beta, value)`, break when `alpha >= beta`. -/
def ab_loop_min (eval : Board → EV → EV → EV) (b : Board) (alpha : EV) :
    List Nat → EV → EV → Nat → (Option Nat × EV)
  | [], _, v, bc => (some bc, v)
  | col :: rest, beta, v, bc =>
    let row := get_next_open_row b col
    let tb := drop_piece b row col (-1)
    let s := eval tb alpha beta
    let v2 := if s < v then s else v
    let bc2 := if s < v then col else bc
    let beta2 := min beta v2
    if beta2 ≤ alpha then (some bc2, v2)
    else ab_loop_min eval b alpha rest beta2 v2 bc2

/-- algorithms.py `minimax_alpha_beta` (fail-soft alpha-beta). -/
def minimax_alpha_beta (ch : Board → Nat → Bool → Nat) :
    Nat → Board → EV → EV → Bool → (Option Nat × EV)
  | 0, b, _, _, _ => minimax_leaf b
  | d + 1, b, alpha, beta, maximizing =>
    if is_terminal_node b then minimax_leaf b
    else
      let valid := get_valid_locations b
      if maximizing then
        ab_loop_max (fun tb a2 b2 => (minimax_alpha_beta ch d tb a2 b2 false).2)
          b beta valid alpha ⊥ (ch b (d + 1) maximizing)
      else
        ab_loop_min (fun tb a2 b2 => (minimax_alpha_beta ch d tb a2 b2 true).2)
          b alpha valid beta ⊤ (ch b (d + 1) maximizing)

/-- The Knuth–Moore fail-soft relation between an alpha-beta result `g`
and the exact minimax value `v` for the window `(alpha, beta)`. -/
def KM (g v alpha beta : EV) : Prop :=
  (g ≤ alpha → v ≤ g) ∧ (alpha < g → g < beta → g = v) ∧ (beta ≤ g → g ≤ v)

end Alg

namespace Agent

open Game

/-- A Python dict modelled as an association list; assignment prepends,
`List.lookup` finds the most recent binding. -/
def dict_insert {k v : Type} (d : List (k × v)) (key : k) (val : v) :
    List (k × v) := (key, val) :: d

/-- agent.py transposition table: `hash_board(board) -> score`.
`hash_board` (tuple-of-tuples) is injective on grids, so the grid itself
serves as the key.  Note: the key does NOT include the `piece` argument. -/
abbrev TT : Type := List (Game.Board × Int)

/-- agent.py killer-move table: remaining depth -> up to two columns. -/
abbrev Killers : Type := List (Nat × List Nat)

/-- The two agent.py module-level caches, passed explicitly. -/
structure AState where
  tt : TT
  killers : Killers

/-- agent.py `evaluate_window` (threat-detection variant: an opponent
open three costs 1000, an opponent two costs 5). -/
def evaluate_window (window : List Int) (piece : Int) : Int :=
  let opponent_piece : Int := if piece == 1 then -1 else 1
  let piece_count := window.count piece
  let empty_count := window.count 0
  let opponent_count := window.count opponent_piece
  (if piece_count == 4 then 10000
   else if piece_count == 3 && empty_count == 1 then 10
   else if piece_count == 2 && empty_count == 2 then 3
   else 0) +
  (if opponent_count == 3 && empty_count == 1 then -1000
   else if opponent_count == 2 && empty_count == 2 then -5
   else 0)

/-- agent.py `evaluation_board` (positional weight matrix). -/
def evaluation_board : Game.Board :=
  [[3, 4, 5, 7, 5, 4, 3],
   [4, 6, 8, 10, 8, 6, 4],
   [5, 8, 11, 13, 11, 8, 5],
   [5, 8, 11, 13, 11, 8, 5],
   [4, 6, 8, 10, 8, 6, 4],
   [3, 4, 5, 7, 5, 4, 3]]

/-- The positional-bonus component of agent.py `score_position`
(lines 87-93): `+w` for an own piece, `-w` for an opponent piece. -/
def position_bonus (b : Board) (piece : Int) : Int :=
  ((List.range 6).map (fun r =>
    ((List.range 7).map (fun c =>
      if cell b r c == piece then cell evaluation_board r c
      else if cell b r c != 0 then -(cell evaluation_board r c)
      else 0)).sum)).sum

/-- The pure computation inside agent.py `score_position` (everything
between the cache lookup and the cache store). -/
def score_position_calc (b : Board) (piece : Int) : Int :=
  let center_term := (((List.range 6).map (fun r => cell b r 3)).count piece) * 3
  let horiz := ((List.range 6).map (fun r =>
    ((List.range 4).map (fun c =>
      evaluate_window (((b.getD r []).drop c).take 4) piece)).sum)).sum
  let vert := ((List.range 7).map (fun c =>
    ((List.range 3).map (fun r =>
      evaluate_window ((((List.range 6).map (fun i => cell b i c)).drop r).take 4)
        piece)).sum)).sum
  let posd := ((List.range 3).map (fun r =>
    ((List.range 4).map (fun c =>
      evaluate_window ((List.range 4).map (fun i => cell b (r + i) (c + i)))
        piece)).sum)).sum
  let negd := ((List.range' 3 3).map (fun r =>
    ((List.range 4).map (fun c =>
      evaluate_window ((List.range 4).map (fun i => cell b (r - i) (c + i)))
        piece)).sum)).sum
  position_bonus b piece + center_term + horiz + vert + posd + negd

/-- agent.py `score_position`: consult the cache (keyed by the board
only, not by `piece`), else compute and store. -/
def score_position (tt : TT) (b : Board) (piece : Int) : Int × TT :=
  match List.lookup b tt with
  | some s => (s, tt)
  | none =>
    let s := score_position_calc b piece
    (s, dict_insert tt b s)

/-- agent.py `detect_immediate_threats`. -/
def detect_immediate_threats (b : Board) (piece : Int) : List Nat :=
  let opponent : Int := if piece == 1 then -1 else 1
  (get_valid_locations b).filter (fun col =>
    let row := get_next_open_row b col
    let temp := drop_piece b row col opponent
    winning_move temp opponent)

/-- Loop body of agent.py `order_moves`: builds the priority-scored move
list, with the early `return [col]` short-circuit on an immediate win;
`score_position` calls at `depth > 2` thread the cache. -/
def order_moves_go (b : Board) (piece : Int) (depth : Nat)
    (threat_cols killer_cols : List Nat) :
    List Nat → TT → List (Nat × Int) → (List Nat × TT)
  | [], tt, acc =>
    (((acc.insertionSort (fun x y => y.2 ≤ x.2)).map Prod.fst), tt)
  | col :: rest, tt, acc =>
    let row := get_next_open_row b col
    let temp := drop_piece b row col piece
    if winning_move temp piece then ([col], tt)
    else
      let p1 : Int := if threat_cols.contains col then 5000000 else 0
      let p2 : Int := if killer_cols.contains col then 1000000 else 0
      let p3 : Int := 100 - |(col : Int) - 3| * 10
      let sres := if depth > 2 then score_position tt temp piece else (0, tt)
      order_moves_go b piece depth threat_cols killer_cols rest sres.2
        (acc ++ [(col, p1 + p2 + p3 + sres.1)])

/-- agent.py `order_moves` (Python's stable descending sort by priority
is `insertionSort` with the `y.2 ≤ x.2` relation). -/
def order_moves (tt : TT) (b : Board) (valid : List Nat) (piece : Int)
    (depth : Nat) (killers : Killers) : List Nat × TT :=
  let threat_cols := detect_immediate_threats b piece
  let killer_cols := (List.lookup depth killers).getD []
  order_moves_go b piece depth threat_cols killer_cols valid tt []

/-- agent.py killer-move bookkeeping on a cutoff: ensure the entry
exists, push the column to the front if new, keep at most two. -/
def killer_update (killers : Killers) (depth : Nat) (col : Nat) : Killers :=
  let killers1 :=
    if (List.lookup depth killers).isSome then killers
    else dict_insert killers depth []
  let cur := (List.lookup depth killers1).getD []
  if cur.contains col then killers1
  else
    let l2 := col :: cur
    let l3 := if l2.length > 2 then l2.dropLast else l2
    dict_insert killers1 depth l3

/-- Leaf case of agent.py `minimax_optimized` (depth-adjusted win
scores; the heuristic leaf consults/updates the score cache). -/
def opt_leaf (depth : Nat) (b : Board) (st : AState) :
    (Option Nat × EV) × AState :=
  if is_terminal_node b then
    if winning_move b 1 then ((none, iv (10000000 + depth)), st)
    else if winning_move b (-1) then ((none, iv (-10000000 - depth)), st)
    else ((none, iv 0), st)
  else
    let sres := score_position st.tt b 1
    ((none, iv sres.1), ⟨sres.2, st.killers⟩)

/-- Maximizing loop of `minimax_optimized` with killer-move recording on
beta cutoff. -/
def opt_loop_max (rec : Board → EV → EV → AState → (EV × AState)) (b : Board)
    (depth : Nat) :
    List Nat → EV → EV → EV → Nat → AState → ((Option Nat × EV) × AState)
  | [], _, _, v, bc, st => ((some bc, v), st)
  | col :: rest, alpha, beta, v, bc, st =>
    let row := get_next_open_row b col
    let tb := drop_piece b row col 1
    let sres := rec tb alpha beta st
    let s := sres.1
    let v2 := if v < s then s else v
    let bc2 := if v < s then col else bc
    let alpha2 := max alpha v2
    if beta ≤ alpha2 then
      ((some bc2, v2), ⟨sres.2.tt, killer_update sres.2.killers depth col⟩)
    else opt_loop_max rec b depth rest alpha2 beta v2 bc2 sres.2

/-- Minimizing loop of `minimax_optimized`. -/
def opt_loop_min (rec : Board → EV → EV → AState → (EV × AState)) (b : Board)
    (depth : Nat) :
    List Nat → EV → EV → EV → Nat → AState → ((Option Nat × EV) × AState)
  | [], _, _, v, bc, st => ((some bc, v), st)
  | col :: rest, alpha, beta, v, bc, st =>
    let row := get_next_open_row b col
    let tb := drop_piece b row col (-1)
    let sres := rec tb alpha beta st
    let s := sres.1
    let v2 := if s < v then s else v
    let bc2 := if s < v then col else bc
    let beta2 := min beta v2
    if beta2 ≤ alpha then
      ((some bc2, v2), ⟨sres.2.tt, killer_update sres.2.killers depth col⟩)
    else opt_loop_min rec b depth rest alpha beta2 v2 bc2 sres.2

/-- agent.py `minimax_optimized`: alpha-beta with move ordering, the
score cache and killer moves, all state passed explicitly. -/
def minimax_optimized : Nat → Board → EV → EV → Bool → AState →
    ((Option Nat × EV) × AState)
  | 0, b, _, _, _, st => opt_leaf 0 b st
  | d + 1, b, alpha, beta, maximizing, st =>
    if is_terminal_node b then opt_leaf (d + 1) b st
    else
      let valid := get_valid_locations b
      let piece : Int := if maximizing then 1 else -1
      let ores := order_moves st.tt b valid piece (d + 1) st.killers
      let st2 : AState := ⟨ores.2, st.killers⟩
      if maximizing then
        opt_loop_max (fun tb a2 b2 s2 =>
            let r := minimax_optimized d tb a2 b2 false s2
            (r.1.2, r.2)) b (d + 1) ores.1 alpha beta ⊥ (ores.1.headD 0) st2
      else
        opt_loop_min (fun tb a2 b2 s2 =>
            let r := minimax_optimized d tb a2 b2 true s2
            (r.1.2, r.2)) b (d + 1) ores.1 alpha beta ⊤ (ores.1.headD 0) st2

/-- Developer-mode loop of `get_best_move_optimized`: per-column shallow
scores (`10000000` for an immediate win, else a depth-1 minimax call). -/
def dev_scores (piece : Int) (depth : Nat) (b : Board) :
    List Nat → AState → (List (Nat × EV) × AState)
  | [], st => ([], st)
  | col :: rest, st =>
    let row := get_next_open_row b col
    let temp := drop_piece b row col piece
    let sres :=
      if winning_move temp piece then ((iv 10000000 : EV), st)
      else
        let r := minimax_optimized (depth - 1) temp ⊥ ⊤ false st
        (r.1.2, r.2)
    let rres := dev_scores piece depth b rest sres.2
    ((col, sres.1) :: rres.1, rres.2)

/-- Python `max(column_scores.items(), key=lambda x: x[1])[0]`: the first
maximal entry in insertion order. -/
def dev_best (scores : List (Nat × EV)) : Nat :=
  match scores with
  | [] => 0
  | p :: rest => (rest.foldl (fun acc q => if acc.2 < q.2 then q else acc) p).1

/-- agent.py `get_best_move_optimized`: clears both module-level caches,
then searches.  Result: chosen column (None only on a terminal position
in non-developer mode) plus optional per-column scores, and the final
cache state. -/
def get_best_move_optimized (b : Board) (piece : Int) (depth : Nat)
    (developer_mode : Bool) (st : AState) :
    (Option Nat × Option (List (Nat × EV))) × AState :=
  let st0 : AState := ⟨[], []⟩
  let _ := st
  if developer_mode then
    let valid := get_valid_locations b
    let sres := dev_scores piece depth b valid st0
    ((some (dev_best sres.1), some sres.1), sres.2)
  else
    let r := minimax_optimized depth b ⊥ ⊤ true st0
    ((r.1.1, none), r.2)

end Agent

/-- Decidable well-formedness of a grid: every cell read by the
evaluators is 1, -1 or 0. -/
def cells_ok (b : Game.Board) : Bool :=
  (List.range 6).all fun r => (List.range 7).all fun c =>
    Game.cell b r c == 1 || Game.cell b r c == -1 || Game.cell b r c == 0

namespace BB

/-- Clear the `mask` bits of `a`: Python's `a & ~mask` on nonnegative
ints.  On naturals this equals `a XOR (a AND mask)` (written this way
because the kernel evaluates XOR and AND but not `Nat.ldiff`). -/
def and_not (a mask : Nat) : Nat := a ^^^ (a &&& mask)

/-- bitboard_engine.py `Bitboard`: a 63-bit packed integer (7 columns of
9 bits: 6 cell bits, bit set = Human piece, plus 3 height bits) and the
derived per-column height cache.  Python's unbounded nonnegative int is
a `Nat`. -/
structure Bitboard where
  board : Nat
  heights : List Nat
  deriving DecidableEq

/-- `Bitboard.__init__`: the empty board. -/
def emptyBB : Bitboard := ⟨0, List.replicate 7 0⟩

/-- `Bitboard.make_move`: drop a piece (0 = AI leaves the cell bit
clear, 1 = Human sets it), bump the height, rewrite the helper bits.
Python's `board &= ~height_mask` on nonnegative ints is bitwise
and-not, modelled by `and_not`.  A full column leaves the state unchanged
(the source returns False). -/
def make_move (bb : Bitboard) (col : Nat) (player_bit : Nat) : Bitboard :=
  if 6 ≤ bb.heights.getD col 0 then bb
  else
    let bit_pos := col * 9 + bb.heights.getD col 0
    let board1 := if player_bit == 1 then bb.board ||| (1 <<< bit_pos) else bb.board
    let heights2 := bb.heights.set col (bb.heights.getD col 0 + 1)
    let height_mask := 7 <<< (col * 9 + 6)
    let board2 := and_not board1 height_mask
    let board3 := board2 ||| ((heights2.getD col 0) <<< (col * 9 + 6))
    ⟨board3, heights2⟩

/-- `Bitboard.extract_column_bits`. -/
def extract_column_bits (bb : Bitboard) (col : Nat) : Nat :=
  (bb.board >>> (col * 9)) &&& 63

/-- `Bitboard.get_cell`: 0 = AI, 1 = Human, 2 = Empty (height-guarded). -/
def get_cell (bb : Bitboard) (row col : Nat) : Nat :=
  if bb.heights.getD col 0 ≤ row then 2
  else (extract_column_bits bb col >>> row) &&& 1

/-- `Bitboard.extract_nth_row`. -/
def extract_nth_row (bb : Bitboard) (row : Nat) : List Nat :=
  (List.range 7).map (fun col =>
    if bb.heights.getD col 0 ≤ row then 2
    else (extract_column_bits bb col >>> row) &&& 1)

/-- `Bitboard.to_2d_array` (6 rows of 7 cells, bitboard encoding). -/
def to_2d_array (bb : Bitboard) : List (List Nat) :=
  (List.range 6).map (fun row => (List.range 7).map (fun col => get_cell bb row col))

/-- Cell access in a produced 2d array. -/
def dcell (bd : List (List Nat)) (r c : Nat) : Nat := (bd.getD r []).getD c 2

/-- The value mapping of `Bitboard.from_2d_array`: traditional values
(1, -1, 0) to bitboard values (0, 1, 2), via `mapping.get(value, 2)`. -/
def mapping (v : Int) : Nat := if v == 1 then 0 else if v == -1 then 1 else 2

/-- `Bitboard.from_2d_array`: per column, set the Human cell bits, track
the height as a running max of `row + 1` over non-empty cells, then
rewrite the helper bits. -/
def from_2d_array (board_2d : Game.Board) : Bitboard :=
  (List.range 7).foldl (fun bb col =>
    let bb2 := (List.range 6).foldl (fun (acc : Bitboard) row =>
      let value := mapping (Game.cell board_2d row col)
      if value != 2 then
        let bit_pos := col * 9 + row
        let board2 := if value == 1 then acc.board ||| (1 <<< bit_pos) else acc.board
        ⟨board2, acc.heights.set col (max (acc.heights.getD col 0) (row + 1))⟩
      else acc) bb
    let height_mask := 7 <<< (col * 9 + 6)
    ⟨(and_not bb2.board height_mask) |||
        ((bb2.heights.getD col 0) <<< (col * 9 + 6)),
      bb2.heights⟩) emptyBB

/-- `Bitboard.get_valid_columns`. -/
def get_valid_columns (bb : Bitboard) : List Nat :=
  (List.range 7).filter (fun col => bb.heights.getD col 0 < 6)

/-- `generate_pattern_permutations`, AI open-three patterns: the set of
all permutations of three AI pieces and one empty cell, enumerated. -/
def three_open_ai : List (List Nat) :=
  [[2, 0, 0, 0], [0, 2, 0, 0], [0, 0, 2, 0], [0, 0, 0, 2]]

/-- Human open-three patterns (permutations of three Human, one empty). -/
def three_open_human : List (List Nat) :=
  [[2, 1, 1, 1], [1, 2, 1, 1], [1, 1, 2, 1], [1, 1, 1, 2]]

/-- AI two-in-a-row patterns (permutations of two AI, two empty). -/
def two_ai : List (List Nat) :=
  [[0, 0, 2, 2], [0, 2, 0, 2], [0, 2, 2, 0], [2, 0, 0, 2], [2, 0, 2, 0], [2, 2, 0, 0]]

/-- Human two-in-a-row patterns (permutations of two Human, two empty). -/
def two_human : List (List Nat) :=
  [[1, 1, 2, 2], [1, 2, 1, 2], [1, 2, 2, 1], [2, 1, 1, 2], [2, 1, 2, 1], [2, 2, 1, 1]]

/-- Aggregated pattern counts (`counts` dictionary). -/
structure PCounts where
  four : Nat
  three_open : Nat
  three_closed : Nat
  two : Nat
  deriving DecidableEq

/-- Pointwise addition of pattern counts. -/
def PCounts.add (a b : PCounts) : PCounts :=
  ⟨a.four + b.four, a.three_open + b.three_open,
    a.three_closed + b.three_closed, a.two + b.two⟩

/-- `count_patterns_in_line`: the 4-window `if/elif` chain plus the
5-window closed-three scan. -/
def count_patterns_in_line (line : List Nat) (player : Nat) : PCounts :=
  let step := fun (acc : PCounts) (i : Nat) =>
    let window := (line.drop i).take 4
    if player == 0 then
      if window == [0, 0, 0, 0] then { acc with four := acc.four + 1 }
      else if three_open_ai.contains window then
        { acc with three_open := acc.three_open + 1 }
      else if two_ai.contains window then { acc with two := acc.two + 1 }
      else acc
    else
      if window == [1, 1, 1, 1] then { acc with four := acc.four + 1 }
      else if three_open_human.contains window then
        { acc with three_open := acc.three_open + 1 }
      else if two_human.contains window then { acc with two := acc.two + 1 }
      else acc
  let base := (List.range (line.length - 3)).foldl step ⟨0, 0, 0, 0⟩
  let opponent := if player == 0 then 1 else 0
  let closed := (List.range (line.length - 4)).countP (fun i =>
    let w := (line.drop i).take 5
    w.getD 0 2 == opponent && w.getD 1 2 == player && w.getD 2 2 == player &&
      w.getD 3 2 == player && w.getD 4 2 == opponent)
  { base with three_closed := base.three_closed + closed }

/-- `apply_fake_zero_handling`: an empty cell at index
`>= ROWS - heights[col]` is replaced by a Human piece. -/
def apply_fake_zero_handling (column : List Nat) (col_index : Nat)
    (heights : List Nat) : List Nat :=
  let first_empty_row := heights.getD col_index 0
  column.mapIdx (fun row_idx cell_value =>
    if 6 - first_empty_row ≤ row_idx && cell_value == 2 then 1 else cell_value)

/-- `get_all_diagonals`: the bottom-left-to-top-right (major) and
top-left-to-bottom-right (minor) diagonals of length at least 4, in the
source's traversal order (each Python while-walk is written as a map
over its step count). -/
def get_all_diagonals (bd : List (List Nat)) :
    List (List Nat) × List (List Nat) :=
  let major1 := ((List.range 7).map (fun sc =>
    (List.range (min 6 (7 - sc))).map (fun k => dcell bd k (sc + k)))).filter
      (fun d => 4 ≤ d.length)
  let major2 := ((List.range' 1 5).map (fun sr =>
    (List.range (min (6 - sr) 7)).map (fun k => dcell bd (sr + k) k))).filter
      (fun d => 4 ≤ d.length)
  let minor1 := ((List.range 7).map (fun sc =>
    (List.range (min 6 (7 - sc))).map (fun k => dcell bd (5 - k) (sc + k)))).filter
      (fun d => 4 ≤ d.length)
  let minor2 := (([4, 3, 2, 1, 0] : List Nat).map (fun sr =>
    (List.range (min (sr + 1) 7)).map (fun k => dcell bd (sr - k) k))).filter
      (fun d => 4 ≤ d.length)
  (major1 ++ major2, minor1 ++ minor2)

/-- `count_consecutive_pieces`: vertical lines (with fake-zero
handling), horizontal rows, and all diagonals. -/
def count_consecutive_pieces (bb : Bitboard) (player : Nat) : PCounts :=
  let bd := to_2d_array bb
  let lines_v := (List.range 7).map (fun col =>
    apply_fake_zero_handling ((List.range 6).map (fun row => dcell bd row col))
      col bb.heights)
  let lines_h := (List.range 6).map (fun row => extract_nth_row bb row)
  let diags := (get_all_diagonals bd).1 ++ (get_all_diagonals bd).2
  ((lines_v ++ lines_h ++ diags).map (fun l => count_patterns_in_line l player)).foldl
    PCounts.add ⟨0, 0, 0, 0⟩

/-- `POSITION_WEIGHTS` (feature_4 matrix). -/
def POSITION_WEIGHTS : List (List Int) :=
  [[300, 400, 500, 700, 500, 400, 300],
   [400, 600, 800, 1000, 800, 600, 400],
   [500, 800, 1100, 1300, 1100, 800, 500],
   [500, 800, 1100, 1300, 1100, 800, 500],
   [400, 600, 800, 1000, 800, 600, 400],
   [300, 400, 500, 700, 500, 400, 300]]

/-- `calculate_positional_score`. -/
def calculate_positional_score (bb : Bitboard) (player : Nat) : Int :=
  let bd := to_2d_array bb
  ((List.range 6).map (fun r =>
    ((List.range 7).map (fun c =>
      if dcell bd r c == player then (POSITION_WEIGHTS.getD r []).getD c 0
      else 0)).sum)).sum

/-- `evaluate_bitboard`: AI weighted pattern sum minus Human weighted
pattern sum. -/
def evaluate_bitboard (bb : Bitboard) : Int :=
  let ai := count_consecutive_pieces bb 0
  let human := count_consecutive_pieces bb 1
  let ai_score := 1000000 * (ai.four : Int) + 200000 * (ai.three_open : Int) +
    10000 * (ai.three_closed : Int) + 6000 * (ai.two : Int) +
    calculate_positional_score bb 0
  let human_score := 1000000 * (human.four : Int) + 200000 * (human.three_open : Int) +
    10000 * (human.three_closed : Int) + 6000 * (human.two : Int) +
    calculate_positional_score bb 1
  ai_score - human_score

/-- `check_win`: at least one counted `four` pattern. -/
def check_win (bb : Bitboard) (player : Nat) : Bool :=
  0 < (count_consecutive_pieces bb player).four

/-- `is_terminal`. -/
def is_terminal (bb : Bitboard) : Bool :=
  check_win bb 0 || check_win bb 1 || (get_valid_columns bb).isEmpty

/-- Play a list of `(column, player_bit)` drops from the empty board:
the bitboard positions reachable by sequences of drops. -/
def playBB (moves : List (Nat × Nat)) : Bitboard :=
  moves.foldl (fun bb m => make_move bb m.1 m.2) emptyBB

/-- Decode a bitboard cell value back to the traditional encoding, along
the correspondence documented in `Bitboard.from_2d_array` (AI: 0 to 1,
Human: 1 to -1, Empty: 2 to 0); inverse of `mapping`. -/
def decode_val (v : Nat) : Int := if v == 0 then 1 else if v == 1 then -1 else 0

/-- View a bitboard as a traditional grid (for comparing the bitboard
engine with game.py's scans). -/
def trad_of_bb (bb : Bitboard) : Game.Board :=
  (to_2d_array bb).map (List.map decode_val)

end BB

namespace ABB

open BB

/-- agent_bitboard.py module state: the transposition table
(`board int -> (depth, score, best_move)`) and the killer-move table. -/
structure BState where
  tt : List (Nat × (Nat × EV × Nat))
  killers : List (Nat × List Nat)
  deriving DecidableEq

/-- The empty module state (fresh import). -/
def emptyBState : BState := ⟨[], []⟩

/-- agent_bitboard.py `clear_transposition_table` (documented as "call
between games"). -/
def clear_transposition_table (_st : BState) : BState := ⟨[], []⟩

/-- agent_bitboard.py `bitboard_from_2d`: scan each column bottom to top
and replay the pieces with `make_move`. -/
def bitboard_from_2d (board : Game.Board) : Bitboard :=
  (List.range 7).foldl (fun bb col =>
    (List.range 6).foldl (fun bb2 row =>
      let cellv := Game.cell board row col
      if cellv == 1 then make_move bb2 col 0
      else if cellv == -1 then make_move bb2 col 1
      else bb2) bb) emptyBB

/-- agent_bitboard.py `bitboard_hash`. -/
def bitboard_hash (bb : Bitboard) : Nat := bb.board

/-- One direction of the while-walk in `bitboard_check_win_fast`: count
consecutive cells of `player_bit` from `(r, c)` onward in direction
`(dr, dc)`, stopping at the board edge or a different cell.  The walk
moves one cell per step inside a 6x7 board, so fuel 8 is never
exhausted for the four direction pairs used. -/
def walk_count (bb : Bitboard) (player_bit : Nat) :
    Nat → Int → Int → Int → Int → Nat
  | 0, _, _, _, _ => 0
  | fuel + 1, r, c, dr, dc =>
    if 0 ≤ r ∧ r < 6 ∧ 0 ≤ c ∧ c < 7 then
      if get_cell bb r.toNat c.toNat == player_bit then
        1 + walk_count bb player_bit fuel (r + dr) (c + dc) dr dc
      else 0
    else 0

/-- agent_bitboard.py `bitboard_check_win_fast`: localized win check
around the top piece of `last_col` in the four line directions. -/
def bitboard_check_win_fast (bb : Bitboard) (player_bit : Nat)
    (last_col : Nat) : Bool :=
  if bb.heights.getD last_col 0 == 0 then false
  else
    let last_row := bb.heights.getD last_col 0 - 1
    let dirs : List ((Int × Int) × (Int × Int)) :=
      [((0, 1), (0, -1)), ((1, 0), (-1, 0)), ((1, 1), (-1, -1)), ((1, -1), (-1, 1))]
    dirs.any (fun dp =>
      4 ≤ 1 + walk_count bb player_bit 8 ((last_row : Int) + dp.1.1)
            ((last_col : Int) + dp.1.2) dp.1.1 dp.1.2
          + walk_count bb player_bit 8 ((last_row : Int) + dp.2.1)
            ((last_col : Int) + dp.2.2) dp.2.1 dp.2.2)

/-- agent_bitboard.py `get_valid_moves_bitboard`. -/
def get_valid_moves_bitboard (bb : Bitboard) : List Nat :=
  (List.range 7).filter (fun col => bb.heights.getD col 0 < 6)

/-- agent_bitboard.py `is_terminal_bitboard`: fast win checks around the
last move (when known and its column non-empty), then the draw check. -/
def is_terminal_bitboard (bb : Bitboard) (last_col : Option Nat) :
    Bool × Option Nat :=
  let win : Option Nat :=
    match last_col with
    | some lc =>
      if 0 < bb.heights.getD lc 0 then
        if bitboard_check_win_fast bb 0 lc then some 0
        else if bitboard_check_win_fast bb 1 lc then some 1
        else none
      else none
    | none => none
  match win with
  | some w => (true, some w)
  | none =>
    if (get_valid_moves_bitboard bb).isEmpty then (true, none) else (false, none)

/-- agent_bitboard.py killer bookkeeping on a cutoff: append the column,
keep at most the two most recent (`pop(0)` drops the oldest). -/
def killer_update_bb (killers : List (Nat × List Nat)) (depth col : Nat) :
    List (Nat × List Nat) :=
  let killers1 :=
    if (List.lookup depth killers).isSome then killers else (depth, []) :: killers
  let cur := (List.lookup depth killers1).getD []
  if cur.contains col then killers1
  else
    let l2 := cur ++ [col]
    let l3 := if 2 < l2.length then l2.tail else l2
    (depth, l3) :: killers1

/-- Move priority of `minimax_bitboard`'s ordering: distance from the
centre, minus 10 for a killer move at this depth. -/
def move_priority (killers : List (Nat × List Nat)) (depth col : Nat) : Int :=
  |(col : Int) - 3| - (if ((List.lookup depth killers).getD []).contains col
    then 10 else 0)

/-- Maximizing loop of `minimax_bitboard` (note the source updates
`alpha` with the child score, and records a killer move on cutoff). -/
def bbm_loop_max (rec : Bitboard → EV → EV → Nat → Option Nat → BState → (EV × BState))
    (bb : Bitboard) (player_bit depth : Nat) :
    List Nat → EV → EV → EV → Nat → BState → ((EV × Nat) × BState)
  | [], _, _, v, bc, st => ((v, bc), st)
  | col :: rest, alpha, beta, v, bc, st =>
    let nb := make_move bb col player_bit
    let r := rec nb alpha beta (1 - player_bit) (some col) st
    let s := r.1
    let v2 := if v < s then s else v
    let bc2 := if v < s then col else bc
    let alpha2 := max alpha s
    if beta ≤ alpha2 then
      ((v2, bc2), ⟨r.2.tt, killer_update_bb r.2.killers depth col⟩)
    else bbm_loop_max rec bb player_bit depth rest alpha2 beta v2 bc2 r.2

/-- Minimizing loop of `minimax_bitboard`. -/
def bbm_loop_min (rec : Bitboard → EV → EV → Nat → Option Nat → BState → (EV × BState))
    (bb : Bitboard) (player_bit depth : Nat) :
    List Nat → EV → EV → EV → Nat → BState → ((EV × Nat) × BState)
  | [], _, _, v, bc, st => ((v, bc), st)
  | col :: rest, alpha, beta, v, bc, st =>
    let nb := make_move bb col player_bit
    let r := rec nb alpha beta (1 - player_bit) (some col) st
    let s := r.1
    let v2 := if s < v then s else v
    let bc2 := if s < v then col else bc
    let beta2 := min beta s
    if beta2 ≤ alpha then
      ((v2, bc2), ⟨r.2.tt, killer_update_bb r.2.killers depth col⟩)
    else bbm_loop_min rec bb player_bit depth rest alpha beta2 v2 bc2 r.2

/-- Shared leaf handling of `minimax_bitboard` (transposition lookup,
terminal scoring with depth adjustment, horizon evaluation); returns
`none` when the search must expand children. -/
def bbm_pre (depth : Nat) (bb : Bitboard) (last_col : Option Nat) (st : BState) :
    Option ((EV × Option Nat) × BState) :=
  match List.lookup (bitboard_hash bb) st.tt with
  | some cached =>
    if depth ≤ cached.1 then some ((cached.2.1, some cached.2.2), st)
    else
      bbm_pre_rest depth bb last_col st
  | none => bbm_pre_rest depth bb last_col st
where
  bbm_pre_rest (depth : Nat) (bb : Bitboard) (last_col : Option Nat) (st : BState) :
      Option ((EV × Option Nat) × BState) :=
    let term := is_terminal_bitboard bb last_col
    if term.1 then
      match term.2 with
      | some 0 => some ((iv (1000000 - (20 - (depth : Int))), none), st)
      | some _ => some ((iv (-1000000 + (20 - (depth : Int))), none), st)
      | none => some ((iv 0, none), st)
    else if depth == 0 then some ((iv (evaluate_bitboard bb), none), st)
    else none

/-- agent_bitboard.py `minimax_bitboard`: alpha-beta on bitboards with
transposition caching (consulted before anything else, valid when the
stored depth is at least the requested depth; the result of every
expanded node is stored afterwards) and killer-move ordering. -/
def minimax_bitboard : Nat → Bitboard → EV → EV → Bool → Nat → Option Nat →
    BState → ((EV × Option Nat) × BState)
  | 0, bb, _, _, _, _, last_col, st =>
    match bbm_pre 0 bb last_col st with
    | some r => r
    | none => ((iv (evaluate_bitboard bb), none), st)
  | d + 1, bb, alpha, beta, maximizing, player_bit, last_col, st =>
    match bbm_pre (d + 1) bb last_col st with
    | some r => r
    | none =>
      let valid := get_valid_moves_bitboard bb
      if valid.isEmpty then ((iv 0, none), st)
      else
        let ordered := valid.insertionSort
          (fun x y => move_priority st.killers (d + 1) x ≤
            move_priority st.killers (d + 1) y)
        let rec0 := fun nb a2 b2 (pb : Nat) (lc : Option Nat) (s2 : BState) =>
          let r := minimax_bitboard d nb a2 b2 (!maximizing) pb lc s2
          (r.1.1, r.2)
        let lres :=
          if maximizing then
            bbm_loop_max rec0 bb player_bit (d + 1) ordered alpha beta ⊥
              (ordered.headD 0) st
          else
            bbm_loop_min rec0 bb player_bit (d + 1) ordered alpha beta ⊤
              (ordered.headD 0) st
        (((lres.1.1 : EV), some lres.1.2),
          ⟨(bitboard_hash bb, (d + 1, lres.1.1, lres.1.2)) :: lres.2.tt,
            lres.2.killers⟩)

/-- Main loop of `get_best_move_bitboard`: one depth-limited search per
valid column, collecting the per-column scores and the best column. -/
def gbm_loop (bb : Bitboard) (player : Int) (player_bit opponent_bit depth : Nat) :
    List Nat → EV → Nat → List (Nat × EV) → BState →
      ((Nat × List (Nat × EV)) × BState)
  | [], _, bc, scores, st => ((bc, scores), st)
  | col :: rest, best, bc, scores, st =>
    let nb := make_move bb col player_bit
    let r :=
      if player == 1 then
        minimax_bitboard (depth - 1) nb ⊥ ⊤ false opponent_bit (some col) st
      else
        minimax_bitboard (depth - 1) nb ⊥ ⊤ true opponent_bit (some col) st
    let s := r.1.1
    let upd : Bool := if player == 1 then best < s else s < best
    gbm_loop bb player player_bit opponent_bit depth rest
      (if upd then s else best) (if upd then col else bc)
      (scores ++ [(col, s)]) r.2

/-- agent_bitboard.py `get_best_move_bitboard`: immediate-win scan,
immediate-threat scan, then per-column minimax.  Note: unlike
agent.py's `get_best_move_optimized`, this function does NOT clear the
transposition table or the killer table. -/
def get_best_move_bitboard (board : Game.Board) (player : Int) (depth : Nat)
    (developer_mode : Bool) (st : BState) :
    ((Nat × Option (List (Nat × EV))) × BState) :=
  let bb := bitboard_from_2d board
  let player_bit : Nat := if player == 1 then 0 else 1
  let valid := get_valid_moves_bitboard bb
  match valid.find? (fun col =>
      bitboard_check_win_fast (make_move bb col player_bit) player_bit col) with
  | some col =>
    ((col, if developer_mode then some [(col, iv 1000000)] else none), st)
  | none =>
    let opponent_bit := 1 - player_bit
    match valid.find? (fun col =>
        bitboard_check_win_fast (make_move bb col opponent_bit) opponent_bit col) with
    | some col =>
      ((col, if developer_mode then some [(col, iv 999999)] else none), st)
    | none =>
      let best0 : EV := if player == 1 then ⊥ else ⊤
      let bc0 := valid.headD 3
      let lres := gbm_loop bb player player_bit opponent_bit depth valid best0
        bc0 [] st
      ((lres.1.1, if developer_mode then some lres.1.2 else none), lres.2)

end ABB

namespace BB

/-- Reachability invariant for bitboard states (established by `emptyBB`
and preserved by `make_move` on columns 0-6): consistent heights list,
no cell bits above a column's height, helper bits equal to the height,
and no bits beyond the 63 used. -/
structure Inv (bb : Bitboard) : Prop where
  hlen : bb.heights.length = 7
  hle : ∀ c, c < 7 → bb.heights.getD c 0 ≤ 6
  clean : ∀ c r, c < 7 → r < 6 → bb.heights.getD c 0 ≤ r →
    bb.board.testBit (c * 9 + r) = false
  helper : ∀ c k, c < 7 → k < 3 →
    bb.board.testBit (c * 9 + 6 + k) = (bb.heights.getD c 0).testBit k
  high : ∀ i, 63 ≤ i → bb.board.testBit i = false

end BB

namespace ABB

open BB

/-! ### C5: the localized win check versus full-board scanning -/
/-- The predicate the fast-check walk tests at an (integer) coordinate:
in bounds and holding the given player's piece. -/
def cellP (bb : BB.Bitboard) (p : Nat) (r c : Int) : Prop :=
  0 ≤ r ∧ r < 6 ∧ 0 ≤ c ∧ c < 7 ∧ BB.get_cell bb r.toNat c.toNat = p

instance (bb : BB.Bitboard) (p : Nat) (r c : Int) : Decidable (cellP bb p r c) := by
  unfold cellP
  infer_instance

/-- Some aligned monochromatic 4-window through `(r0, c0)` in direction
`(dr, dc)`. -/
def through (bb : BB.Bitboard) (p : Nat) (r0 c0 dr dc : Int) : Prop :=
  ∃ k : Int, -3 ≤ k ∧ k ≤ 0 ∧ ∀ i : Int, 0 ≤ i → i < 4 →
    cellP bb p (r0 + (k + i) * dr) (c0 + (k + i) * dc)

/-- The full-board window scan of game.py, transported to bitboard
cells: some horizontal, vertical or diagonal 4-window is all `p`
(mirrors the window families of `winning_move`). -/
def four_exists (bb : BB.Bitboard) (p : Nat) : Bool :=
  ((List.range 4).any fun c => (List.range 6).any fun r =>
    (List.range 4).all fun i => BB.get_cell bb r (c + i) == p) ||
  ((List.range 7).any fun c => (List.range 3).any fun r =>
    (List.range 4).all fun i => BB.get_cell bb (r + i) c == p) ||
  ((List.range 4).any fun c => (List.range 3).any fun r =>
    (List.range 4).all fun i => BB.get_cell bb (r + i) (c + i) == p) ||
  ((List.range 4).any fun c => (List.range' 3 3).any fun r =>
    (List.range 4).all fun i => BB.get_cell bb (r - i) (c + i) == p)

end ABB

namespace MCTS

open BB

/-! ### mcts_agent_v2.py -/
/-- mcts_agent_v2.py `hash_bitboard`: the raw board integer. -/
def hash_bitboard (bb : Bitboard) : Nat := bb.board

/-- mcts_agent_v2.py `mirror_bitboard`: column 0 <-> 6, 1 <-> 5, 2 <-> 4,
3 fixed.  Starts from a fresh zero bitboard, and per source column
clears the mirror column's 9-bit region, copies the six cell bits, sets
the mirrored height entry and writes the height helper bits.  Python's
`board &= ~mask` on nonnegative ints is `and_not`. -/
def mirror_bitboard (bb : Bitboard) : Bitboard :=
  (List.range 7).foldl (fun m col =>
    let mirror_col := 6 - col
    let col_bits := extract_column_bits bb col
    let height := bb.heights.getD col 0
    let shift_mirror := mirror_col * 9
    let b1 := and_not m.board (511 <<< shift_mirror)
    let b2 := (List.range 6).foldl (fun b bit =>
      if col_bits &&& (1 <<< bit) != 0 then b ||| (1 <<< (shift_mirror + bit))
      else b) b1
    ⟨b2 ||| (height <<< (shift_mirror + 6)), m.heights.set mirror_col height⟩)
    ⟨0, List.replicate 7 0⟩

/-- mcts_agent_v2.py `get_canonical_hash`: the smaller of the position's
hash and its mirror's hash. -/
def get_canonical_hash (bb : Bitboard) : Nat :=
  min (hash_bitboard bb) (hash_bitboard (mirror_bitboard bb))

/-- mcts_agent_v2.py `bitboard_get_valid_moves`. -/
def bitboard_get_valid_moves (bb : Bitboard) : List Nat :=
  (List.range 7).filter (fun col => bb.heights.getD col 0 < 6)

/-- A `TRANSPOSITION_TABLE` entry:
`{'visits': int, 'wins': float, 'best_move': int}`. -/
structure TTEntry where
  visits : Nat
  wins : Rat
  best_move : Nat
  deriving DecidableEq

/-- The module-global `TRANSPOSITION_TABLE`, passed explicitly. -/
def TTable := List (Nat × TTEntry)

/-- mcts_agent_v2.py `mcts_search_v2` specialized to a budget of one
iteration, returning `(best_move, iteration-or-visit count)`.

With one iteration the control flow of the source collapses: a trusted
transposition hit (stored visits > 500) returns the cached move and its
visit count before any search; otherwise the root is created with
`untried_moves` equal to the valid moves, the single iteration selects
the root (it has no children), expands one uniformly random untried
move (`random.choice`, modelled by `pick`), simulates and backpropagates
(affecting only statistics, not which child exists), and the final
"most visited child" is that sole expanded child.  With no valid move
the iteration expands nothing and the fallback returns column 3. -/
def mcts_search_v2_iter1 (bb : Bitboard) (current_player : Int)
    (use_transposition_table : Bool) (tt : List (Nat × TTEntry))
    (pick : List Nat → Nat) : Nat × Nat :=
  let cachedHit : Option TTEntry :=
    if use_transposition_table then
      match tt.lookup (get_canonical_hash bb) with
      | some e => if 500 < e.visits then some e else none
      | none => none
    else none
  match cachedHit with
  | some e => (e.best_move, e.visits)
  | none =>
    let untried := bitboard_get_valid_moves bb
    if untried.isEmpty then (3, 1)
    else (pick untried, 1)

/-- mcts_agent_v2.py `MCTSNodeV2`: a search-tree node.  The bitboard is
stored in the node, `move` is the column played to reach it (`none` at
the root), `player` the player who made that move, and `untried_moves`
starts as the valid moves of the node's board. -/
inductive MCTSNodeV2 : Type where
  | mk (bitboard : Bitboard) (move : Option Nat) (player : Int) (wins : Rat)
      (visits : Nat) (untried_moves : List Nat) (children : List MCTSNodeV2) :
      MCTSNodeV2

def MCTSNodeV2.bitboard : MCTSNodeV2 → Bitboard
  | .mk b _ _ _ _ _ _ => b

def MCTSNodeV2.move : MCTSNodeV2 → Option Nat
  | .mk _ mv _ _ _ _ _ => mv

def MCTSNodeV2.player : MCTSNodeV2 → Int
  | .mk _ _ pl _ _ _ _ => pl

def MCTSNodeV2.wins : MCTSNodeV2 → Rat
  | .mk _ _ _ w _ _ _ => w

def MCTSNodeV2.visits : MCTSNodeV2 → Nat
  | .mk _ _ _ _ v _ _ => v

def MCTSNodeV2.untried_moves : MCTSNodeV2 → List Nat
  | .mk _ _ _ _ _ u _ => u

def MCTSNodeV2.children : MCTSNodeV2 → List MCTSNodeV2
  | .mk _ _ _ _ _ _ cs => cs

/-- `MCTSNodeV2.update`: one backpropagation step (visits + 1,
wins + result). -/
def MCTSNodeV2.update : MCTSNodeV2 → Rat → MCTSNodeV2
  | .mk b mv pl w v u cs, result => .mk b mv pl (w + result) (v + 1) u cs

/-- Placeholder node for an out-of-range child read; never reached by an
oracle that, like Python's `max`, names an existing child. -/
def dfltNode : MCTSNodeV2 := .mk emptyBB none 0 0 0 [] []

/-- One iteration of `mcts_search_v2` (selection, expansion, simulation,
backpropagation), as a functional tree update.

* selection: the source's `select_child` is `max(children, key=ucb1)`;
  the float UCB computation is modelled by the oracle `sel`, naming the
  index of the selected child, so theorems quantified over `sel` cover
  every actual UCB outcome (an out-of-range index reads `dfltNode` and
  writes nothing, which no faithful oracle produces);
* expansion: the `random.choice(node.untried_moves)` is the oracle
  `pick`, `list.remove` is `List.erase` (first occurrence), the child
  starts with zero statistics and `untried_moves` equal to its board's
  valid moves, and Python's `make_move(col, p)` sets the cell bit only
  when `p == 1`;
* simulation: `simulate_game_v2`'s rollout value is the oracle
  `simres`, applied to the simulated node's board, `sim_player` and
  `node.player` exactly as in the source;
* backpropagation: the returned rational is the result the caller (the
  parent node) adds; it flips at every level, as the source's
  `result = 1.0 - result` walk does.

`fuel` bounds the selection descent.  Each iteration expands at most
one node and a selection path only moves to children, so after k
iterations every path has length at most k + 1; the search below calls
this with fuel `iterations + 1`, which is therefore never exhausted
(fuel 0 leaves the tree unchanged). -/
def mcts_iterate (current_player : Int) (pick : List Nat → Nat)
    (sel : List MCTSNodeV2 → Nat) (simres : Bitboard → Int → Int → Rat) :
    Nat → MCTSNodeV2 → MCTSNodeV2 × Rat
  | 0, n => (n, 0)
  | fuel + 1, n =>
    if n.untried_moves = [] ∧ n.children.isEmpty = false then
      let i := sel n.children
      let r := mcts_iterate current_player pick sel simres fuel
        (n.children.getD i dfltNode)
      ((MCTSNodeV2.mk n.bitboard n.move n.player n.wins n.visits n.untried_moves
          (n.children.set i r.1)).update r.2,
        1 - r.2)
    else if n.untried_moves ≠ [] then
      let mv := pick n.untried_moves
      let np : Int := if n.player = 0 ∨ n.player = 1 then 1 - n.player
        else current_player
      let new_board := make_move n.bitboard mv (if np == 1 then 1 else 0)
      let child := MCTSNodeV2.mk new_board (some mv) np 0 0
        (bitboard_get_valid_moves new_board) []
      let sim_player : Int := if np = 0 ∨ np = 1 then 1 - np else current_player
      let result := simres new_board sim_player np
      ((MCTSNodeV2.mk n.bitboard n.move n.player n.wins n.visits
          (n.untried_moves.erase mv)
          (n.children ++ [child.update result])).update (1 - result),
        result)
    else
      let sim_player : Int := if n.player = 0 ∨ n.player = 1 then 1 - n.player
        else current_player
      let result := simres n.bitboard sim_player n.player
      (n.update result, 1 - result)

/-- The main loop of `mcts_search_v2`, run to the full iteration budget
(a `time_limit` that never triggers; a triggered one only lowers the
effective budget). -/
def mcts_loop (current_player : Int) (pick : List Nat → Nat)
    (sel : List MCTSNodeV2 → Nat) (simres : Bitboard → Int → Int → Rat)
    (fuel : Nat) : Nat → MCTSNodeV2 → MCTSNodeV2
  | 0, root => root
  | k + 1, root =>
    mcts_loop current_player pick sel simres fuel k
      (mcts_iterate current_player pick sel simres fuel root).1

/-- `max(root.children, key=lambda c: c.visits)`: the first child with
maximal visits, as Python's `max` on a non-empty list. -/
def most_visited_child (c0 : MCTSNodeV2) (rest : List MCTSNodeV2) : MCTSNodeV2 :=
  rest.foldl (fun best c => if best.visits < c.visits then c else best) c0

/-- mcts_agent_v2.py `mcts_search_v2` at an arbitrary iteration budget,
returning `(best_move, iteration_count)` together with the updated
module-global `TRANSPOSITION_TABLE` (dict assignment prepends, as
everywhere in this development).  A trusted cached entry (stored visits
above 500) is returned before any search; otherwise the root is built
with `player = -current_player` and the loop runs the full budget. -/
def mcts_search_v2 (bb : Bitboard) (current_player : Int) (iterations : Nat)
    (use_transposition_table : Bool) (tt : List (Nat × TTEntry))
    (pick : List Nat → Nat) (sel : List MCTSNodeV2 → Nat)
    (simres : Bitboard → Int → Int → Rat) :
    (Nat × Nat) × List (Nat × TTEntry) :=
  let cachedHit : Option TTEntry :=
    if use_transposition_table then
      match tt.lookup (get_canonical_hash bb) with
      | some e => if 500 < e.visits then some e else none
      | none => none
    else none
  match cachedHit with
  | some e => ((e.best_move, e.visits), tt)
  | none =>
    let root : MCTSNodeV2 := .mk bb none (-current_player) 0 0
      (bitboard_get_valid_moves bb) []
    let root2 := mcts_loop current_player pick sel simres (iterations + 1)
      iterations root
    match root2.children with
    | [] =>
      let valid := bitboard_get_valid_moves bb
      ((if valid.isEmpty then 3 else pick valid, iterations), tt)
    | c0 :: rest =>
      let best := most_visited_child c0 rest
      let best_move := best.move.getD 0
      ((best_move, iterations),
        if use_transposition_table then
          (get_canonical_hash bb, ⟨root2.visits, root2.wins, best_move⟩) :: tt
        else tt)

end MCTS


/-! ### Theorems -/

namespace Alg

open Game

/-! ### C1: alpha-beta pruning returns the same root column as plain minimax -/
theorem bot_lt_iv (z : ℤ) : (⊥ : EV) < iv z := WithBot.bot_lt_coe _

theorem iv_lt_top (z : ℤ) : iv z < (⊤ : EV) := by
  have h : ((z : WithTop ℤ) : EV) < ((⊤ : WithTop ℤ) : EV) :=
    WithBot.coe_lt_coe.mpr (WithTop.coe_lt_top z)
  simpa [iv] using h

theorem iv_ne_bot (z : ℤ) : iv z ≠ (⊥ : EV) := (bot_lt_iv z).ne.symm

theorem ite_lt_max (a s : EV) : (if a < s then s else a) = max a s := by
  rcases lt_or_ge a s with h | h
  · simp [h, max_eq_right h.le]
  · simp [not_lt_of_ge h, max_eq_left h]

theorem ite_lt_min (a s : EV) : (if s < a then s else a) = min a s := by
  rcases lt_or_ge s a with h | h
  · simp [h, min_eq_right h.le]
  · simp [not_lt_of_ge h, min_eq_left h]

theorem KM_refl (g alpha beta : EV) : KM g g alpha beta :=
  ⟨fun _ => le_refl g, fun _ _ => rfl, fun _ => le_refl g⟩

/-- The basic maximizing loop only increases its running value. -/
theorem bas_loop_max_ge (eval : Game.Board → EV) (b : Game.Board) :
    ∀ (l : List Nat) (v : EV) (bc : Nat), v ≤ (bas_loop_max eval b l v bc).2 := by
  intro l
  induction l with
  | nil => intro v bc; simp [bas_loop_max]
  | cons col rest ih =>
    intro v bc
    simp only [bas_loop_max]
    rcases lt_or_ge v (eval (drop_piece b (get_next_open_row b col) col 1)) with h | h
    · simp only [if_pos h]
      exact le_trans h.le (ih _ _)
    · simp only [if_neg (not_lt_of_ge h)]
      exact ih _ _

/-- The basic minimizing loop only decreases its running value. -/
theorem bas_loop_min_le (eval : Game.Board → EV) (b : Game.Board) :
    ∀ (l : List Nat) (v : EV) (bc : Nat), (bas_loop_min eval b l v bc).2 ≤ v := by
  intro l
  induction l with
  | nil => intro v bc; simp [bas_loop_min]
  | cons col rest ih =>
    intro v bc
    simp only [bas_loop_min]
    rcases lt_or_ge (eval (drop_piece b (get_next_open_row b col) col (-1))) v with h | h
    · simp only [if_pos h]
      exact le_trans (ih _ _) h.le
    · simp only [if_neg (not_lt_of_ge h)]
      exact ih _ _

theorem km_loop_max (evalA : Game.Board → EV → EV → EV) (evalB : Game.Board → EV)
    (b : Game.Board) (alpha0 beta : EV)
    (hkm : ∀ tb a2, a2 < beta → KM (evalA tb a2 beta) (evalB tb) a2 beta) :
    ∀ (l : List Nat) (alpha v sv : EV) (bcA bcB : Nat),
      alpha = max alpha0 v →
      alpha < beta →
      (v ≤ alpha0 → sv ≤ v) →
      (alpha0 < v → v = sv) →
      KM (ab_loop_max evalA b beta l alpha v bcA).2
        (bas_loop_max evalB b l sv bcB).2 alpha0 beta := by
  intro l
  induction l with
  | nil =>
    intro alpha v sv bcA bcB ha hab h1 h2
    simp only [ab_loop_max, bas_loop_max]
    refine ⟨h1, fun hl _ => h2 hl, fun hb => ?_⟩
    have hva : v ≤ alpha := ha ▸ le_max_right alpha0 v
    exact absurd ((hb.trans hva).trans_lt hab) (lt_irrefl beta)
  | cons col rest ih =>
    intro alpha v sv bcA bcB ha hab h1 h2
    have ha0 : alpha0 ≤ alpha := ha ▸ le_max_left alpha0 v
    have hva : v ≤ alpha := ha ▸ le_max_right alpha0 v
    simp only [ab_loop_max, bas_loop_max]
    set tb := drop_piece b (get_next_open_row b col) col 1 with htb
    obtain ⟨hc1, hc2, hc3⟩ := hkm tb alpha hab
    set s := evalA tb alpha beta with hs
    set sc := evalB tb with hsc
    rcases le_or_lt s alpha with hsa | has
    · -- child value fails low: no interesting update
      have hv2 : (if v < s then s else v) = max v s := ite_lt_max v s
      have hv2a : max v s ≤ alpha := max_le hva hsa
      have halpha2 : max alpha (if v < s then s else v) = alpha := by
        rw [hv2]; exact max_eq_left hv2a
      have hnocut : ¬ beta ≤ max alpha (if v < s then s else v) := by
        rw [halpha2]; exact not_le_of_lt hab
      rw [if_neg hnocut, halpha2]
      have hscs : sc ≤ s := hc1 hsa
      have ha' : alpha = max alpha0 (if v < s then s else v) := by
        rw [hv2, ← max_assoc, ← ha]
        exact (max_eq_left hsa).symm
      -- new value-relation hypotheses
      have h1' : (if v < s then s else v) ≤ alpha0 →
          (if sv < sc then sc else sv) ≤ (if v < s then s else v) := by
        intro hv2a0
        rw [hv2] at hv2a0 ⊢
        have hvv : v ≤ alpha0 := (le_max_left v s).trans hv2a0
        have hsv : sv ≤ max v s := (h1 hvv).trans (le_max_left v s)
        have hscv : sc ≤ max v s := hscs.trans (le_max_right v s)
        rw [ite_lt_max]
        exact max_le hsv hscv
      have h2' : alpha0 < (if v < s then s else v) →
          (if v < s then s else v) = (if sv < sc then sc else sv) := by
        intro h0
        rcases lt_or_ge v s with hvs | hvs
        · rw [if_pos hvs] at h0 ⊢
          have hsle : s ≤ v := by
            rcases le_max_iff.mp (ha ▸ hsa) with h | h
            · exact absurd (lt_of_lt_of_le h0 h) (lt_irrefl alpha0)
            · exact h
          exact absurd (lt_of_le_of_lt hsle hvs) (lt_irrefl s)
        · rw [if_neg (not_lt_of_ge hvs)] at h0 ⊢
          have hveq : v = sv := h2 h0
          have hnlt : ¬ sv < sc := by
            intro hlt
            exact absurd (((hlt.trans_le hscs).trans_le hvs).trans_eq hveq)
              (lt_irrefl sv)
          rw [if_neg hnlt, hveq]
      have hbas : (if sv < sc then bas_loop_max evalB b rest sc col
          else bas_loop_max evalB b rest sv bcB) =
          bas_loop_max evalB b rest (if sv < sc then sc else sv)
            (if sv < sc then col else bcB) := by
        split <;> rfl
      rw [hbas]
      exact ih alpha (if v < s then s else v) (if sv < sc then sc else sv)
        (if v < s then col else bcA) (if sv < sc then col else bcB)
        ha' hab h1' h2'
    · rcases lt_or_ge s beta with hsb | hbs
      · -- child value exact: update to s on both sides
        have hvs : v < s := lt_of_le_of_lt hva has
        have hseq : s = sc := hc2 has hsb
        simp only [if_pos hvs]
        have halpha2 : max alpha s = s := max_eq_right has.le
        rw [halpha2]
        have hnocut : ¬ beta ≤ s := not_le_of_lt hsb
        rw [if_neg hnocut]
        have hsvlt : sv < sc := by
          rcases le_or_lt v alpha0 with hv0 | hv0
          · exact lt_of_le_of_lt (((h1 hv0).trans hv0).trans ha0)
              (has.trans_eq hseq)
          · exact lt_of_le_of_lt ((h2 hv0).symm.le.trans hva)
              (has.trans_eq hseq)
        rw [if_pos hsvlt]
        have ha' : s = max alpha0 s := (max_eq_right ((ha0.trans_lt has).le)).symm
        have h1' : s ≤ alpha0 → sc ≤ s := by
          intro hs0
          exact absurd ((hs0.trans ha0).trans_lt has) (lt_irrefl s)
        have h2' : alpha0 < s → s = sc := fun _ => hseq
        exact ih s s sc col col ha' hsb h1' h2'
      · -- child value fails high: cutoff
        have hvs : v < s := lt_of_le_of_lt hva (lt_of_lt_of_le hab hbs)
        simp only [if_pos hvs]
        have hcut : beta ≤ max alpha s := hbs.trans (le_max_right alpha s)
        rw [if_pos hcut]
        have hssc : s ≤ sc := hc3 hbs
        refine ⟨fun hs0 => ?_, fun _ hsb2 => absurd (lt_of_le_of_lt hbs hsb2)
          (lt_irrefl beta), fun _ => ?_⟩
        · exact absurd (((hs0.trans ha0).trans_lt hab).trans_le hbs) (lt_irrefl s)
        · rcases lt_or_ge sv sc with hsvc | hsvc
          · rw [if_pos hsvc]
            exact hssc.trans (bas_loop_max_ge evalB b rest sc col)
          · rw [if_neg (not_lt_of_ge hsvc)]
            exact (hssc.trans hsvc).trans (bas_loop_max_ge evalB b rest sv bcB)

theorem km_loop_min (evalA : Game.Board → EV → EV → EV) (evalB : Game.Board → EV)
    (b : Game.Board) (alpha0 beta0 : EV)
    (hkm : ∀ tb b2, alpha0 < b2 → KM (evalA tb alpha0 b2) (evalB tb) alpha0 b2) :
    ∀ (l : List Nat) (beta v sv : EV) (bcA bcB : Nat),
      beta = min beta0 v →
      alpha0 < beta →
      (beta0 ≤ v → v ≤ sv) →
      (v < beta0 → v = sv) →
      KM (ab_loop_min evalA b alpha0 l beta v bcA).2
        (bas_loop_min evalB b l sv bcB).2 alpha0 beta0 := by
  intro l
  induction l with
  | nil =>
    intro beta v sv bcA bcB hb hab h1 h2
    simp only [ab_loop_min, bas_loop_min]
    have hbv : beta ≤ v := hb ▸ min_le_right beta0 v
    refine ⟨fun hv0 => ?_, fun _ hvb => h2 hvb, h1⟩
    exact absurd (hab.trans_le (hbv.trans hv0)) (lt_irrefl alpha0)
  | cons col rest ih =>
    intro beta v sv bcA bcB hb hab h1 h2
    have hb0 : beta ≤ beta0 := hb ▸ min_le_left beta0 v
    have hbv : beta ≤ v := hb ▸ min_le_right beta0 v
    simp only [ab_loop_min, bas_loop_min]
    set tb := drop_piece b (get_next_open_row b col) col (-1) with htb
    obtain ⟨hc1, hc2, hc3⟩ := hkm tb beta hab
    set s := evalA tb alpha0 beta with hs
    set sc := evalB tb with hsc
    rcases le_or_lt beta s with hbs | hsb
    · -- child value fails high relative to the running window
      have hv2 : (if s < v then s else v) = min v s := ite_lt_min v s
      have hbv2 : beta ≤ min v s := le_min hbv hbs
      have hbeta2 : min beta (if s < v then s else v) = beta := by
        rw [hv2]; exact min_eq_left hbv2
      have hnocut : ¬ min beta (if s < v then s else v) ≤ alpha0 := by
        rw [hbeta2]; exact not_le_of_lt hab
      rw [if_neg hnocut, hbeta2]
      have hssc : s ≤ sc := hc3 hbs
      have hb' : beta = min beta0 (if s < v then s else v) := by
        rw [hv2, ← min_assoc, ← hb]
        exact (min_eq_left hbs).symm
      have h1' : beta0 ≤ (if s < v then s else v) →
          (if s < v then s else v) ≤ (if sc < sv then sc else sv) := by
        intro hv20
        rw [hv2] at hv20 ⊢
        have hvv : beta0 ≤ v := hv20.trans (min_le_left v s)
        have hsv : min v s ≤ sv := (min_le_left v s).trans (h1 hvv)
        have hscv : min v s ≤ sc := (min_le_right v s).trans hssc
        rw [ite_lt_min]
        exact le_min hsv hscv
      have h2' : (if s < v then s else v) < beta0 →
          (if s < v then s else v) = (if sc < sv then sc else sv) := by
        intro h0
        rcases lt_or_ge s v with hvs | hvs
        · rw [if_pos hvs] at h0 ⊢
          have hsge : v ≤ s := by
            rcases min_le_iff.mp (hb ▸ hbs) with h | h
            · exact absurd (lt_of_le_of_lt h h0) (lt_irrefl beta0)
            · exact h
          exact absurd (lt_of_le_of_lt hsge hvs) (lt_irrefl v)
        · rw [if_neg (not_lt_of_ge hvs)] at h0 ⊢
          have hveq : v = sv := h2 h0
          have hnlt : ¬ sc < sv := by
            intro hlt
            exact absurd (hveq ▸ (hvs.trans hssc).trans_lt hlt) (lt_irrefl v)
          rw [if_neg hnlt, hveq]
      have hbas : (if sc < sv then bas_loop_min evalB b rest sc col
          else bas_loop_min evalB b rest sv bcB) =
          bas_loop_min evalB b rest (if sc < sv then sc else sv)
            (if sc < sv then col else bcB) := by
        split <;> rfl
      rw [hbas]
      exact ih beta (if s < v then s else v) (if sc < sv then sc else sv)
        (if s < v then col else bcA) (if sc < sv then col else bcB)
        hb' hab h1' h2'
    · rcases lt_or_ge alpha0 s with has | hsa
      · -- child value exact: update to s on both sides
        have hvs : s < v := lt_of_lt_of_le hsb hbv
        have hseq : s = sc := hc2 has hsb
        simp only [if_pos hvs]
        have hbeta2 : min beta s = s := min_eq_right hsb.le
        rw [hbeta2]
        have hnocut : ¬ s ≤ alpha0 := not_le_of_lt has
        rw [if_neg hnocut]
        have hsvlt : sc < sv := by
          rcases le_or_lt beta0 v with hv0 | hv0
          · exact lt_of_lt_of_le ((hseq ▸ hsb).trans_le hbv) (h1 hv0)
          · exact lt_of_lt_of_le ((hseq ▸ hsb).trans_le hbv) (h2 hv0).le
        rw [if_pos hsvlt]
        have hb' : s = min beta0 s := (min_eq_right ((hsb.trans_le hb0).le)).symm
        have h1' : beta0 ≤ s → s ≤ sc := by
          intro hs0
          exact absurd (hs0.trans_lt (hsb.trans_le hb0)) (lt_irrefl beta0)
        have h2' : s < beta0 → s = sc := fun _ => hseq
        exact ih s s sc col col hb' has h1' h2'
      · -- child value fails low: cutoff
        have hvs : s < v := (hsa.trans_lt hab).trans_le hbv
        simp only [if_pos hvs]
        have hcut : min beta s ≤ alpha0 := (min_le_right beta s).trans hsa
        rw [if_pos hcut]
        have hssc : sc ≤ s := hc1 hsa
        refine ⟨fun _ => ?_, fun has2 _ => absurd (has2.trans_le hsa)
          (lt_irrefl alpha0), fun hs0 => ?_⟩
        · rcases lt_or_ge sc sv with hsvc | hsvc
          · rw [if_pos hsvc]
            exact (bas_loop_min_le evalB b rest sc col).trans hssc
          · rw [if_neg (not_lt_of_ge hsvc)]
            exact (bas_loop_min_le evalB b rest sv bcB).trans (hsvc.trans hssc)
        · exact absurd (((hs0.trans hsa).trans_lt hab).trans_le hb0) (lt_irrefl beta0)

theorem minimax_leaf_int (b : Game.Board) : ∃ z : ℤ, (minimax_leaf b).2 = iv z := by
  unfold minimax_leaf
  split
  · split
    · exact ⟨10000000, rfl⟩
    · split
      · exact ⟨-10000000, rfl⟩
      · exact ⟨0, rfl⟩
  · exact ⟨score_position b 1, rfl⟩

theorem valid_ne_nil (b : Game.Board) (h : is_terminal_node b = false) :
    get_valid_locations b ≠ [] := by
  intro hnil
  unfold is_terminal_node at h
  rw [hnil] at h
  simp at h

theorem ab_loop_max_int (evalA : Game.Board → EV → EV → EV) (b : Game.Board)
    (beta : EV) (hA : ∀ tb a2 b2, ∃ z, evalA tb a2 b2 = iv z) :
    ∀ (l : List Nat) (alpha v : EV) (bc : Nat),
      ((v = ⊥ ∧ l ≠ []) ∨ ∃ z, v = iv z) →
      ∃ z, (ab_loop_max evalA b beta l alpha v bc).2 = iv z := by
  intro l
  induction l with
  | nil =>
    intro alpha v bc hv
    rcases hv with ⟨_, hne⟩ | ⟨z, hz⟩
    · exact absurd rfl hne
    · exact ⟨z, by simp [ab_loop_max, hz]⟩
  | cons col rest ih =>
    intro alpha v bc hv
    simp only [ab_loop_max]
    obtain ⟨zs, hzs⟩ := hA (drop_piece b (get_next_open_row b col) col 1) alpha beta
    have hv2 : ∃ z, (if v < evalA (drop_piece b (get_next_open_row b col) col 1)
        alpha beta then evalA (drop_piece b (get_next_open_row b col) col 1)
        alpha beta else v) = iv z := by
      rcases hv with ⟨hbot, _⟩ | ⟨z, hz⟩
      · rw [hbot, if_pos (hzs ▸ bot_lt_iv zs)]
        exact ⟨zs, hzs⟩
      · split
        · exact ⟨zs, hzs⟩
        · exact ⟨z, hz⟩
      -- the updated value is an integer in both branches
    obtain ⟨z2, hz2⟩ := hv2
    rw [hz2]
    split
    · exact ⟨z2, rfl⟩
    · exact ih _ _ _ (Or.inr ⟨z2, rfl⟩)

theorem ab_loop_min_int (evalA : Game.Board → EV → EV → EV) (b : Game.Board)
    (alpha : EV) (hA : ∀ tb a2 b2, ∃ z, evalA tb a2 b2 = iv z) :
    ∀ (l : List Nat) (beta v : EV) (bc : Nat),
      ((v = ⊤ ∧ l ≠ []) ∨ ∃ z, v = iv z) →
      ∃ z, (ab_loop_min evalA b alpha l beta v bc).2 = iv z := by
  intro l
  induction l with
  | nil =>
    intro beta v bc hv
    rcases hv with ⟨_, hne⟩ | ⟨z, hz⟩
    · exact absurd rfl hne
    · exact ⟨z, by simp [ab_loop_min, hz]⟩
  | cons col rest ih =>
    intro beta v bc hv
    simp only [ab_loop_min]
    obtain ⟨zs, hzs⟩ := hA (drop_piece b (get_next_open_row b col) col (-1)) alpha beta
    have hv2 : ∃ z, (if evalA (drop_piece b (get_next_open_row b col) col (-1))
        alpha beta < v then evalA (drop_piece b (get_next_open_row b col) col (-1))
        alpha beta else v) = iv z := by
      rcases hv with ⟨htop, _⟩ | ⟨z, hz⟩
      · rw [htop, if_pos (hzs ▸ iv_lt_top zs)]
        exact ⟨zs, hzs⟩
      · split
        · exact ⟨zs, hzs⟩
        · exact ⟨z, hz⟩
    obtain ⟨z2, hz2⟩ := hv2
    rw [hz2]
    split
    · exact ⟨z2, rfl⟩
    · exact ih _ _ _ (Or.inr ⟨z2, rfl⟩)

theorem minimax_alpha_beta_int (ch : Game.Board → Nat → Bool → Nat) :
    ∀ (d : Nat) (b : Game.Board) (alpha beta : EV) (m : Bool),
      ∃ z, (minimax_alpha_beta ch d b alpha beta m).2 = iv z := by
  intro d
  induction d with
  | zero => intro b alpha beta m; exact minimax_leaf_int b
  | succ d ih =>
    intro b alpha beta m
    rw [minimax_alpha_beta]
    split
    · exact minimax_leaf_int b
    · rename_i hterm
      split
      · exact ab_loop_max_int _ b beta (fun tb a2 b2 => ih tb a2 b2 false) _ _ _ _
          (Or.inl ⟨rfl, valid_ne_nil b (Bool.of_not_eq_true hterm)⟩)
      · exact ab_loop_min_int _ b alpha (fun tb a2 b2 => ih tb a2 b2 true) _ _ _ _
          (Or.inl ⟨rfl, valid_ne_nil b (Bool.of_not_eq_true hterm)⟩)

/-- Knuth–Moore correctness of the embedded fail-soft alpha-beta search:
at any window `alpha < beta`, its value relates to the exact minimax
value by the fail-soft bounds. -/
theorem km_main (ch1 ch2 : Game.Board → Nat → Bool → Nat) :
    ∀ (d : Nat) (b : Game.Board) (alpha beta : EV) (m : Bool), alpha < beta →
      KM (minimax_alpha_beta ch2 d b alpha beta m).2
        (minimax_basic ch1 d b m).2 alpha beta := by
  intro d
  induction d with
  | zero => intro b alpha beta m _; exact KM_refl _ _ _
  | succ d ih =>
    intro b alpha beta m hab
    rw [minimax_alpha_beta, minimax_basic]
    split
    · exact KM_refl _ _ _
    · split
      · exact km_loop_max _ _ b alpha beta
          (fun tb a2 h2 => ih tb a2 beta false h2) _ alpha ⊥ ⊥ _ _
          (max_bot_right alpha).symm hab (fun _ => le_refl ⊥)
          (fun h => absurd h (not_lt_bot)) 
      · exact km_loop_min _ _ b alpha beta
          (fun tb b2 h2 => ih tb alpha b2 true h2) _ beta ⊤ ⊤ _ _
          (min_top_right beta).symm hab (fun _ => le_refl ⊤)
          (fun h => absurd h (not_top_lt))

theorem root_loop_max (evalA : Game.Board → EV → EV → EV) (evalB : Game.Board → EV)
    (b : Game.Board)
    (hA : ∀ tb a2 b2, ∃ z, evalA tb a2 b2 = iv z)
    (hkm : ∀ tb a2, a2 < ⊤ → KM (evalA tb a2 ⊤) (evalB tb) a2 ⊤) :
    ∀ (l : List Nat) (v : EV) (bcA bcB : Nat),
      (v = ⊥ ∨ ∃ z, v = iv z) →
      (v ≠ ⊥ → bcA = bcB) →
      (ab_loop_max evalA b ⊤ l v v bcA).2 = (bas_loop_max evalB b l v bcB).2 ∧
      ((l ≠ [] ∨ v ≠ ⊥) →
        (ab_loop_max evalA b ⊤ l v v bcA).1 = (bas_loop_max evalB b l v bcB).1) := by
  intro l
  induction l with
  | nil =>
    intro v bcA bcB _ hbc
    refine ⟨rfl, fun hne => ?_⟩
    rcases hne with hne | hne
    · exact absurd rfl hne
    · simp [ab_loop_max, bas_loop_max, hbc hne]
  | cons col rest ih =>
    intro v bcA bcB hv hbc
    simp only [ab_loop_max, bas_loop_max]
    set tb := drop_piece b (get_next_open_row b col) col 1 with htb
    have hvt : v < ⊤ := by
      rcases hv with hv | ⟨z, hz⟩
      · rw [hv]; exact bot_lt_top
      · rw [hz]; exact iv_lt_top z
    obtain ⟨k1, k2, k3⟩ := hkm tb v hvt
    obtain ⟨zs, hzs⟩ := hA tb v ⊤
    set s := evalA tb v ⊤ with hs
    set sc := evalB tb with hsc
    have hst : s < ⊤ := hzs ▸ iv_lt_top zs
    rcases lt_or_ge v s with hvs | hsv
    · -- both sides update to the exact child value
      have hseq : s = sc := k2 hvs hst
      simp only [if_pos hvs]
      have halpha2 : max v s = s := max_eq_right hvs.le
      rw [halpha2]
      rw [if_neg (not_le_of_lt hst)]
      rw [← hseq, if_pos hvs]
      have hres := ih s col col (Or.inr ⟨zs, hzs⟩) (fun _ => rfl)
      exact ⟨hres.1, fun _ => hres.2 (Or.inr (hzs ▸ iv_ne_bot zs))⟩
    · -- child fails low on both sides: no update
      have hvne : v ≠ ⊥ := by
        intro hbot
        rw [hbot] at hsv
        exact absurd (le_bot_iff.mp hsv) (hzs ▸ iv_ne_bot zs)
      have hscs : sc ≤ s := k1 hsv
      simp only [if_neg (not_lt_of_ge hsv)]
      have hnsc : ¬ v < sc := not_lt_of_ge (hscs.trans hsv)
      rw [if_neg hnsc]
      have halpha2 : max v v = v := max_self v
      rw [halpha2]
      rw [if_neg (not_le_of_lt hvt)]
      rw [hbc hvne]
      have hres := ih v bcB bcB hv (fun _ => rfl)
      exact ⟨hres.1, fun _ => hres.2 (Or.inr hvne)⟩

end Alg

/-- C1: for every board position and every search depth, and for every
outcome of the random initial tie-break choice in either search, the root
column returned by the alpha-beta pruned search `minimax_alpha_beta`
(invoked as in the repository with the full window `(-inf, inf)` and
`maximizing_player = True`) equals the root column returned by the full
unpruned search `minimax_basic` at the same depth: pruning never changes
the selected column. -/
theorem C1_alpha_beta_same_column (ch1 ch2 : Game.Board → Nat → Bool → Nat)
    (d : Nat) (b : Game.Board) :
    (Alg.minimax_basic ch1 d b true).1 =
      (Alg.minimax_alpha_beta ch2 d b ⊥ ⊤ true).1 := by
  cases d with
  | zero => rfl
  | succ d =>
    rw [Alg.minimax_basic, Alg.minimax_alpha_beta]
    split
    · rfl
    · rename_i hterm
      simp only [if_pos rfl]
      have hres := Alg.root_loop_max
        (fun tb a2 b2 => (Alg.minimax_alpha_beta ch2 d tb a2 b2 false).2)
        (fun tb => (Alg.minimax_basic ch1 d tb false).2) b
        (fun tb a2 b2 => Alg.minimax_alpha_beta_int ch2 d tb a2 b2 false)
        (fun tb a2 h2 => Alg.km_main ch1 ch2 d tb a2 ⊤ false h2)
        (Game.get_valid_locations b) ⊥ (ch2 b (d + 1) true) (ch1 b (d + 1) true)
        (Or.inl rfl) (fun h => absurd rfl h)
      exact (hres.2 (Or.inl (Alg.valid_ne_nil b (Bool.of_not_eq_true hterm)))).symm

/-! ### C2: evaluator (anti)symmetry -/
theorem sum_map_neg (l : List Nat) (f : Nat → Int) :
    (l.map fun x => -f x).sum = -((l.map f).sum) := by
  induction l with
  | nil => simp
  | cons a t ih => simp [ih]; ring

/-- C2 (amended): the positional evaluation-board component of agent.py
`score_position` is antisymmetric between the two sides: on any grid
whose cells are only 1, -1, 0, its value for `PLAYER_AI` is the negation
of its value for `PLAYER_HUMAN`.  (The full evaluators are not
antisymmetric; see the counterexample.) -/
theorem C2_position_bonus_antisymmetric (b : Game.Board)
    (h : cells_ok b = true) :
    Agent.position_bonus b 1 = -(Agent.position_bonus b (-1)) := by
  unfold Agent.position_bonus
  rw [← sum_map_neg]
  congr 1
  apply List.map_congr_left
  intro r hr
  rw [← sum_map_neg]
  congr 1
  apply List.map_congr_left
  intro c hc
  have hcell := (List.all_eq_true.mp ((List.all_eq_true.mp h) r hr) c hc)
  have hval : Game.cell b r c = 1 ∨ Game.cell b r c = -1 ∨ Game.cell b r c = 0 := by
    rcases Bool.or_eq_true_iff.mp hcell with h1 | h1
    · rcases Bool.or_eq_true_iff.mp h1 with h2 | h2
      · exact Or.inl (by exact_mod_cast eq_of_beq h2)
      · exact Or.inr (Or.inl (by exact_mod_cast eq_of_beq h2))
    · exact Or.inr (Or.inr (by exact_mod_cast eq_of_beq h1))
  rcases hval with hv | hv | hv <;> simp [hv]

/-- Witness for C2's amended theorem: a concrete reachable grid
satisfying the hypothesis, with the antisymmetry instantiated there. -/
theorem C2_position_bonus_antisymmetric_witness :
    cells_ok [[1, 1, 0, 0, 0, -1, -1], [0, 0, 0, 0, 0, 0, 0],
      [0, 0, 0, 0, 0, 0, 0], [0, 0, 0, 0, 0, 0, 0], [0, 0, 0, 0, 0, 0, 0],
      [0, 0, 0, 0, 0, 0, 0]] = true ∧
    Agent.position_bonus [[1, 1, 0, 0, 0, -1, -1], [0, 0, 0, 0, 0, 0, 0],
      [0, 0, 0, 0, 0, 0, 0], [0, 0, 0, 0, 0, 0, 0], [0, 0, 0, 0, 0, 0, 0],
      [0, 0, 0, 0, 0, 0, 0]] 1 =
    -(Agent.position_bonus [[1, 1, 0, 0, 0, -1, -1], [0, 0, 0, 0, 0, 0, 0],
      [0, 0, 0, 0, 0, 0, 0], [0, 0, 0, 0, 0, 0, 0], [0, 0, 0, 0, 0, 0, 0],
      [0, 0, 0, 0, 0, 0, 0]] (-1)) :=
  ⟨by decide, C2_position_bonus_antisymmetric _ (by decide)⟩

/-- C2 counterexample: the evaluators are not antisymmetric.  On the
reachable grid with AI on the bottom of columns 0 and 1 and Human on the
bottom of columns 5 and 6 (four alternating drops), agent.py
`score_position` (fresh cache) gives -2 for both sides, so
`score(b, AI) != -score(b, HUMAN)`; and on the reachable bitboard with
three Human pieces in column 0 and three AI pieces in column 6,
exchanging the two players' pieces does not negate `evaluate_bitboard`
(both positions evaluate to -3000000, because fake-zero handling turns
the floating cells above the Human stack into Human pieces). -/
theorem C2_counterexample :
    ¬ ((Agent.score_position [] [[1, 1, 0, 0, 0, -1, -1], [0, 0, 0, 0, 0, 0, 0],
        [0, 0, 0, 0, 0, 0, 0], [0, 0, 0, 0, 0, 0, 0], [0, 0, 0, 0, 0, 0, 0],
        [0, 0, 0, 0, 0, 0, 0]] 1).1 =
      -(Agent.score_position [] [[1, 1, 0, 0, 0, -1, -1], [0, 0, 0, 0, 0, 0, 0],
        [0, 0, 0, 0, 0, 0, 0], [0, 0, 0, 0, 0, 0, 0], [0, 0, 0, 0, 0, 0, 0],
        [0, 0, 0, 0, 0, 0, 0]] (-1)).1) ∧
    ¬ (BB.evaluate_bitboard
        (BB.playBB [(0, 0), (6, 1), (0, 0), (6, 1), (0, 0), (6, 1)]) =
      -(BB.evaluate_bitboard
        (BB.playBB [(0, 1), (6, 0), (0, 1), (6, 0), (0, 1), (6, 0)]))) := by
  constructor
  · decide
  · decide

/-- C6 (code bug): floating cells ARE mis-read by the pattern counter.
On the reachable position with three Human pieces stacked in column 0
(and two AI pieces in column 6), fake-zero handling rewrites the three
floating empty cells of column 0 into Human pieces, so
`count_consecutive_pieces` reports three vertical Human four-in-a-row
patterns and `check_win` claims a Human win, even though the honest
full-board scan (`winning_move` on the same position) finds no
four-in-a-row. -/
theorem C6_floating_cells_counted :
    (BB.count_consecutive_pieces
      (BB.playBB [(0, 1), (6, 0), (0, 1), (6, 0), (0, 1)]) 1).four = 3 ∧
    BB.check_win (BB.playBB [(0, 1), (6, 0), (0, 1), (6, 0), (0, 1)]) 1 = true ∧
    Game.winning_move
      (BB.trad_of_bb (BB.playBB [(0, 1), (6, 0), (0, 1), (6, 0), (0, 1)]))
      (-1) = false := by
  refine ⟨by decide, by decide, by decide⟩

namespace BB

/-! ### Bit-level facts about the packed bitboard -/
theorem and_one_toNat (x : Nat) : x &&& 1 = (x.testBit 0).toNat := by
  rw [Nat.and_one_is_mod]
  rcases Nat.mod_two_eq_zero_or_one x with h | h <;> simp [Nat.testBit_zero, h]

theorem testBit_and_not (a m i : Nat) :
    (and_not a m).testBit i = (a.testBit i && !(m.testBit i)) := by
  unfold and_not
  rw [Nat.testBit_xor, Nat.testBit_land]
  cases a.testBit i <;> cases m.testBit i <;> rfl

theorem testBit_one_shift (p i : Nat) : ((1 <<< p) : Nat).testBit i = decide (p = i) := by
  rw [Nat.shiftLeft_eq, one_mul, Nat.testBit_two_pow]

theorem testBit_small (x k : Nat) (hx : x < 8) (hk : 3 ≤ k) : x.testBit k = false := by
  have hpow : (2 : Nat) ^ 3 ≤ 2 ^ k := Nat.pow_le_pow_right (by decide) hk
  exact Nat.testBit_eq_false_of_lt (lt_of_lt_of_le hx hpow)

theorem testBit_shift_small (x n i : Nat) (hx : x < 8) :
    ((x <<< n) : Nat).testBit i =
      (decide (n ≤ i) && decide (i - n < 3) && x.testBit (i - n)) := by
  rw [Nat.testBit_shiftLeft]
  rcases le_or_lt n i with h | h
  · rcases lt_or_ge (i - n) 3 with h3 | h3
    · simp [h, h3, ge_iff_le]
    · simp [h, ge_iff_le, not_lt_of_ge h3, testBit_small x (i - n) hx h3]
  · simp [ge_iff_le, not_le_of_lt h]

theorem getD_set_self (l : List Nat) (i v : Nat) (h : i < l.length) :
    (l.set i v).getD i 0 = v := by
  rw [List.getD_eq_getElem?_getD, List.getElem?_set]
  simp [h]

theorem getD_set_ne (l : List Nat) (i j v : Nat) (h : i ≠ j) :
    (l.set i v).getD j 0 = l.getD j 0 := by
  rw [List.getD_eq_getElem?_getD, List.getElem?_set, if_neg h,
    ← List.getD_eq_getElem?_getD]

theorem Inv_empty : Inv emptyBB := by
  refine ⟨rfl, ?_, ?_, ?_, ?_⟩
  · intro c hc
    interval_cases c <;> simp [emptyBB]
  · intro c r _ _ _
    simp [emptyBB]
  · intro c k hc hk
    have h0 : (emptyBB.heights.getD c 0) = 0 := by
      interval_cases c <;> rfl
    rw [h0]
    simp [emptyBB]
  · intro i _
    simp [emptyBB]

/-- `get_cell` in terms of a single `testBit` (rows 0-5). -/
theorem get_cell_testBit (bb : Bitboard) (r c : Nat) (hr : r < 6) :
    get_cell bb r c = if bb.heights.getD c 0 ≤ r then 2
      else (bb.board.testBit (c * 9 + r)).toNat := by
  unfold get_cell extract_column_bits
  split
  · rfl
  · rw [and_one_toNat]
    congr 1
    rw [Nat.testBit_shiftRight, Nat.add_zero, Nat.testBit_land,
      Nat.testBit_shiftRight, show (63 : Nat) = 2 ^ 6 - 1 from rfl,
      Nat.testBit_two_pow_sub_one]
    simp [hr]

theorem make_move_full (bb : Bitboard) (col p : Nat)
    (h : 6 ≤ bb.heights.getD col 0) : make_move bb col p = bb := by
  unfold make_move
  rw [if_pos h]

theorem heights_make_move (bb : Bitboard) (col p : Nat)
    (hlen : bb.heights.length = 7) (hcol : col < 7)
    (hleg : bb.heights.getD col 0 < 6) (c : Nat) :
    (make_move bb col p).heights.getD c 0 =
      if c = col then bb.heights.getD col 0 + 1 else bb.heights.getD c 0 := by
  unfold make_move
  rw [if_neg (not_le_of_lt hleg)]
  by_cases hc : c = col
  · subst hc
    rw [if_pos rfl]
    exact getD_set_self _ _ _ (by omega)
  · rw [if_neg hc]
    exact getD_set_ne _ _ _ _ (fun h2 => hc h2.symm)

/-- The packed integer after a legal `make_move`, bit by bit: the three
helper bits of the played column now hold the new height; every other
position keeps its bit, except that the new cell bit is set when the
player bit is 1. -/
theorem board_bit_make_move (bb : Bitboard) (col p i : Nat)
    (hlen : bb.heights.length = 7) (hcol : col < 7)
    (hleg : bb.heights.getD col 0 < 6) :
    (make_move bb col p).board.testBit i =
      if col * 9 + 6 ≤ i ∧ i < col * 9 + 9 then
        (bb.heights.getD col 0 + 1).testBit (i - (col * 9 + 6))
      else
        (bb.board.testBit i ||
          (p == 1 && decide (i = col * 9 + bb.heights.getD col 0))) := by
  unfold make_move
  rw [if_neg (not_le_of_lt hleg)]
  simp only
  have hset : (bb.heights.set col (bb.heights.getD col 0 + 1)).getD col 0 =
      bb.heights.getD col 0 + 1 := getD_set_self _ _ _ (by omega)
  rw [Nat.testBit_lor, testBit_and_not,
    testBit_shift_small 7 (col * 9 + 6) i (by omega), hset,
    testBit_shift_small (bb.heights.getD col 0 + 1) (col * 9 + 6) i (by omega)]
  by_cases hreg : col * 9 + 6 ≤ i ∧ i < col * 9 + 9
  · have hA : col * 9 + 6 ≤ i := hreg.1
    have hB : i - (col * 9 + 6) < 3 := by omega
    have h7 : (7 : Nat).testBit (i - (col * 9 + 6)) = true := by
      interval_cases hk : (i - (col * 9 + 6)) <;> rfl
    rw [if_pos hreg]
    simp [hA, hB, h7]
  · rw [if_neg hreg]
    have hAB : ¬ (col * 9 + 6 ≤ i ∧ i - (col * 9 + 6) < 3) := by omega
    by_cases hA : col * 9 + 6 ≤ i
    · have hB : ¬ (i - (col * 9 + 6) < 3) := fun h2 => hAB ⟨hA, h2⟩
      by_cases hp : p == 1
      · rw [if_pos hp, hp]
        rw [Nat.testBit_lor, testBit_one_shift]
        have hcomm : decide (col * 9 + bb.heights.getD col 0 = i) =
            decide (i = col * 9 + bb.heights.getD col 0) := by
          simp [eq_comm]
        rw [hcomm]
        simp [hA, hB]
      · rw [if_neg hp]
        have hp2 : (p == 1) = false := Bool.not_eq_true _ ▸ eq_false_of_ne_true hp
        rw [hp2]
        simp [hA, hB]
    · by_cases hp : p == 1
      · rw [if_pos hp, hp]
        rw [Nat.testBit_lor, testBit_one_shift]
        have hcomm : decide (col * 9 + bb.heights.getD col 0 = i) =
            decide (i = col * 9 + bb.heights.getD col 0) := by
          simp [eq_comm]
        rw [hcomm]
        simp [hA]
      · rw [if_neg hp]
        have hp2 : (p == 1) = false := Bool.not_eq_true _ ▸ eq_false_of_ne_true hp
        rw [hp2]
        simp [hA]

theorem heights_make_move_eq (bb : Bitboard) (col p : Nat)
    (hleg : bb.heights.getD col 0 < 6) :
    (make_move bb col p).heights = bb.heights.set col (bb.heights.getD col 0 + 1) := by
  unfold make_move
  rw [if_neg (not_le_of_lt hleg)]

/-- A legal `make_move` changes exactly one cell: the new piece appears
at the top of the played column, every other cell is unchanged. -/
theorem get_cell_make_move (bb : Bitboard) (col p c r : Nat)
    (hInv : Inv bb) (hcol : col < 7) (hleg : bb.heights.getD col 0 < 6)
    (hc : c < 7) (hr : r < 6) (hp : p = 0 ∨ p = 1) :
    get_cell (make_move bb col p) r c =
      if c = col ∧ r = bb.heights.getD col 0 then p
      else get_cell bb r c := by
  have hbit := board_bit_make_move bb col p (c * 9 + r) hInv.hlen hcol hleg
  have hregfalse : ¬ (col * 9 + 6 ≤ c * 9 + r ∧ c * 9 + r < col * 9 + 9) := by omega
  rw [if_neg hregfalse] at hbit
  rw [get_cell_testBit _ _ _ hr, get_cell_testBit _ _ _ hr,
    heights_make_move bb col p hInv.hlen hcol hleg c, hbit]
  by_cases hcc : c = col
  · subst hcc
    rw [if_pos (rfl : c = c)]
    by_cases hrr : r = bb.heights.getD c 0
    · rw [if_pos (⟨rfl, hrr⟩ : c = c ∧ r = bb.heights.getD c 0)]
      have hlt : ¬ (bb.heights.getD c 0 + 1 ≤ r) := by omega
      rw [if_neg hlt]
      have hcln : bb.board.testBit (c * 9 + r) = false :=
        hInv.clean c r hc hr (le_of_eq hrr.symm)
      have hdect : decide ((c * 9 + r : Nat) = c * 9 + bb.heights.getD c 0) = true := by
        simp [hrr]
      rcases hp with hp | hp <;> subst hp
      · simp [hcln]
      · simp [hrr, List.getD_eq_getElem?_getD]
    · rw [if_neg (fun hand : c = c ∧ r = bb.heights.getD c 0 => hrr hand.2)]
      have hdecf : decide ((c * 9 + r : Nat) = c * 9 + bb.heights.getD c 0) = false := by
        simp only [decide_eq_false_iff_not]
        omega
      rw [hdecf]
      simp only [Bool.and_false, Bool.or_false]
      by_cases hle : bb.heights.getD c 0 ≤ r
      · have h2 : bb.heights.getD c 0 + 1 ≤ r := by omega
        rw [if_pos h2, if_pos hle]
      · have h2 : ¬ (bb.heights.getD c 0 + 1 ≤ r) := by omega
        rw [if_neg h2, if_neg hle]
  · rw [if_neg hcc]
    rw [if_neg (fun hand : c = col ∧ r = bb.heights.getD col 0 => hcc hand.1)]
    have hdecf : decide ((c * 9 + r : Nat) = col * 9 + bb.heights.getD col 0) = false := by
      simp only [decide_eq_false_iff_not]
      omega
    rw [hdecf]
    simp only [Bool.and_false, Bool.or_false]

theorem Inv_make_move (bb : Bitboard) (col p : Nat) (hInv : Inv bb)
    (hcol : col < 7) : Inv (make_move bb col p) := by
  rcases le_or_lt 6 (bb.heights.getD col 0) with hfull | hleg
  · rw [make_move_full bb col p hfull]
    exact hInv
  · have hhs := heights_make_move bb col p hInv.hlen hcol hleg
    have hbit := fun i => board_bit_make_move bb col p i hInv.hlen hcol hleg
    refine ⟨?_, ?_, ?_, ?_, ?_⟩
    · rw [heights_make_move_eq bb col p hleg, List.length_set]
      exact hInv.hlen
    · intro c hc
      rw [hhs c]
      by_cases hcc : c = col
      · rw [if_pos hcc]
        omega
      · rw [if_neg hcc]
        exact hInv.hle c hc
    · intro c r hc hr hge
      rw [hhs c] at hge
      rw [hbit (c * 9 + r)]
      have hregfalse : ¬ (col * 9 + 6 ≤ c * 9 + r ∧ c * 9 + r < col * 9 + 9) := by
        omega
      rw [if_neg hregfalse]
      by_cases hcc : c = col
      · subst hcc
        rw [if_pos rfl] at hge
        have hcln : bb.board.testBit (c * 9 + r) = false :=
          hInv.clean c r hc hr (by omega)
        have hdecf : decide ((c * 9 + r : Nat) = c * 9 + bb.heights.getD c 0) = false := by
          simp only [decide_eq_false_iff_not]
          omega
        rw [hcln, hdecf]
        simp
      · rw [if_neg hcc] at hge
        have hcln : bb.board.testBit (c * 9 + r) = false :=
          hInv.clean c r hc hr hge
        have hdecf : decide ((c * 9 + r : Nat) = col * 9 + bb.heights.getD col 0) = false := by
          simp only [decide_eq_false_iff_not]
          omega
        rw [hcln, hdecf]
        simp
    · intro c k hc hk
      rw [hhs c, hbit (c * 9 + 6 + k)]
      by_cases hcc : c = col
      · subst hcc
        have hreg : c * 9 + 6 ≤ c * 9 + 6 + k ∧ c * 9 + 6 + k < c * 9 + 9 := by omega
        rw [if_pos hreg, if_pos rfl]
        congr 1
        omega
      · have hregfalse : ¬ (col * 9 + 6 ≤ c * 9 + 6 + k ∧ c * 9 + 6 + k < col * 9 + 9) := by
          omega
        rw [if_neg hregfalse, if_neg hcc]
        have hdecf : decide ((c * 9 + 6 + k : Nat) = col * 9 + bb.heights.getD col 0) =
            false := by
          simp only [decide_eq_false_iff_not]
          have := hInv.hle col hcol
          omega
        rw [hdecf, hInv.helper c k hc hk]
        simp
    · intro i hi
      rw [hbit i]
      have hregfalse : ¬ (col * 9 + 6 ≤ i ∧ i < col * 9 + 9) := by omega
      rw [if_neg hregfalse]
      have hdecf : decide (i = col * 9 + bb.heights.getD col 0) = false := by
        simp only [decide_eq_false_iff_not]
        have := hInv.hle col hcol
        omega
      rw [hdecf, hInv.high i hi]
      simp

theorem Inv_foldl (ms : List (Nat × Nat)) :
    ∀ bb : Bitboard, Inv bb → (∀ m ∈ ms, m.1 < 7) →
      Inv (ms.foldl (fun b m => make_move b m.1 m.2) bb) := by
  induction ms with
  | nil => intro bb h _; exact h
  | cons m rest ih =>
    intro bb h hms
    exact ih _ (Inv_make_move bb m.1 m.2 h (hms m (List.mem_cons_self m rest)))
      (fun x hx => hms x (List.mem_cons_of_mem m hx))

/-- Every position reachable by drops on columns 0-6 satisfies the
bitboard invariant. -/
theorem Inv_playBB (ms : List (Nat × Nat)) (hms : ∀ m ∈ ms, m.1 < 7) :
    Inv (playBB ms) :=
  Inv_foldl ms emptyBB Inv_empty hms

end BB

namespace ABB

open BB

/-- Soundness of the walk: every counted cell satisfies `cellP`. -/
theorem walk_count_sound (bb : BB.Bitboard) (p : Nat) (dr dc : Int) :
    ∀ (fuel : Nat) (r c : Int) (j : Nat),
      j < walk_count bb p fuel r c dr dc →
      cellP bb p (r + j * dr) (c + j * dc) := by
  intro fuel
  induction fuel with
  | zero => intro r c j h; simp [walk_count] at h
  | succ fuel ih =>
    intro r c j hj
    rw [walk_count] at hj
    by_cases hb : 0 ≤ r ∧ r < 6 ∧ 0 ≤ c ∧ c < 7
    · rw [if_pos hb] at hj
      by_cases hcell : BB.get_cell bb r.toNat c.toNat == p
      · rw [if_pos hcell] at hj
        cases j with
        | zero =>
          simp only [Nat.cast_zero, zero_mul, add_zero]
          exact ⟨hb.1, hb.2.1, hb.2.2.1, hb.2.2.2, by simpa using hcell⟩
        | succ j2 =>
          have hj2 : j2 < walk_count bb p fuel (r + dr) (c + dc) dr dc := by omega
          have := ih (r + dr) (c + dc) j2 hj2
          have harith : r + dr + j2 * dr = r + (j2 + 1 : Nat) * dr := by
            push_cast
            ring
          have harith2 : c + dc + j2 * dc = c + (j2 + 1 : Nat) * dc := by
            push_cast
            ring
          rw [harith, harith2] at this
          exact this
      · rw [if_neg hcell] at hj
        omega
    · rw [if_neg hb] at hj
      omega

/-- Maximality of the walk: if the first `m` cells (within fuel) satisfy
`cellP`, the walk counts at least `m`. -/
theorem walk_count_ge (bb : BB.Bitboard) (p : Nat) (dr dc : Int) :
    ∀ (fuel m : Nat) (r c : Int), m ≤ fuel →
      (∀ j : Nat, j < m → cellP bb p (r + j * dr) (c + j * dc)) →
      m ≤ walk_count bb p fuel r c dr dc := by
  intro fuel
  induction fuel with
  | zero => intro m r c hm _; omega
  | succ fuel ih =>
    intro m r c hm hP
    cases m with
    | zero => omega
    | succ m2 =>
      have h0 := hP 0 (by omega)
      simp only [Nat.cast_zero, zero_mul, add_zero] at h0
      rw [walk_count, if_pos ⟨h0.1, h0.2.1, h0.2.2.1, h0.2.2.2.1⟩,
        if_pos (by simpa using h0.2.2.2.2)]
      have hrec : m2 ≤ walk_count bb p fuel (r + dr) (c + dc) dr dc := by
        refine ih m2 (r + dr) (c + dc) (by omega) ?_
        intro j hj
        have := hP (j + 1) (by omega)
        have harith : r + (j + 1 : Nat) * dr = r + dr + j * dr := by
          push_cast
          ring
        have harith2 : c + (j + 1 : Nat) * dc = c + dc + j * dc := by
          push_cast
          ring
        rw [harith, harith2] at this
        exact this
      omega

/-- The two-sided run count through an occupied cell reaches 4 exactly
when some aligned 4-window through that cell is monochromatic. -/
theorem count_ge_four_iff (bb : BB.Bitboard) (p : Nat) (r0 c0 dr dc : Int)
    (hP0 : cellP bb p r0 c0) :
    (4 ≤ 1 + walk_count bb p 8 (r0 + dr) (c0 + dc) dr dc
        + walk_count bb p 8 (r0 - dr) (c0 - dc) (-dr) (-dc)) ↔
    ∃ k : Int, -3 ≤ k ∧ k ≤ 0 ∧ ∀ i : Int, 0 ≤ i → i < 4 →
      cellP bb p (r0 + (k + i) * dr) (c0 + (k + i) * dc) := by
  have hfwd : ∀ j : Nat, j < walk_count bb p 8 (r0 + dr) (c0 + dc) dr dc →
      cellP bb p (r0 + (1 + j : Int) * dr) (c0 + (1 + j : Int) * dc) := by
    intro j hj
    have hres := walk_count_sound bb p dr dc 8 (r0 + dr) (c0 + dc) j hj
    have e1 : r0 + dr + j * dr = r0 + (1 + (j : Int)) * dr := by ring
    have e2 : c0 + dc + j * dc = c0 + (1 + (j : Int)) * dc := by ring
    rw [e1, e2] at hres
    exact hres
  have hbwd : ∀ j : Nat, j < walk_count bb p 8 (r0 - dr) (c0 - dc) (-dr) (-dc) →
      cellP bb p (r0 - (1 + j : Int) * dr) (c0 - (1 + j : Int) * dc) := by
    intro j hj
    have hres := walk_count_sound bb p (-dr) (-dc) 8 (r0 - dr) (c0 - dc) j hj
    have e1 : r0 - dr + j * (-dr) = r0 - (1 + (j : Int)) * dr := by ring
    have e2 : c0 - dc + j * (-dc) = c0 - (1 + (j : Int)) * dc := by ring
    rw [e1, e2] at hres
    exact hres
  constructor
  · intro h4
    set a := walk_count bb p 8 (r0 + dr) (c0 + dc) dr dc with ha
    set b := walk_count bb p 8 (r0 - dr) (c0 - dc) (-dr) (-dc) with hb
    refine ⟨-(min (b : Int) 3), by omega, by omega, ?_⟩
    intro i hi0 hi4
    set q : Int := -(min (b : Int) 3) + i with hq
    rcases lt_trichotomy q 0 with hq0 | hq0 | hq0
    · have hjq : ∃ j : Nat, j < b ∧ (1 + (j : Int)) = -q := by
        refine ⟨(-q - 1).toNat, ?_, ?_⟩ <;> omega
      obtain ⟨j, hjb, hje⟩ := hjq
      have hres := hbwd j hjb
      rw [hje] at hres
      have e1 : r0 - -q * dr = r0 + q * dr := by ring
      have e2 : c0 - -q * dc = c0 + q * dc := by ring
      rw [e1, e2] at hres
      exact hres
    · rw [hq0]
      simpa using hP0
    · have hjq : ∃ j : Nat, j < a ∧ (1 + (j : Int)) = q := by
        refine ⟨(q - 1).toNat, ?_, ?_⟩ <;> omega
      obtain ⟨j, hja, hje⟩ := hjq
      have hres := hfwd j hja
      rw [hje] at hres
      exact hres
  · rintro ⟨k, hk3, hk0, hwin⟩
    have hfok : (k + 3).toNat ≤ walk_count bb p 8 (r0 + dr) (c0 + dc) dr dc := by
      refine walk_count_ge bb p dr dc 8 _ _ _ (by omega) ?_
      intro j hj
      have hres := hwin (1 + j - k) (by omega) (by omega)
      have e1 : r0 + (k + (1 + (j : Int) - k)) * dr = r0 + dr + j * dr := by ring
      have e2 : c0 + (k + (1 + (j : Int) - k)) * dc = c0 + dc + j * dc := by ring
      rw [e1, e2] at hres
      exact hres
    have hbok : (-k).toNat ≤ walk_count bb p 8 (r0 - dr) (c0 - dc) (-dr) (-dc) := by
      refine walk_count_ge bb p (-dr) (-dc) 8 _ _ _ (by omega) ?_
      intro j hj
      have hres := hwin (-(1 + j) - k) (by omega) (by omega)
      have e1 : r0 + (k + (-(1 + (j : Int)) - k)) * dr = r0 - dr + j * -dr := by ring
      have e2 : c0 + (k + (-(1 + (j : Int)) - k)) * dc = c0 - dc + j * -dc := by ring
      rw [e1, e2] at hres
      exact hres
    omega

theorem count_pair_iff (bb : BB.Bitboard) (p : Nat) (r0 c0 dr dc dr2 dc2 : Int)
    (h2 : dr2 = -dr) (h3 : dc2 = -dc) (hP0 : cellP bb p r0 c0) :
    (4 ≤ 1 + walk_count bb p 8 (r0 + dr) (c0 + dc) dr dc
        + walk_count bb p 8 (r0 + dr2) (c0 + dc2) dr2 dc2) ↔
    through bb p r0 c0 dr dc := by
  subst h2 h3
  have e1 : r0 + -dr = r0 - dr := by ring
  have e2 : c0 + -dc = c0 - dc := by ring
  rw [e1, e2]
  exact count_ge_four_iff bb p r0 c0 dr dc hP0

/-- `bitboard_check_win_fast` holds exactly when some aligned 4-window
through the top piece of `last_col` is monochromatic for `p` (assuming
that top piece is `p`, as it is right after `p` played there). -/
theorem fast_check_iff (bb : BB.Bitboard) (p : Nat) (last_col : Nat)
    (hne : bb.heights.getD last_col 0 ≠ 0)
    (hP0 : cellP bb p ((bb.heights.getD last_col 0 - 1 : Nat) : Int) last_col) :
    bitboard_check_win_fast bb p last_col = true ↔
      (through bb p ((bb.heights.getD last_col 0 - 1 : Nat) : Int) last_col 0 1 ∨
       through bb p ((bb.heights.getD last_col 0 - 1 : Nat) : Int) last_col 1 0 ∨
       through bb p ((bb.heights.getD last_col 0 - 1 : Nat) : Int) last_col 1 1 ∨
       through bb p ((bb.heights.getD last_col 0 - 1 : Nat) : Int) last_col 1 (-1)) := by
  unfold bitboard_check_win_fast
  rw [if_neg (by simpa using hne)]
  simp only [List.any_cons, List.any_nil, Bool.or_false, Bool.or_eq_true,
    decide_eq_true_eq]
  rw [count_pair_iff bb p _ _ 0 1 0 (-1) (by norm_num) (by norm_num) hP0,
    count_pair_iff bb p _ _ 1 0 (-1) 0 (by norm_num) (by norm_num) hP0,
    count_pair_iff bb p _ _ 1 1 (-1) (-1) (by norm_num) (by norm_num) hP0,
    count_pair_iff bb p _ _ 1 (-1) (-1) 1 (by norm_num) (by norm_num) hP0]

theorem four_exists_iff (bb : BB.Bitboard) (p : Nat) :
    four_exists bb p = true ↔
      ((∃ c < 4, ∃ r < 6, ∀ i < 4, BB.get_cell bb r (c + i) = p) ∨
       (∃ c < 7, ∃ r < 3, ∀ i < 4, BB.get_cell bb (r + i) c = p) ∨
       (∃ c < 4, ∃ r < 3, ∀ i < 4, BB.get_cell bb (r + i) (c + i) = p) ∨
       (∃ c < 4, ∃ r, (3 ≤ r ∧ r < 6) ∧ ∀ i < 4, BB.get_cell bb (r - i) (c + i) = p)) := by
  unfold four_exists
  simp only [List.any_eq_true, List.all_eq_true, List.mem_range, Bool.or_eq_true,
    beq_iff_eq, List.mem_range'_1]
  norm_num
  rw [or_assoc, or_assoc]

theorem list_any_congr {α : Type} (l : List α) (f g : α → Bool)
    (h : ∀ a ∈ l, f a = g a) : l.any f = l.any g := by
  induction l with
  | nil => rfl
  | cons a t ih =>
    simp only [List.any_cons]
    rw [h a (List.mem_cons_self a t), ih (fun b hb => h b (List.mem_cons_of_mem a hb))]

theorem list_all_congr {α : Type} (l : List α) (f g : α → Bool)
    (h : ∀ a ∈ l, f a = g a) : l.all f = l.all g := by
  induction l with
  | nil => rfl
  | cons a t ih =>
    simp only [List.all_cons]
    rw [h a (List.mem_cons_self a t), ih (fun b hb => h b (List.mem_cons_of_mem a hb))]

theorem getD_map_range {β : Type} (n r : Nat) (g : Nat → β) (d : β) (h : r < n) :
    ((List.range n).map g).getD r d = g r := by
  rw [List.getD_eq_getElem?_getD, List.getElem?_map, List.getElem?_range h]
  rfl

theorem trad_cell (bb : BB.Bitboard) (r c : Nat) (hr : r < 6) (hc : c < 7) :
    Game.cell (BB.trad_of_bb bb) r c = BB.decode_val (BB.get_cell bb r c) := by
  unfold BB.trad_of_bb BB.to_2d_array Game.cell
  rw [List.map_map, getD_map_range 6 r _ [] hr]
  simp only [Function.comp]
  rw [List.map_map, getD_map_range 7 c _ 0 hc]
  rfl

theorem get_cell_cases (bb : BB.Bitboard) (r c : Nat) :
    BB.get_cell bb r c = 0 ∨ BB.get_cell bb r c = 1 ∨ BB.get_cell bb r c = 2 := by
  unfold BB.get_cell
  split
  · exact Or.inr (Or.inr rfl)
  · rw [BB.and_one_toNat]
    cases ((BB.extract_column_bits bb c >>> r).testBit 0)
    · exact Or.inl rfl
    · exact Or.inr (Or.inl rfl)

theorem cell_beq_congr (bb : BB.Bitboard) (p r c : Nat) (hr : r < 6) (hc : c < 7)
    (hp : p = 0 ∨ p = 1) :
    (Game.cell (BB.trad_of_bb bb) r c == BB.decode_val p) =
      (BB.get_cell bb r c == p) := by
  rw [trad_cell bb r c hr hc]
  rcases get_cell_cases bb r c with hv | hv | hv <;> rw [hv] <;>
    rcases hp with hp | hp <;> subst hp <;> rfl

/-- game.py `winning_move` on the decoded grid coincides with the
window scan `four_exists` on the bitboard cells. -/
theorem winning_move_trad (bb : BB.Bitboard) (p : Nat) (hp : p = 0 ∨ p = 1) :
    Game.winning_move (BB.trad_of_bb bb) (BB.decode_val p) = four_exists bb p := by
  unfold Game.winning_move four_exists
  have e1 := list_any_congr (List.range 4) _ _ (fun c hcm =>
    list_any_congr (List.range 6) _ _ (fun r hrm =>
      list_all_congr (List.range 4) _ _ (fun i him =>
        cell_beq_congr bb p r (c + i) (List.mem_range.mp hrm)
          (by have := List.mem_range.mp hcm; have := List.mem_range.mp him; omega)
          hp)))
  have e2 := list_any_congr (List.range 7) _ _ (fun c hcm =>
    list_any_congr (List.range 3) _ _ (fun r hrm =>
      list_all_congr (List.range 4) _ _ (fun i him =>
        cell_beq_congr bb p (r + i) c
          (by have := List.mem_range.mp hrm; have := List.mem_range.mp him; omega)
          (List.mem_range.mp hcm) hp)))
  have e3 := list_any_congr (List.range 4) _ _ (fun c hcm =>
    list_any_congr (List.range 3) _ _ (fun r hrm =>
      list_all_congr (List.range 4) _ _ (fun i him =>
        cell_beq_congr bb p (r + i) (c + i)
          (by have := List.mem_range.mp hrm; have := List.mem_range.mp him; omega)
          (by have := List.mem_range.mp hcm; have := List.mem_range.mp him; omega)
          hp)))
  have e4 := list_any_congr (List.range 4) _ _ (fun c hcm =>
    list_any_congr (List.range' 3 3) _ _ (fun r hrm =>
      list_all_congr (List.range 4) _ _ (fun i him =>
        cell_beq_congr bb p (r - i) (c + i)
          (by have := List.mem_range'_1.mp hrm; omega)
          (by have := List.mem_range.mp hcm; have := List.mem_range.mp him; omega)
          hp)))
  rw [e1, e2, e3, e4]

/-- Any monochromatic window through a cell, in one of the four line
directions, yields a window of the corresponding full-scan family. -/
theorem through_to_four (b2 : BB.Bitboard) (p h0 col : Nat)
    (hth : through b2 p (h0 : Int) (col : Int) 0 1 ∨
      through b2 p (h0 : Int) (col : Int) 1 0 ∨
      through b2 p (h0 : Int) (col : Int) 1 1 ∨
      through b2 p (h0 : Int) (col : Int) 1 (-1)) :
    four_exists b2 p = true := by
  rw [four_exists_iff]
  rcases hth with ⟨k, hk3, hk0, hwin⟩ | ⟨k, hk3, hk0, hwin⟩ |
    ⟨k, hk3, hk0, hwin⟩ | ⟨k, hk3, hk0, hwin⟩
  · -- horizontal: base column (col + k)
    obtain ⟨a1, a2, a3, a4, -⟩ := hwin 0 (by omega) (by omega)
    obtain ⟨e1, e2, e3, e4, -⟩ := hwin 3 (by omega) (by omega)
    refine Or.inl ⟨(col + k).toNat, by omega, h0, by omega, ?_⟩
    intro i hi
    obtain ⟨b1, b2h, b3, b4, hcell⟩ := hwin (i : Int) (by omega) (by omega)
    rw [show ((h0 : Int) + ((k : Int) + (i : Int)) * 0).toNat = h0 from by omega,
      show ((col : Int) + ((k : Int) + (i : Int)) * 1).toNat = (col + k).toNat + i
        from by omega] at hcell
    exact hcell
  · -- vertical: base row (h0 + k)
    obtain ⟨a1, a2, a3, a4, -⟩ := hwin 0 (by omega) (by omega)
    obtain ⟨e1, e2, e3, e4, -⟩ := hwin 3 (by omega) (by omega)
    refine Or.inr (Or.inl ⟨col, by omega, (h0 + k).toNat, by omega, ?_⟩)
    intro i hi
    obtain ⟨b1, b2h, b3, b4, hcell⟩ := hwin (i : Int) (by omega) (by omega)
    rw [show ((h0 : Int) + ((k : Int) + (i : Int)) * 1).toNat = (h0 + k).toNat + i
        from by omega,
      show ((col : Int) + ((k : Int) + (i : Int)) * 0).toNat = col from by omega]
      at hcell
    exact hcell
  · -- rising diagonal: base (h0 + k, col + k)
    obtain ⟨a1, a2, a3, a4, -⟩ := hwin 0 (by omega) (by omega)
    obtain ⟨e1, e2, e3, e4, -⟩ := hwin 3 (by omega) (by omega)
    refine Or.inr (Or.inr (Or.inl ⟨(col + k).toNat, by omega, (h0 + k).toNat,
      by omega, ?_⟩))
    intro i hi
    obtain ⟨b1, b2h, b3, b4, hcell⟩ := hwin (i : Int) (by omega) (by omega)
    rw [show ((h0 : Int) + ((k : Int) + (i : Int)) * 1).toNat = (h0 + k).toNat + i
        from by omega,
      show ((col : Int) + ((k : Int) + (i : Int)) * 1).toNat = (col + k).toNat + i
        from by omega] at hcell
    exact hcell
  · -- falling diagonal: base (h0 + k + 3, col - k - 3)
    obtain ⟨a1, a2, a3, a4, -⟩ := hwin 0 (by omega) (by omega)
    obtain ⟨e1, e2, e3, e4, -⟩ := hwin 3 (by omega) (by omega)
    refine Or.inr (Or.inr (Or.inr ⟨(col - (k + 3)).toNat, by omega,
      ((h0 : Int) + k + 3).toNat, by omega, ?_⟩))
    intro i hi
    obtain ⟨b1, b2h, b3, b4, hcell⟩ := hwin ((3 : Int) - i) (by omega) (by omega)
    rw [show ((h0 : Int) + ((k : Int) + ((3 : Int) - (i : Int))) * 1).toNat =
        ((h0 : Int) + k + 3).toNat - i from by omega,
      show ((col : Int) + ((k : Int) + ((3 : Int) - (i : Int))) * (-1)).toNat =
        (col - (k + 3)).toNat + i from by omega] at hcell
    exact hcell

/-- Backward direction: if the position had no four for `p` before the
move, any full-scan four after the move must pass through the new piece,
giving a `through` witness in one of the four directions. -/
theorem four_to_through (bb : BB.Bitboard) (col p : Nat)
    (hInv : BB.Inv bb) (hcol : col < 7) (hleg : bb.heights.getD col 0 < 6)
    (hp : p = 0 ∨ p = 1)
    (hpre : four_exists bb p = false)
    (hfour : four_exists (BB.make_move bb col p) p = true) :
    through (BB.make_move bb col p) p (bb.heights.getD col 0 : Int) (col : Int) 0 1 ∨
      through (BB.make_move bb col p) p (bb.heights.getD col 0 : Int) (col : Int) 1 0 ∨
      through (BB.make_move bb col p) p (bb.heights.getD col 0 : Int) (col : Int) 1 1 ∨
      through (BB.make_move bb col p) p (bb.heights.getD col 0 : Int) (col : Int) 1 (-1) := by
  rw [four_exists_iff] at hfour
  have hcell := fun c r (hc : c < 7) (hr : r < 6) =>
    BB.get_cell_make_move bb col p c r hInv hcol hleg hc hr hp
  rcases hfour with ⟨c, hc4, r, hr6, hwin⟩ | ⟨c, hc7, r, hr3, hwin⟩ |
    ⟨c, hc4, r, hr3, hwin⟩ | ⟨c, hc4, r, ⟨hr3, hr6⟩, hwin⟩
  · by_cases hthr : ∃ i0, i0 < 4 ∧ c + i0 = col ∧ r = bb.heights.getD col 0
    · obtain ⟨i0, hi04, hco, hro⟩ := hthr
      refine Or.inl ⟨-(i0 : Int), by omega, by omega, ?_⟩
      intro i h0i hi4
      have hwi := hwin i.toNat (by omega)
      refine ⟨by omega, by omega, by omega, by omega, ?_⟩
      rw [show ((bb.heights.getD col 0 : Int) + (-(i0 : Int) + i) * 0).toNat = r
          from by omega,
        show (((col : Nat) : Int) + (-(i0 : Int) + i) * 1).toNat = c + i.toNat
          from by omega]
      exact hwi
    · exfalso
      have hold : four_exists bb p = true := by
        rw [four_exists_iff]
        refine Or.inl ⟨c, hc4, r, hr6, ?_⟩
        intro i hi
        have hwi := hwin i hi
        rw [hcell (c + i) r (by omega) hr6] at hwi
        rw [if_neg ?_] at hwi
        · exact hwi
        · rintro ⟨h1, h2⟩
          exact hthr ⟨i, hi, h1, h2⟩
      rw [hold] at hpre
      exact Bool.noConfusion hpre
  · by_cases hthr : ∃ i0, i0 < 4 ∧ c = col ∧ r + i0 = bb.heights.getD col 0
    · obtain ⟨i0, hi04, hco, hro⟩ := hthr
      refine Or.inr (Or.inl ⟨-(i0 : Int), by omega, by omega, ?_⟩)
      intro i h0i hi4
      have hwi := hwin i.toNat (by omega)
      refine ⟨by omega, by omega, by omega, by omega, ?_⟩
      rw [show ((bb.heights.getD col 0 : Int) + (-(i0 : Int) + i) * 1).toNat = r + i.toNat
          from by omega,
        show (((col : Nat) : Int) + (-(i0 : Int) + i) * 0).toNat = c
          from by omega]
      exact hwi
    · exfalso
      have hold : four_exists bb p = true := by
        rw [four_exists_iff]
        refine Or.inr (Or.inl ⟨c, hc7, r, hr3, ?_⟩)
        intro i hi
        have hwi := hwin i hi
        rw [hcell c (r + i) hc7 (by omega)] at hwi
        rw [if_neg ?_] at hwi
        · exact hwi
        · rintro ⟨h1, h2⟩
          exact hthr ⟨i, hi, h1, h2⟩
      rw [hold] at hpre
      exact Bool.noConfusion hpre
  · by_cases hthr : ∃ i0, i0 < 4 ∧ c + i0 = col ∧ r + i0 = bb.heights.getD col 0
    · obtain ⟨i0, hi04, hco, hro⟩ := hthr
      refine Or.inr (Or.inr (Or.inl ⟨-(i0 : Int), by omega, by omega, ?_⟩))
      intro i h0i hi4
      have hwi := hwin i.toNat (by omega)
      refine ⟨by omega, by omega, by omega, by omega, ?_⟩
      rw [show ((bb.heights.getD col 0 : Int) + (-(i0 : Int) + i) * 1).toNat = r + i.toNat
          from by omega,
        show (((col : Nat) : Int) + (-(i0 : Int) + i) * 1).toNat = c + i.toNat
          from by omega]
      exact hwi
    · exfalso
      have hold : four_exists bb p = true := by
        rw [four_exists_iff]
        refine Or.inr (Or.inr (Or.inl ⟨c, hc4, r, hr3, ?_⟩))
        intro i hi
        have hwi := hwin i hi
        rw [hcell (c + i) (r + i) (by omega) (by omega)] at hwi
        rw [if_neg ?_] at hwi
        · exact hwi
        · rintro ⟨h1, h2⟩
          exact hthr ⟨i, hi, h1, h2⟩
      rw [hold] at hpre
      exact Bool.noConfusion hpre
  · by_cases hthr : ∃ i0, i0 < 4 ∧ c + i0 = col ∧ r - i0 = bb.heights.getD col 0
    · obtain ⟨i0, hi04, hco, hro⟩ := hthr
      refine Or.inr (Or.inr (Or.inr ⟨(i0 : Int) - 3, by omega, by omega, ?_⟩))
      intro i h0i hi4
      have hwi := hwin (3 - i).toNat (by omega)
      refine ⟨by omega, by omega, by omega, by omega, ?_⟩
      rw [show ((bb.heights.getD col 0 : Int) + ((i0 : Int) - 3 + i) * 1).toNat =
            r - (3 - i).toNat from by omega,
        show (((col : Nat) : Int) + ((i0 : Int) - 3 + i) * (-1)).toNat =
            c + (3 - i).toNat from by omega]
      exact hwi
    · exfalso
      have hold : four_exists bb p = true := by
        rw [four_exists_iff]
        refine Or.inr (Or.inr (Or.inr ⟨c, hc4, r, ⟨hr3, hr6⟩, ?_⟩))
        intro i hi
        have hwi := hwin i hi
        rw [hcell (c + i) (r - i) (by omega) (by omega)] at hwi
        rw [if_neg ?_] at hwi
        · exact hwi
        · rintro ⟨h1, h2⟩
          exact hthr ⟨i, hi, h1, h2⟩
      rw [hold] at hpre
      exact Bool.noConfusion hpre

/-- After a fresh legal move by `p` on `col` in a position with no
existing four for `p`, the localized fast check agrees with game.py's
full-board window scan on the resulting position. -/
theorem fast_eq_scan (bb : BB.Bitboard) (col p : Nat)
    (hInv : BB.Inv bb) (hcol : col < 7) (hleg : bb.heights.getD col 0 < 6)
    (hp : p = 0 ∨ p = 1)
    (hfresh : Game.winning_move (BB.trad_of_bb bb) (BB.decode_val p) = false) :
    bitboard_check_win_fast (BB.make_move bb col p) p col =
      Game.winning_move (BB.trad_of_bb (BB.make_move bb col p)) (BB.decode_val p) := by
  have hpre : four_exists bb p = false := by
    rw [← winning_move_trad bb p hp]
    exact hfresh
  rw [winning_move_trad (BB.make_move bb col p) p hp]
  have hh : (BB.make_move bb col p).heights.getD col 0 = bb.heights.getD col 0 + 1 := by
    rw [BB.heights_make_move_eq bb col p hleg,
      BB.getD_set_self _ _ _ (by rw [hInv.hlen]; exact hcol)]
  have hne : (BB.make_move bb col p).heights.getD col 0 ≠ 0 := by omega
  have htop : (BB.make_move bb col p).heights.getD col 0 - 1 = bb.heights.getD col 0 := by
    omega
  have hgc : BB.get_cell (BB.make_move bb col p) (bb.heights.getD col 0) col = p := by
    rw [BB.get_cell_make_move bb col p col (bb.heights.getD col 0) hInv hcol hleg hcol
      hleg hp]
    rw [if_pos ⟨rfl, rfl⟩]
  have hP0 : cellP (BB.make_move bb col p) p
      (((BB.make_move bb col p).heights.getD col 0 - 1 : Nat) : Int) (col : Int) := by
    rw [htop]
    exact ⟨by omega, by omega, by omega, by omega, hgc⟩
  have hiff := fast_check_iff (BB.make_move bb col p) p col hne hP0
  rw [htop] at hiff
  cases hfe : four_exists (BB.make_move bb col p) p with
  | false =>
    rcases Bool.eq_false_or_eq_true (bitboard_check_win_fast (BB.make_move bb col p) p col)
      with hf | hf
    · exfalso
      have hfour := through_to_four (BB.make_move bb col p) p (bb.heights.getD col 0) col
        (hiff.mp hf)
      rw [hfe] at hfour
      exact Bool.noConfusion hfour
    · exact hf
  | true =>
    exact hiff.mpr (four_to_through bb col p hInv hcol hleg hp hpre hfe)

end ABB

/-- C5: for a position reachable by drops with no pre-existing four for
`p`, playing `p` legally on column `col` makes the localized
`bitboard_check_win_fast` at `col` agree exactly with the full-board
window scan (`winning_move` on the decoded grid). The freshness
hypothesis is necessary: see the counterexample. -/
theorem C5_fast_win_equals_full_scan (ms : List (Nat × Nat)) (col p : Nat)
    (hms : ∀ m ∈ ms, m.1 < 7) (hcol : col < 7)
    (hleg : (BB.playBB ms).heights.getD col 0 < 6) (hp : p = 0 ∨ p = 1)
    (hfresh : Game.winning_move (BB.trad_of_bb (BB.playBB ms)) (BB.decode_val p) = false) :
    ABB.bitboard_check_win_fast (BB.make_move (BB.playBB ms) col p) p col =
      Game.winning_move (BB.trad_of_bb (BB.make_move (BB.playBB ms) col p))
        (BB.decode_val p) :=
  ABB.fast_eq_scan (BB.playBB ms) col p (BB.Inv_playBB ms hms) hcol hleg hp hfresh

theorem C5_fast_win_equals_full_scan_witness :
    ABB.bitboard_check_win_fast
        (BB.make_move (BB.playBB [(3,0),(0,1),(3,0),(0,1),(3,0),(0,1)]) 3 0) 0 3 =
      Game.winning_move
        (BB.trad_of_bb
          (BB.make_move (BB.playBB [(3,0),(0,1),(3,0),(0,1),(3,0),(0,1)]) 3 0))
        (BB.decode_val 0) :=
  C5_fast_win_equals_full_scan [(3,0),(0,1),(3,0),(0,1),(3,0),(0,1)] 3 0
    (by decide) (by decide) (by decide) (Or.inl rfl) (by decide)

/-- Stale fours are invisible to the fast check: after
AI 0, H 6, AI 1, H 6, AI 2, H 6, AI 3 (a bottom-row AI four), H 5, AI 6,
the AI's most recent piece is on column 6, the fast check there reports
no win, yet the full scan finds the old four. -/
theorem C5_counterexample :
    ¬ (ABB.bitboard_check_win_fast
          (BB.make_move (BB.playBB [(0,0),(6,1),(1,0),(6,1),(2,0),(6,1),(3,0),(5,1)]) 6 0)
          0 6 =
        Game.winning_move
          (BB.trad_of_bb (BB.make_move
            (BB.playBB [(0,0),(6,1),(1,0),(6,1),(2,0),(6,1),(3,0),(5,1)]) 6 0))
          (BB.decode_val 0)) := by
  decide

/-- C9 counterexample: the transposition table is keyed by the
mirror-canonical hash but stores an unmirrored move.  On the position
with column 0 full (and its mirror, where column 0 is open and 0 is a
reasonable best move), a trusted cached entry (visits 501) with
best_move 0 is served verbatim, returning the illegal column 0. -/
theorem C9_counterexample :
    MCTS.get_canonical_hash (BB.playBB [(0,0),(0,1),(0,0),(0,1),(0,0),(0,1)]) =
      MCTS.get_canonical_hash
        (MCTS.mirror_bitboard (BB.playBB [(0,0),(0,1),(0,0),(0,1),(0,0),(0,1)])) ∧
    0 ∈ MCTS.bitboard_get_valid_moves
      (MCTS.mirror_bitboard (BB.playBB [(0,0),(0,1),(0,0),(0,1),(0,0),(0,1)])) ∧
    (MCTS.mcts_search_v2_iter1 (BB.playBB [(0,0),(0,1),(0,0),(0,1),(0,0),(0,1)]) 0 true
        [(MCTS.get_canonical_hash (BB.playBB [(0,0),(0,1),(0,0),(0,1),(0,0),(0,1)]),
          ⟨501, 0, 0⟩)]
        (fun l => l.headD 0)).1 = 0 ∧
    0 ∉ MCTS.bitboard_get_valid_moves (BB.playBB [(0,0),(0,1),(0,0),(0,1),(0,0),(0,1)]) := by
  refine ⟨by decide, by decide, by decide, by decide⟩

/-- C3 counterexample (MCTS half of the claim): with three AI pieces on
the bottom row at columns 0-2, column 3 is a legal immediate win for the
AI, yet a one-iteration MCTS search (a strictly positive budget) returns
whatever column the random expansion picked - here column 6, which wins
nothing. -/
theorem C3_counterexample :
    ABB.bitboard_check_win_fast
      (BB.make_move (BB.playBB [(0,0),(1,0),(2,0)]) 3 0) 0 3 = true ∧
    3 ∈ MCTS.bitboard_get_valid_moves (BB.playBB [(0,0),(1,0),(2,0)]) ∧
    (MCTS.mcts_search_v2_iter1 (BB.playBB [(0,0),(1,0),(2,0)]) 0 true []
      (fun l => l.getLastD 0)).1 = 6 ∧
    ABB.bitboard_check_win_fast
      (BB.make_move (BB.playBB [(0,0),(1,0),(2,0)]) 6 0) 0 6 = false := by
  refine ⟨by decide, by decide, by decide, by decide⟩

/-- C7 (amended): agent.py `get_best_move_optimized` does clear both
caches at the start of every top-level call, so its whole result
(column, optional scores, and outgoing cache state) is independent of
whatever the module-level caches held beforehand. -/
theorem C7_optimized_ignores_prior_state (b : Game.Board) (piece : Int) (depth : Nat)
    (dev : Bool) (st1 st2 : Agent.AState) :
    Agent.get_best_move_optimized b piece depth dev st1 =
      Agent.get_best_move_optimized b piece depth dev st2 := rfl

/-- C7 counterexample: `get_best_move_bitboard` does NOT clear the
transposition table.  On a position whose only open column is 3 (the
single search child is a drawn full board worth 0), a leftover cached
entry for that child's hash (stored depth 20, score 10^9) changes the
developer-mode score report of an otherwise identical call. -/
theorem C7_counterexample :
    (ABB.get_best_move_bitboard
        [[1,1,-1,1,-1,1,1],[-1,-1,1,-1,1,-1,-1],[1,1,-1,1,-1,1,1],
         [-1,-1,1,-1,1,-1,-1],[1,1,-1,1,-1,1,1],[-1,-1,1,0,1,-1,-1]]
        1 1 true ABB.emptyBState).1 ≠
      (ABB.get_best_move_bitboard
        [[1,1,-1,1,-1,1,1],[-1,-1,1,-1,1,-1,-1],[1,1,-1,1,-1,1,1],
         [-1,-1,1,-1,1,-1,-1],[1,1,-1,1,-1,1,1],[-1,-1,1,0,1,-1,-1]]
        1 1 true
        ⟨[(ABB.bitboard_hash
            (BB.make_move (ABB.bitboard_from_2d
              [[1,1,-1,1,-1,1,1],[-1,-1,1,-1,1,-1,-1],[1,1,-1,1,-1,1,1],
               [-1,-1,1,-1,1,-1,-1],[1,1,-1,1,-1,1,1],[-1,-1,1,0,1,-1,-1]]) 3 0),
           (20, iv 1000000000, 3))], []⟩).1 := by
  decide

theorem foldl_inv_mem {α β : Type} (P : β → Prop) (f : β → α → β) :
    ∀ (l : List α), (∀ b a, a ∈ l → P b → P (f b a)) → ∀ b, P b → P (l.foldl f b) := by
  intro l
  induction l with
  | nil =>
    intro _ b h
    exact h
  | cons a t ih =>
    intro hf b h
    exact ih (fun b2 a2 ha2 => hf b2 a2 (List.mem_cons_of_mem a ha2)) _
      (hf b a (List.mem_cons_self a t) h)

/-- Positions built by `bitboard_from_2d` (a bottom-up replay of
`make_move`s on columns 0-6) satisfy the bitboard invariant. -/
theorem Inv_from_2d (board : Game.Board) : BB.Inv (ABB.bitboard_from_2d board) := by
  unfold ABB.bitboard_from_2d
  refine foldl_inv_mem BB.Inv _ (List.range 7) ?_ BB.emptyBB BB.Inv_empty
  intro bb col hcolmem hbb
  have hcol : col < 7 := List.mem_range.mp hcolmem
  refine foldl_inv_mem BB.Inv _ (List.range 6) ?_ bb hbb
  intro bb2 row _ hbb2
  dsimp only
  split
  · exact BB.Inv_make_move bb2 col 0 hbb2 hcol
  · split
    · exact BB.Inv_make_move bb2 col 1 hbb2 hcol
    · exact hbb2

/-- C3 (amended, Minimax half): whenever the mover has a legal
immediately-winning column in a position (reachable grid, no
pre-existing four for the mover), `get_best_move_bitboard` returns a
column whose move completes a four - the immediate-win scan
short-circuits everything else.  The MCTS half of the original claim is
refuted separately. -/
theorem C3_minimax_plays_winning_column (board : Game.Board) (player : Int)
    (depth : Nat) (dev : Bool) (st : ABB.BState)
    (hfresh : Game.winning_move (BB.trad_of_bb (ABB.bitboard_from_2d board))
        (BB.decode_val (if player == 1 then 0 else 1)) = false)
    (hwin : ∃ col ∈ ABB.get_valid_moves_bitboard (ABB.bitboard_from_2d board),
        Game.winning_move
          (BB.trad_of_bb (BB.make_move (ABB.bitboard_from_2d board) col
            (if player == 1 then 0 else 1)))
          (BB.decode_val (if player == 1 then 0 else 1)) = true) :
    Game.winning_move
      (BB.trad_of_bb (BB.make_move (ABB.bitboard_from_2d board)
        (ABB.get_best_move_bitboard board player depth dev st).1.1
        (if player == 1 then 0 else 1)))
      (BB.decode_val (if player == 1 then 0 else 1)) = true := by
  have hInv := Inv_from_2d board
  have hp : (if player == 1 then (0 : Nat) else 1) = 0 ∨
      (if player == 1 then (0 : Nat) else 1) = 1 := by
    split
    · exact Or.inl rfl
    · exact Or.inr rfl
  set bb := ABB.bitboard_from_2d board with hbb
  set pb : Nat := if player == 1 then 0 else 1 with hpb
  have hvc : ∀ col ∈ ABB.get_valid_moves_bitboard bb,
      col < 7 ∧ bb.heights.getD col 0 < 6 := by
    intro col hcol
    obtain ⟨h1, h2⟩ := List.mem_filter.mp hcol
    exact ⟨List.mem_range.mp h1, by simpa using h2⟩
  have hpred : ∀ col ∈ ABB.get_valid_moves_bitboard bb,
      ABB.bitboard_check_win_fast (BB.make_move bb col pb) pb col =
        Game.winning_move (BB.trad_of_bb (BB.make_move bb col pb)) (BB.decode_val pb) := by
    intro col hcol
    exact ABB.fast_eq_scan bb col pb hInv (hvc col hcol).1 (hvc col hcol).2 hp hfresh
  obtain ⟨cw, hcwmem, hcwwin⟩ := hwin
  cases hfind : (ABB.get_valid_moves_bitboard bb).find?
      (fun col => ABB.bitboard_check_win_fast (BB.make_move bb col pb) pb col) with
  | none =>
    exfalso
    have hnone := List.find?_eq_none.mp hfind cw hcwmem
    simp only at hnone
    rw [hpred cw hcwmem] at hnone
    exact hnone hcwwin
  | some cfound =>
    have hfw := List.find?_some hfind
    simp only at hfw
    have hfmem : cfound ∈ ABB.get_valid_moves_bitboard bb :=
      List.mem_of_find?_eq_some hfind
    have hcol_eq : (ABB.get_best_move_bitboard board player depth dev st).1.1 = cfound := by
      simp only [ABB.get_best_move_bitboard]
      rw [← hbb, ← hpb, hfind]
    rw [hcol_eq, ← hpred cfound hfmem]
    exact hfw

theorem C3_minimax_plays_winning_column_witness :
    Game.winning_move
      (BB.trad_of_bb (BB.make_move (ABB.bitboard_from_2d
        [[1,1,1,0,0,0,0],[0,0,0,0,0,0,0],[0,0,0,0,0,0,0],[0,0,0,0,0,0,0],
         [0,0,0,0,0,0,0],[0,0,0,0,0,0,0]])
        (ABB.get_best_move_bitboard
          [[1,1,1,0,0,0,0],[0,0,0,0,0,0,0],[0,0,0,0,0,0,0],[0,0,0,0,0,0,0],
           [0,0,0,0,0,0,0],[0,0,0,0,0,0,0]] 1 1 false ABB.emptyBState).1.1
        (if (1 : Int) == 1 then 0 else 1)))
      (BB.decode_val (if (1 : Int) == 1 then 0 else 1)) = true :=
  C3_minimax_plays_winning_column
    [[1,1,1,0,0,0,0],[0,0,0,0,0,0,0],[0,0,0,0,0,0,0],[0,0,0,0,0,0,0],
     [0,0,0,0,0,0,0],[0,0,0,0,0,0,0]]
    1 1 false ABB.emptyBState (by decide) ⟨3, by decide, by decide⟩

namespace BB

/-! ### Region lemmas for column-writing folds (mirror, from_2d_array) -/
theorem testBit_shift_mask9 (n i : Nat) :
    ((511 <<< n) : Nat).testBit i = (decide (n ≤ i) && decide (i - n < 9)) := by
  rw [Nat.testBit_shiftLeft, show (511 : Nat) = 2 ^ 9 - 1 from rfl,
    Nat.testBit_two_pow_sub_one]

theorem and_shift_ne_zero (x b : Nat) : (x &&& (1 <<< b) != 0) = x.testBit b := by
  rw [Nat.one_shiftLeft, Nat.and_two_pow]
  cases h : x.testBit b
  · simp
  · simp [Nat.pow_eq_zero]

theorem extract_column_bits_testBit (bb : Bitboard) (col j : Nat) :
    (extract_column_bits bb col).testBit j =
      (bb.board.testBit (col * 9 + j) && decide (j < 6)) := by
  unfold extract_column_bits
  rw [Nat.testBit_land, Nat.testBit_shiftRight, show (63 : Nat) = 2 ^ 6 - 1 from rfl,
    Nat.testBit_two_pow_sub_one]

theorem foldl_bits_out {f : Bitboard → Nat → Bitboard} {tc : Nat → Nat}
    (hb_out : ∀ m col i, ¬ (tc col * 9 ≤ i ∧ i < tc col * 9 + 9) →
      (f m col).board.testBit i = m.board.testBit i) :
    ∀ (l : List Nat) (m : Bitboard) (i : Nat),
      (∀ col ∈ l, ¬ (tc col * 9 ≤ i ∧ i < tc col * 9 + 9)) →
      (l.foldl f m).board.testBit i = m.board.testBit i := by
  intro l
  induction l with
  | nil =>
    intro m i _
    rfl
  | cons a t ih =>
    intro m i hout
    rw [List.foldl_cons, ih _ _ (fun c hc => hout c (List.mem_cons_of_mem a hc)),
      hb_out m a i (hout a (List.mem_cons_self a t))]

theorem foldl_bits_in {f : Bitboard → Nat → Bitboard} {tc : Nat → Nat}
    {V : Nat → Nat → Bool}
    (hb_out : ∀ m col i, ¬ (tc col * 9 ≤ i ∧ i < tc col * 9 + 9) →
      (f m col).board.testBit i = m.board.testBit i)
    (hb_in : ∀ m col i, (∀ j, tc col * 9 ≤ j → j < tc col * 9 + 9 →
        m.board.testBit j = false) →
      tc col * 9 ≤ i → i < tc col * 9 + 9 →
      (f m col).board.testBit i = V col (i - tc col * 9)) :
    ∀ (l : List Nat) (m : Bitboard) (col i : Nat), col ∈ l → l.Nodup →
      (∀ c1 ∈ l, ∀ c2 ∈ l, tc c1 = tc c2 → c1 = c2) →
      (∀ c ∈ l, ∀ j, tc c * 9 ≤ j → j < tc c * 9 + 9 → m.board.testBit j = false) →
      tc col * 9 ≤ i → i < tc col * 9 + 9 →
      (l.foldl f m).board.testBit i = V col (i - tc col * 9) := by
  intro l
  induction l with
  | nil =>
    intro m col i hmem
    exact absurd hmem (List.not_mem_nil col)
  | cons a t ih =>
    intro m col i hmem hnd hinj hzero hlo hhi
    have hnd2 := List.nodup_cons.mp hnd
    rw [List.foldl_cons]
    rcases List.mem_cons.mp hmem with hca | hct
    · subst hca
      rw [foldl_bits_out hb_out t (f m col) i ?_]
      · exact hb_in m col i (hzero col (List.mem_cons_self col t)) hlo hhi
      · intro c hc hreg
        have hne : tc c ≠ tc col := fun he =>
          hnd2.1 (hinj c (List.mem_cons_of_mem _ hc) col (List.mem_cons_self col t) he
            ▸ hc)
        omega
    · refine ih (f m a) col i hct hnd2.2
        (fun c1 h1 c2 h2 => hinj c1 (List.mem_cons_of_mem a h1) c2
          (List.mem_cons_of_mem a h2)) ?_ hlo hhi
      intro c hc j hj1 hj2
      have hne : tc c ≠ tc a := fun he => by
        have := hinj c (List.mem_cons_of_mem a hc) a (List.mem_cons_self a t) he
        exact hnd2.1 (this ▸ hc)
      rw [hb_out m a j (by omega)]
      exact hzero c (List.mem_cons_of_mem a hc) j hj1 hj2

theorem foldl_heights_out {f : Bitboard → Nat → Bitboard} {tc : Nat → Nat}
    (hh_out : ∀ m col j, j ≠ tc col →
      (f m col).heights.getD j 0 = m.heights.getD j 0) :
    ∀ (l : List Nat) (m : Bitboard) (j : Nat), (∀ col ∈ l, j ≠ tc col) →
      (l.foldl f m).heights.getD j 0 = m.heights.getD j 0 := by
  intro l
  induction l with
  | nil =>
    intro m j _
    rfl
  | cons a t ih =>
    intro m j hout
    rw [List.foldl_cons, ih _ _ (fun c hc => hout c (List.mem_cons_of_mem a hc)),
      hh_out m a j (hout a (List.mem_cons_self a t))]

theorem foldl_heights_in {f : Bitboard → Nat → Bitboard} {tc : Nat → Nat}
    {HV : Nat → Nat}
    (hh_out : ∀ m col j, j ≠ tc col →
      (f m col).heights.getD j 0 = m.heights.getD j 0)
    (hh_in : ∀ m col, m.heights.length = 7 → m.heights.getD (tc col) 0 = 0 →
      (f m col).heights.getD (tc col) 0 = HV col)
    (hh_len : ∀ m col, (f m col).heights.length = m.heights.length) :
    ∀ (l : List Nat) (m : Bitboard) (col : Nat), col ∈ l → l.Nodup →
      (∀ c1 ∈ l, ∀ c2 ∈ l, tc c1 = tc c2 → c1 = c2) →
      m.heights.length = 7 →
      (∀ c ∈ l, m.heights.getD (tc c) 0 = 0) →
      (l.foldl f m).heights.getD (tc col) 0 = HV col := by
  intro l
  induction l with
  | nil =>
    intro m col hmem
    exact absurd hmem (List.not_mem_nil col)
  | cons a t ih =>
    intro m col hmem hnd hinj hlen hzero
    have hnd2 := List.nodup_cons.mp hnd
    rw [List.foldl_cons]
    rcases List.mem_cons.mp hmem with hca | hct
    · subst hca
      rw [foldl_heights_out hh_out t (f m col) (tc col) ?_]
      · exact hh_in m col hlen (hzero col (List.mem_cons_self col t))
      · intro c hc he
        refine hnd2.1 ?_
        rw [hinj col (List.mem_cons_self col t) c (List.mem_cons_of_mem _ hc) he]
        exact hc
    · refine ih (f m a) col hct hnd2.2
        (fun c1 h1 c2 h2 => hinj c1 (List.mem_cons_of_mem a h1) c2
          (List.mem_cons_of_mem a h2)) (by rw [hh_len m a, hlen]) ?_
      intro c hc
      have hne : tc c ≠ tc a := fun he => by
        have := hinj c (List.mem_cons_of_mem a hc) a (List.mem_cons_self a t) he
        exact hnd2.1 (this ▸ hc)
      rw [hh_out m a (tc c) hne]
      exact hzero c (List.mem_cons_of_mem a hc)

theorem foldl_heights_len {f : Bitboard → Nat → Bitboard}
    (hh_len : ∀ m col, (f m col).heights.length = m.heights.length) :
    ∀ (l : List Nat) (m : Bitboard),
      (l.foldl f m).heights.length = m.heights.length := by
  intro l
  induction l with
  | nil =>
    intro m
    rfl
  | cons a t ih =>
    intro m
    rw [List.foldl_cons, ih, hh_len]

theorem foldl_setbits_testBit (cb sm : Nat) :
    ∀ (l : List Nat) (b : Nat) (i : Nat),
      (l.foldl (fun b bit => if cb &&& (1 <<< bit) != 0
          then b ||| (1 <<< (sm + bit)) else b) b).testBit i =
        (b.testBit i || l.any (fun bit => cb.testBit bit && decide (i = sm + bit))) := by
  intro l
  induction l with
  | nil =>
    intro b i
    simp
  | cons a t ih =>
    intro b i
    rw [List.foldl_cons, List.any_cons, ih, and_shift_ne_zero]
    cases hc : cb.testBit a
    · rw [Bool.false_and, Bool.false_or, if_neg (by simp)]
    · rw [if_pos rfl, Nat.testBit_lor, testBit_one_shift, Bool.true_and,
        show decide (sm + a = i) = decide (i = sm + a) from by simp [eq_comm],
        Bool.or_assoc]

theorem mirror_step_bits (bb : Bitboard) (hInv : Inv bb) (m : Bitboard)
    (col i : Nat) :
    ((List.range 6).foldl (fun b bit =>
        if extract_column_bits bb col &&& (1 <<< bit) != 0
        then b ||| (1 <<< ((6 - col) * 9 + bit)) else b)
      (and_not m.board (511 <<< ((6 - col) * 9))) |||
        ((bb.heights.getD col 0) <<< ((6 - col) * 9 + 6))).testBit i =
      (if (6 - col) * 9 ≤ i ∧ i < (6 - col) * 9 + 9 then
        (if i - (6 - col) * 9 < 6 then
          bb.board.testBit (col * 9 + (i - (6 - col) * 9))
         else (bb.heights.getD col 0).testBit (i - (6 - col) * 9 - 6))
      else m.board.testBit i) := by
  have hheight : bb.heights.getD col 0 < 8 := by
    rcases Nat.lt_or_ge col 7 with h | h
    · have := hInv.hle col h
      omega
    · rw [List.getD_eq_default _ _ (by rw [hInv.hlen]; omega)]
      omega
  rw [Nat.testBit_lor, foldl_setbits_testBit, testBit_and_not, testBit_shift_mask9,
    testBit_shift_small _ _ _ hheight]
  by_cases hreg : (6 - col) * 9 ≤ i ∧ i < (6 - col) * 9 + 9
  · rw [if_pos hreg]
    have e1 : (decide ((6 - col) * 9 ≤ i) && decide (i - (6 - col) * 9 < 9)) = true := by
      simp only [Bool.and_eq_true, decide_eq_true_eq]
      omega
    rw [e1]
    by_cases hoff : i - (6 - col) * 9 < 6
    · rw [if_pos hoff]
      have hany : (List.range 6).any (fun bit =>
          (extract_column_bits bb col).testBit bit && decide (i = (6 - col) * 9 + bit)) =
          (extract_column_bits bb col).testBit (i - (6 - col) * 9) := by
        cases hcb : (extract_column_bits bb col).testBit (i - (6 - col) * 9)
        · rw [List.any_eq_false]
          intro bit hbit
          simp only [Bool.and_eq_true, decide_eq_true_eq, not_and]
          intro hb1 hb2
          rw [show bit = i - (6 - col) * 9 from by omega, hcb] at hb1
          exact Bool.noConfusion hb1
        · rw [List.any_eq_true]
          refine ⟨i - (6 - col) * 9, List.mem_range.mpr hoff, ?_⟩
          rw [hcb, Bool.true_and, decide_eq_true_eq]
          omega
      have e2 : (decide ((6 - col) * 9 + 6 ≤ i)) = false := by
        simp only [decide_eq_false_iff_not]
        omega
      rw [hany, e2, extract_column_bits_testBit,
        show (decide (i - (6 - col) * 9 < 6)) = true from by simp [hoff]]
      simp
    · rw [if_neg hoff]
      have hany : (List.range 6).any (fun bit =>
          (extract_column_bits bb col).testBit bit && decide (i = (6 - col) * 9 + bit)) =
          false := by
        rw [List.any_eq_false]
        intro bit hbit
        simp only [List.mem_range] at hbit
        simp only [Bool.and_eq_true, decide_eq_true_eq, not_and]
        intro _ hb2
        omega
      have e3 : (decide ((6 - col) * 9 + 6 ≤ i)) = true := by
        simp only [decide_eq_true_eq]
        omega
      have e4 : (decide (i - ((6 - col) * 9 + 6) < 3)) = true := by
        simp only [decide_eq_true_eq]
        omega
      rw [hany, e3, e4, show i - ((6 - col) * 9 + 6) = i - (6 - col) * 9 - 6 from by omega]
      simp
  · rw [if_neg hreg]
    have e1 : (decide ((6 - col) * 9 ≤ i) && decide (i - (6 - col) * 9 < 9)) = false := by
      rcases Nat.lt_or_ge i ((6 - col) * 9) with h | h
      · simp [show ¬ ((6 - col) * 9 ≤ i) from by omega]
      · simp [show ¬ (i - (6 - col) * 9 < 9) from by omega]
    have hany : (List.range 6).any (fun bit =>
        (extract_column_bits bb col).testBit bit && decide (i = (6 - col) * 9 + bit)) =
        false := by
      rw [List.any_eq_false]
      intro bit hbit
      simp only [List.mem_range] at hbit
      simp only [Bool.and_eq_true, decide_eq_true_eq, not_and]
      intro _ hb2
      omega
    have e5 : ((decide ((6 - col) * 9 + 6 ≤ i) && decide (i - ((6 - col) * 9 + 6) < 3))) =
        false := by
      rcases Nat.lt_or_ge i ((6 - col) * 9 + 6) with h | h
      · simp [show ¬ ((6 - col) * 9 + 6 ≤ i) from by omega]
      · simp [show ¬ (i - ((6 - col) * 9 + 6) < 3) from by omega]
    rw [e1, hany, e5]
    simp

end BB

namespace MCTS

open BB

theorem mirror_heights_len (bb : BB.Bitboard) :
    (mirror_bitboard bb).heights.length = 7 := by
  unfold mirror_bitboard
  rw [BB.foldl_heights_len (fun m col => by simp [List.length_set]) (List.range 7) _]
  rfl

theorem mirror_heights_getD (bb : BB.Bitboard) (c : Nat) (hc : c < 7) :
    (mirror_bitboard bb).heights.getD c 0 = bb.heights.getD (6 - c) 0 := by
  unfold mirror_bitboard
  have h := @BB.foldl_heights_in
    (fun m col =>
      let mirror_col := 6 - col
      let col_bits := BB.extract_column_bits bb col
      let height := bb.heights.getD col 0
      let shift_mirror := mirror_col * 9
      let b1 := BB.and_not m.board (511 <<< shift_mirror)
      let b2 := (List.range 6).foldl (fun b bit =>
        if col_bits &&& (1 <<< bit) != 0 then b ||| (1 <<< (shift_mirror + bit))
        else b) b1
      ⟨b2 ||| (height <<< (shift_mirror + 6)), m.heights.set mirror_col height⟩)
    (fun col => 6 - col)
    (fun col => bb.heights.getD col 0)
    (fun m col j hj => by
      dsimp only
      exact BB.getD_set_ne _ _ _ _ (fun he => hj he.symm))
    (fun m col hlen _ => by
      dsimp only
      exact BB.getD_set_self _ _ _ (by rw [hlen]; omega))
    (fun m col => by simp [List.length_set])
    (List.range 7) ⟨0, List.replicate 7 0⟩ (6 - c)
    (List.mem_range.mpr (by omega)) (List.nodup_range 7)
    (fun c1 h1 c2 h2 he => by
      have := List.mem_range.mp h1
      have := List.mem_range.mp h2
      dsimp only at he
      omega)
    rfl
    (fun cc hcc => by
      have := List.mem_range.mp hcc
      dsimp only
      interval_cases cc <;> rfl)
  dsimp only at h
  rw [show (6 - (6 - c)) = c from by omega] at h
  exact h

theorem mirror_board_testBit_in (bb : BB.Bitboard) (hInv : BB.Inv bb)
    (c off : Nat) (hc : c < 7) (hoff : off < 9) :
    (mirror_bitboard bb).board.testBit (c * 9 + off) =
      (if off < 6 then bb.board.testBit ((6 - c) * 9 + off)
       else (bb.heights.getD (6 - c) 0).testBit (off - 6)) := by
  unfold mirror_bitboard
  have h := @BB.foldl_bits_in
    (fun m col =>
      let mirror_col := 6 - col
      let col_bits := BB.extract_column_bits bb col
      let height := bb.heights.getD col 0
      let shift_mirror := mirror_col * 9
      let b1 := BB.and_not m.board (511 <<< shift_mirror)
      let b2 := (List.range 6).foldl (fun b bit =>
        if col_bits &&& (1 <<< bit) != 0 then b ||| (1 <<< (shift_mirror + bit))
        else b) b1
      ⟨b2 ||| (height <<< (shift_mirror + 6)), m.heights.set mirror_col height⟩)
    (fun col => 6 - col)
    (fun col o => if o < 6 then bb.board.testBit (col * 9 + o)
      else (bb.heights.getD col 0).testBit (o - 6))
    (fun m col i hreg => by
      dsimp only
      dsimp only at hreg
      rw [BB.mirror_step_bits bb hInv m col i, if_neg hreg])
    (fun m col i _ hlo hhi => by
      dsimp only
      dsimp only at hlo hhi
      rw [BB.mirror_step_bits bb hInv m col i, if_pos ⟨hlo, hhi⟩])
    (List.range 7) ⟨0, List.replicate 7 0⟩ (6 - c) (c * 9 + off)
    (List.mem_range.mpr (by omega)) (List.nodup_range 7)
    (fun c1 h1 c2 h2 he => by
      have := List.mem_range.mp h1
      have := List.mem_range.mp h2
      dsimp only at he
      omega)
    (fun cc hcc j hj1 hj2 => Nat.zero_testBit j)
    (by dsimp only; rw [show (6 - (6 - c)) = c from by omega]; omega)
    (by dsimp only; rw [show (6 - (6 - c)) = c from by omega]; omega)
  dsimp only at h
  rw [show (6 - (6 - c)) = c from by omega,
    show c * 9 + off - c * 9 = off from by omega] at h
  exact h

theorem mirror_board_high (bb : BB.Bitboard) (hInv : BB.Inv bb) (i : Nat)
    (hi : 63 ≤ i) :
    (mirror_bitboard bb).board.testBit i = false := by
  unfold mirror_bitboard
  rw [@BB.foldl_bits_out
    (fun m col =>
      let mirror_col := 6 - col
      let col_bits := BB.extract_column_bits bb col
      let height := bb.heights.getD col 0
      let shift_mirror := mirror_col * 9
      let b1 := BB.and_not m.board (511 <<< shift_mirror)
      let b2 := (List.range 6).foldl (fun b bit =>
        if col_bits &&& (1 <<< bit) != 0 then b ||| (1 <<< (shift_mirror + bit))
        else b) b1
      ⟨b2 ||| (height <<< (shift_mirror + 6)), m.heights.set mirror_col height⟩)
    (fun col => 6 - col)
    (fun m col j hreg => by
      dsimp only
      dsimp only at hreg
      rw [BB.mirror_step_bits bb hInv m col j, if_neg hreg])
    (List.range 7) ⟨0, List.replicate 7 0⟩ i
    (fun cc hcc => by
      have := List.mem_range.mp hcc
      dsimp only
      omega)]
  exact Nat.zero_testBit i

theorem Inv_mirror (bb : BB.Bitboard) (hInv : BB.Inv bb) :
    BB.Inv (mirror_bitboard bb) := by
  refine ⟨mirror_heights_len bb, ?_, ?_, ?_, fun i hi => mirror_board_high bb hInv i hi⟩
  · intro c hc
    rw [mirror_heights_getD bb c hc]
    exact hInv.hle (6 - c) (by omega)
  · intro c r hc hr hge
    have h := mirror_board_testBit_in bb hInv c r hc (by omega)
    rw [if_pos hr] at h
    rw [h]
    refine hInv.clean (6 - c) r (by omega) hr ?_
    rw [mirror_heights_getD bb c hc] at hge
    exact hge
  · intro c k hc hk
    have h := mirror_board_testBit_in bb hInv c (6 + k) hc (by omega)
    rw [if_neg (by omega), show 6 + k - 6 = k from by omega] at h
    rw [show c * 9 + 6 + k = c * 9 + (6 + k) from by omega, h,
      mirror_heights_getD bb c hc]

/-- Mirroring is an involution on the packed board integer, over
reachable (invariant-satisfying) positions. -/
theorem mirror_mirror_board (bb : BB.Bitboard) (hInv : BB.Inv bb) :
    (mirror_bitboard (mirror_bitboard bb)).board = bb.board := by
  have hInv2 := Inv_mirror bb hInv
  apply Nat.eq_of_testBit_eq
  intro i
  rcases Nat.lt_or_ge i 63 with hi | hi
  · have hc : i / 9 < 7 := by omega
    have hoff : i % 9 < 9 := Nat.mod_lt _ (by omega)
    have hie : i = (i / 9) * 9 + i % 9 := by omega
    rw [hie, mirror_board_testBit_in (mirror_bitboard bb) hInv2 (i / 9) (i % 9) hc hoff]
    by_cases ho : i % 9 < 6
    · rw [if_pos ho,
        mirror_board_testBit_in bb hInv (6 - i / 9) (i % 9) (by omega) hoff, if_pos ho,
        show (6 - (6 - i / 9)) = i / 9 from by omega]
    · rw [if_neg ho, mirror_heights_getD bb (6 - i / 9) (by omega),
        show (6 - (6 - i / 9)) = i / 9 from by omega,
        ← hInv.helper (i / 9) (i % 9 - 6) hc (by omega)]
      congr 1
      omega
  · rw [mirror_board_high (mirror_bitboard bb) hInv2 i hi, hInv.high i hi]

end MCTS

/-- C8: for every position reachable by drops, the canonical hash is
mirror-invariant and equals the numerically smaller of the position's
hash and its left-right mirror's hash, so a position and its mirror
share one transposition key. -/
theorem C8_canonical_hash_mirror_symmetric (ms : List (Nat × Nat))
    (hms : ∀ m ∈ ms, m.1 < 7) :
    MCTS.get_canonical_hash (BB.playBB ms) =
      MCTS.get_canonical_hash (MCTS.mirror_bitboard (BB.playBB ms)) ∧
    MCTS.get_canonical_hash (BB.playBB ms) =
      min (MCTS.hash_bitboard (BB.playBB ms))
        (MCTS.hash_bitboard (MCTS.mirror_bitboard (BB.playBB ms))) := by
  have hInv := BB.Inv_playBB ms hms
  refine ⟨?_, rfl⟩
  unfold MCTS.get_canonical_hash MCTS.hash_bitboard
  rw [MCTS.mirror_mirror_board (BB.playBB ms) hInv]
  exact min_comm _ _

theorem C8_canonical_hash_mirror_symmetric_witness :
    MCTS.get_canonical_hash (BB.playBB [(2, 0), (3, 1), (2, 0)]) =
      MCTS.get_canonical_hash
        (MCTS.mirror_bitboard (BB.playBB [(2, 0), (3, 1), (2, 0)])) ∧
    MCTS.get_canonical_hash (BB.playBB [(2, 0), (3, 1), (2, 0)]) =
      min (MCTS.hash_bitboard (BB.playBB [(2, 0), (3, 1), (2, 0)]))
        (MCTS.hash_bitboard (MCTS.mirror_bitboard (BB.playBB [(2, 0), (3, 1), (2, 0)]))) :=
  C8_canonical_hash_mirror_symmetric [(2, 0), (3, 1), (2, 0)] (by decide)

namespace BB

theorem foldl_bits_outP {f : Bitboard → Nat → Bitboard} {tc : Nat → Nat}
    {P : Bitboard → Prop} :
    ∀ (l : List Nat),
      (∀ m col, col ∈ l → P m → P (f m col)) →
      (∀ m col i, col ∈ l → P m → ¬ (tc col * 9 ≤ i ∧ i < tc col * 9 + 9) →
        (f m col).board.testBit i = m.board.testBit i) →
      ∀ (m : Bitboard) (i : Nat), P m →
        (∀ col ∈ l, ¬ (tc col * 9 ≤ i ∧ i < tc col * 9 + 9)) →
        (l.foldl f m).board.testBit i = m.board.testBit i := by
  intro l
  induction l with
  | nil =>
    intro _ _ m i _ _
    rfl
  | cons a t ih =>
    intro hPf hb_out m i hP hout
    rw [List.foldl_cons,
      ih (fun m2 c hc => hPf m2 c (List.mem_cons_of_mem a hc))
        (fun m2 c j hc => hb_out m2 c j (List.mem_cons_of_mem a hc))
        _ _ (hPf m a (List.mem_cons_self a t) hP)
        (fun c hc => hout c (List.mem_cons_of_mem a hc)),
      hb_out m a i (List.mem_cons_self a t) hP (hout a (List.mem_cons_self a t))]

theorem foldl_bits_inPZ {f : Bitboard → Nat → Bitboard} {tc : Nat → Nat}
    {V : Nat → Nat → Bool} {P : Bitboard → Prop} :
    ∀ (l : List Nat),
      (∀ m col, col ∈ l → P m → P (f m col)) →
      (∀ m col i, col ∈ l → P m → ¬ (tc col * 9 ≤ i ∧ i < tc col * 9 + 9) →
        (f m col).board.testBit i = m.board.testBit i) →
      (∀ m col j, col ∈ l → j ≠ tc col →
        (f m col).heights.getD j 0 = m.heights.getD j 0) →
      (∀ m col i, col ∈ l → P m → m.heights.getD (tc col) 0 = 0 →
        (∀ j, tc col * 9 ≤ j → j < tc col * 9 + 9 → m.board.testBit j = false) →
        tc col * 9 ≤ i → i < tc col * 9 + 9 →
        (f m col).board.testBit i = V col (i - tc col * 9)) →
      ∀ (m : Bitboard) (col i : Nat), P m → col ∈ l → l.Nodup →
        (∀ c1 ∈ l, ∀ c2 ∈ l, tc c1 = tc c2 → c1 = c2) →
        (∀ c ∈ l, m.heights.getD (tc c) 0 = 0) →
        (∀ c ∈ l, ∀ j, tc c * 9 ≤ j → j < tc c * 9 + 9 → m.board.testBit j = false) →
        tc col * 9 ≤ i → i < tc col * 9 + 9 →
        (l.foldl f m).board.testBit i = V col (i - tc col * 9) := by
  intro l
  induction l with
  | nil =>
    intro _ _ _ _ m col i _ hmem
    exact absurd hmem (List.not_mem_nil col)
  | cons a t ih =>
    intro hPf hb_out hh_out hb_in m col i hP hmem hnd hinj hhz hbz hlo hhi
    have hnd2 := List.nodup_cons.mp hnd
    rw [List.foldl_cons]
    rcases List.mem_cons.mp hmem with hca | hct
    · subst hca
      rw [foldl_bits_outP t
        (fun m2 c hc => hPf m2 c (List.mem_cons_of_mem col hc))
        (fun m2 c j hc => hb_out m2 c j (List.mem_cons_of_mem col hc))
        _ i (hPf m col (List.mem_cons_self col t) hP) ?_]
      · exact hb_in m col i (List.mem_cons_self col t) hP
          (hhz col (List.mem_cons_self col t))
          (hbz col (List.mem_cons_self col t)) hlo hhi
      · intro c hc hreg
        have hne : tc c ≠ tc col := fun he =>
          hnd2.1 (hinj c (List.mem_cons_of_mem _ hc) col
            (List.mem_cons_self col t) he ▸ hc)
        omega
    · refine ih (fun m2 c hc => hPf m2 c (List.mem_cons_of_mem a hc))
        (fun m2 c j hc => hb_out m2 c j (List.mem_cons_of_mem a hc))
        (fun m2 c j hc => hh_out m2 c j (List.mem_cons_of_mem a hc))
        (fun m2 c j hc => hb_in m2 c j (List.mem_cons_of_mem a hc))
        (f m a) col i (hPf m a (List.mem_cons_self a t) hP) hct hnd2.2
        (fun c1 h1 c2 h2 => hinj c1 (List.mem_cons_of_mem a h1) c2
          (List.mem_cons_of_mem a h2)) ?_ ?_ hlo hhi
      · intro c hc
        have hne : tc c ≠ tc a := fun he => by
          have := hinj c (List.mem_cons_of_mem a hc) a (List.mem_cons_self a t) he
          exact hnd2.1 (this ▸ hc)
        rw [hh_out m a (tc c) (List.mem_cons_self a t) hne]
        exact hhz c (List.mem_cons_of_mem a hc)
      · intro c hc j hj1 hj2
        have hne : tc c ≠ tc a := fun he => by
          have := hinj c (List.mem_cons_of_mem a hc) a (List.mem_cons_self a t) he
          exact hnd2.1 (this ▸ hc)
        rw [hb_out m a j (List.mem_cons_self a t) hP (by omega)]
        exact hbz c (List.mem_cons_of_mem a hc) j hj1 hj2

theorem foldl_heights_outM {f : Bitboard → Nat → Bitboard} {tc : Nat → Nat} :
    ∀ (l : List Nat),
      (∀ m col j, col ∈ l → j ≠ tc col →
        (f m col).heights.getD j 0 = m.heights.getD j 0) →
      ∀ (m : Bitboard) (j : Nat), (∀ col ∈ l, j ≠ tc col) →
        (l.foldl f m).heights.getD j 0 = m.heights.getD j 0 := by
  intro l
  induction l with
  | nil =>
    intro _ m j _
    rfl
  | cons a t ih =>
    intro hh_out m j hout
    rw [List.foldl_cons,
      ih (fun m2 c j2 hc => hh_out m2 c j2 (List.mem_cons_of_mem a hc)) _ _
        (fun c hc => hout c (List.mem_cons_of_mem a hc)),
      hh_out m a j (List.mem_cons_self a t) (hout a (List.mem_cons_self a t))]

theorem foldl_heights_inP {f : Bitboard → Nat → Bitboard} {tc : Nat → Nat}
    {HV : Nat → Nat} :
    ∀ (l : List Nat),
      (∀ m col j, col ∈ l → j ≠ tc col →
        (f m col).heights.getD j 0 = m.heights.getD j 0) →
      (∀ m col, col ∈ l → tc col < 7 → m.heights.length = 7 →
        m.heights.getD (tc col) 0 = 0 →
        (f m col).heights.getD (tc col) 0 = HV col) →
      (∀ m col, (f m col).heights.length = m.heights.length) →
      ∀ (m : Bitboard) (col : Nat), col ∈ l → l.Nodup →
        (∀ c1 ∈ l, ∀ c2 ∈ l, tc c1 = tc c2 → c1 = c2) →
        (∀ c ∈ l, tc c < 7) →
        m.heights.length = 7 →
        (∀ c ∈ l, m.heights.getD (tc c) 0 = 0) →
        (l.foldl f m).heights.getD (tc col) 0 = HV col := by
  intro l
  induction l with
  | nil =>
    intro _ _ _ m col hmem
    exact absurd hmem (List.not_mem_nil col)
  | cons a t ih =>
    intro hh_out hh_in hh_len m col hmem hnd hinj h7 hlen hhz
    have hnd2 := List.nodup_cons.mp hnd
    rw [List.foldl_cons]
    rcases List.mem_cons.mp hmem with hca | hct
    · subst hca
      rw [foldl_heights_outM t
        (fun m2 c j2 hc => hh_out m2 c j2 (List.mem_cons_of_mem col hc))
        (f m col) (tc col) ?_]
      · exact hh_in m col (List.mem_cons_self col t)
          (h7 col (List.mem_cons_self col t)) hlen (hhz col (List.mem_cons_self col t))
      · intro c hc he
        refine hnd2.1 ?_
        rw [hinj col (List.mem_cons_self col t) c (List.mem_cons_of_mem _ hc) he]
        exact hc
    · refine ih (fun m2 c j hc => hh_out m2 c j (List.mem_cons_of_mem a hc))
        (fun m2 c hc => hh_in m2 c (List.mem_cons_of_mem a hc)) hh_len
        (f m a) col hct hnd2.2
        (fun c1 h1 c2 h2 => hinj c1 (List.mem_cons_of_mem a h1) c2
          (List.mem_cons_of_mem a h2))
        (fun c hc => h7 c (List.mem_cons_of_mem a hc))
        (by rw [hh_len m a, hlen]) ?_
      intro c hc
      have hne : tc c ≠ tc a := fun he => by
        have := hinj c (List.mem_cons_of_mem a hc) a (List.mem_cons_self a t) he
        exact hnd2.1 (this ▸ hc)
      rw [hh_out m a (tc c) (List.mem_cons_self a t) hne]
      exact hhz c (List.mem_cons_of_mem a hc)

theorem mapping_cases (v : Int) : mapping v = 0 ∨ mapping v = 1 ∨ mapping v = 2 := by
  unfold mapping
  split
  · exact Or.inl rfl
  · split
    · exact Or.inr (Or.inl rfl)
    · exact Or.inr (Or.inr rfl)

theorem from2d_inner_bits (g : Game.Board) (col : Nat) :
    ∀ (l : List Nat) (acc : Bitboard) (i : Nat),
      ((l.foldl (fun (acc : Bitboard) row =>
          let value := mapping (Game.cell g row col)
          if value != 2 then
            let bit_pos := col * 9 + row
            let board2 := if value == 1 then acc.board ||| (1 <<< bit_pos)
              else acc.board
            (⟨board2, acc.heights.set col
              (max (acc.heights.getD col 0) (row + 1))⟩ : Bitboard)
          else acc) acc).board.testBit i) =
        (acc.board.testBit i || l.any (fun row =>
          (mapping (Game.cell g row col) == 1) && decide (i = col * 9 + row))) := by
  intro l
  induction l with
  | nil =>
    intro acc i
    simp
  | cons a t ih =>
    intro acc i
    rw [List.foldl_cons, List.any_cons]
    rcases mapping_cases (Game.cell g a col) with hm | hm | hm
    · simp only [hm]
      rw [if_pos (show ((0 : Nat) != 2) = true from rfl),
        if_neg (show ¬ ((0 : Nat) == 1) = true from by decide), ih]
      rw [show (((0 : Nat) == 1) && decide (i = col * 9 + a)) = false from rfl,
        Bool.false_or]
    · simp only [hm]
      rw [if_pos (show ((1 : Nat) != 2) = true from rfl),
        if_pos (show ((1 : Nat) == 1) = true from rfl), ih]
      dsimp only
      rw [Nat.testBit_lor, testBit_one_shift,
        show decide (col * 9 + a = i) = decide (i = col * 9 + a) from by simp [eq_comm],
        show (((1 : Nat) == 1) && decide (i = col * 9 + a)) =
          decide (i = col * 9 + a) from by rfl,
        Bool.or_assoc]
    · simp only [hm]
      rw [if_neg (show ¬ ((2 : Nat) != 2) = true from by decide), ih]
      rw [show (((2 : Nat) == 1) && decide (i = col * 9 + a)) = false from rfl,
        Bool.false_or]

theorem from2d_inner_heights_ne (g : Game.Board) (col : Nat) :
    ∀ (l : List Nat) (acc : Bitboard) (j : Nat), j ≠ col →
      ((l.foldl (fun (acc : Bitboard) row =>
          let value := mapping (Game.cell g row col)
          if value != 2 then
            let bit_pos := col * 9 + row
            let board2 := if value == 1 then acc.board ||| (1 <<< bit_pos)
              else acc.board
            (⟨board2, acc.heights.set col
              (max (acc.heights.getD col 0) (row + 1))⟩ : Bitboard)
          else acc) acc).heights.getD j 0) = acc.heights.getD j 0 := by
  intro l
  induction l with
  | nil =>
    intro acc j _
    rfl
  | cons a t ih =>
    intro acc j hj
    rw [List.foldl_cons, ih _ _ hj]
    rcases mapping_cases (Game.cell g a col) with hm | hm | hm <;> simp only [hm]
    · rw [if_pos (show ((0 : Nat) != 2) = true from rfl)]
      exact getD_set_ne _ _ _ _ (fun he => hj he.symm)
    · rw [if_pos (show ((1 : Nat) != 2) = true from rfl)]
      exact getD_set_ne _ _ _ _ (fun he => hj he.symm)
    · rw [if_neg (show ¬ ((2 : Nat) != 2) = true from by decide)]

theorem from2d_inner_len (g : Game.Board) (col : Nat) :
    ∀ (l : List Nat) (acc : Bitboard),
      ((l.foldl (fun (acc : Bitboard) row =>
          let value := mapping (Game.cell g row col)
          if value != 2 then
            let bit_pos := col * 9 + row
            let board2 := if value == 1 then acc.board ||| (1 <<< bit_pos)
              else acc.board
            (⟨board2, acc.heights.set col
              (max (acc.heights.getD col 0) (row + 1))⟩ : Bitboard)
          else acc) acc).heights.length) = acc.heights.length := by
  intro l
  induction l with
  | nil =>
    intro acc
    rfl
  | cons a t ih =>
    intro acc
    rw [List.foldl_cons, ih]
    rcases mapping_cases (Game.cell g a col) with hm | hm | hm <;> simp only [hm]
    · rw [if_pos (show ((0 : Nat) != 2) = true from rfl)]
      exact List.length_set _ _ _
    · rw [if_pos (show ((1 : Nat) != 2) = true from rfl)]
      exact List.length_set _ _ _
    · rw [if_neg (show ¬ ((2 : Nat) != 2) = true from by decide)]

theorem from2d_inner_height (g : Game.Board) (col : Nat) (hcol : col < 7) :
    ∀ (l : List Nat) (acc : Bitboard), acc.heights.length = 7 →
      ((l.foldl (fun (acc : Bitboard) row =>
          let value := mapping (Game.cell g row col)
          if value != 2 then
            let bit_pos := col * 9 + row
            let board2 := if value == 1 then acc.board ||| (1 <<< bit_pos)
              else acc.board
            (⟨board2, acc.heights.set col
              (max (acc.heights.getD col 0) (row + 1))⟩ : Bitboard)
          else acc) acc).heights.getD col 0) =
        l.foldl (fun h row => if mapping (Game.cell g row col) != 2
          then max h (row + 1) else h) (acc.heights.getD col 0) := by
  intro l
  induction l with
  | nil =>
    intro acc _
    rfl
  | cons a t ih =>
    intro acc hlen
    rw [List.foldl_cons, List.foldl_cons]
    rcases mapping_cases (Game.cell g a col) with hm | hm | hm <;> simp only [hm]
    · rw [if_pos (show ((0 : Nat) != 2) = true from rfl),
        if_pos (show ((0 : Nat) != 2) = true from rfl),
        ih _ (by rw [List.length_set]; exact hlen)]
      dsimp only
      rw [getD_set_self _ _ _ (by rw [hlen]; exact hcol)]
    · rw [if_pos (show ((1 : Nat) != 2) = true from rfl),
        if_pos (show ((1 : Nat) != 2) = true from rfl),
        ih _ (by rw [List.length_set]; exact hlen)]
      dsimp only
      rw [getD_set_self _ _ _ (by rw [hlen]; exact hcol)]
    · rw [if_neg (show ¬ ((2 : Nat) != 2) = true from by decide),
        if_neg (show ¬ ((2 : Nat) != 2) = true from by decide), ih _ hlen]

theorem hfold_ge (step : Nat → Nat → Nat) (hstep : ∀ h r, h ≤ step h r) :
    ∀ (l : List Nat) (h : Nat), h ≤ l.foldl step h := by
  intro l
  induction l with
  | nil =>
    intro h
    exact Nat.le_refl h
  | cons a t ih =>
    intro h
    exact Nat.le_trans (hstep h a) (ih (step h a))

theorem hfold_le (step : Nat → Nat → Nat) (b : Nat)
    (hstep : ∀ h r, h ≤ b → step h r ≤ b) :
    ∀ (l : List Nat) (h : Nat), h ≤ b → l.foldl step h ≤ b := by
  intro l
  induction l with
  | nil =>
    intro h hh
    exact hh
  | cons a t ih =>
    intro h hh
    exact ih (step h a) (hstep h a hh)

theorem hfold_leM (step : Nat → Nat → Nat) (b : Nat) :
    ∀ (l : List Nat), (∀ h r, r ∈ l → h ≤ b → step h r ≤ b) →
      ∀ h, h ≤ b → l.foldl step h ≤ b := by
  intro l
  induction l with
  | nil =>
    intro _ h hh
    exact hh
  | cons a t ih =>
    intro hstep h hh
    exact ih (fun h2 r hr => hstep h2 r (List.mem_cons_of_mem a hr)) (step h a)
      (hstep h a (List.mem_cons_self a t) hh)

theorem seven_testBit_lt3 (k : Nat) (hk : k < 3) : (7 : Nat).testBit k = true := by
  interval_cases k <;> rfl

theorem from2d_colheight_le (g : Game.Board) (col : Nat) (h : Nat) (hh : h ≤ 7) :
    (List.range 6).foldl (fun h row =>
      if mapping (Game.cell g row col) != 2 then max h (row + 1) else h) h ≤ 7 := by
  refine hfold_leM _ 7 (List.range 6) ?_ h hh
  intro h2 r hr hh2
  have := List.mem_range.mp hr
  split
  · omega
  · exact hh2

theorem from2d_step_out (g : Game.Board) (m : Bitboard) (col i : Nat)
    (hcol : col < 7) (hlen : m.heights.length = 7)
    (h8 : ∀ c, m.heights.getD c 0 < 8)
    (hreg : ¬ (col * 9 ≤ i ∧ i < col * 9 + 9)) :
    ((and_not ((List.range 6).foldl (fun (acc : Bitboard) row =>
        let value := mapping (Game.cell g row col)
        if value != 2 then
          let bit_pos := col * 9 + row
          let board2 := if value == 1 then acc.board ||| (1 <<< bit_pos)
            else acc.board
          (⟨board2, acc.heights.set col
            (max (acc.heights.getD col 0) (row + 1))⟩ : Bitboard)
        else acc) m).board (7 <<< (col * 9 + 6))) |||
      ((((List.range 6).foldl (fun (acc : Bitboard) row =>
        let value := mapping (Game.cell g row col)
        if value != 2 then
          let bit_pos := col * 9 + row
          let board2 := if value == 1 then acc.board ||| (1 <<< bit_pos)
            else acc.board
          (⟨board2, acc.heights.set col
            (max (acc.heights.getD col 0) (row + 1))⟩ : Bitboard)
        else acc) m).heights.getD col 0) <<< (col * 9 + 6))).testBit i =
      m.board.testBit i := by
  have hH8 : ((List.range 6).foldl (fun (acc : Bitboard) row =>
      let value := mapping (Game.cell g row col)
      if value != 2 then
        let bit_pos := col * 9 + row
        let board2 := if value == 1 then acc.board ||| (1 <<< bit_pos)
          else acc.board
        (⟨board2, acc.heights.set col
          (max (acc.heights.getD col 0) (row + 1))⟩ : Bitboard)
      else acc) m).heights.getD col 0 < 8 := by
    rw [from2d_inner_height g col hcol (List.range 6) m hlen]
    have := from2d_colheight_le g col (m.heights.getD col 0) (by have := h8 col; omega)
    omega
  rw [Nat.testBit_lor, testBit_and_not, from2d_inner_bits,
    testBit_shift_small 7 (col * 9 + 6) i (by omega),
    testBit_shift_small _ (col * 9 + 6) i hH8]
  have e1 : (decide (col * 9 + 6 ≤ i) && decide (i - (col * 9 + 6) < 3)) = false := by
    rcases Nat.lt_or_ge i (col * 9 + 6) with h | h
    · simp [show ¬ (col * 9 + 6 ≤ i) from by omega]
    · simp [show ¬ (i - (col * 9 + 6) < 3) from by omega]
  have hany : (List.range 6).any (fun row =>
      (mapping (Game.cell g row col) == 1) && decide (i = col * 9 + row)) = false := by
    rw [List.any_eq_false]
    intro row hrow
    simp only [List.mem_range] at hrow
    simp only [Bool.and_eq_true, decide_eq_true_eq, not_and]
    intro _ hb2
    omega
  rw [e1, hany]
  simp

theorem from2d_step_in (g : Game.Board) (m : Bitboard) (col i : Nat)
    (hcol : col < 7) (hlen : m.heights.length = 7)
    (h8 : ∀ c, m.heights.getD c 0 < 8)
    (hz : m.heights.getD col 0 = 0)
    (hbz : ∀ j, col * 9 ≤ j → j < col * 9 + 9 → m.board.testBit j = false)
    (hlo : col * 9 ≤ i) (hhi : i < col * 9 + 9) :
    ((and_not ((List.range 6).foldl (fun (acc : Bitboard) row =>
        let value := mapping (Game.cell g row col)
        if value != 2 then
          let bit_pos := col * 9 + row
          let board2 := if value == 1 then acc.board ||| (1 <<< bit_pos)
            else acc.board
          (⟨board2, acc.heights.set col
            (max (acc.heights.getD col 0) (row + 1))⟩ : Bitboard)
        else acc) m).board (7 <<< (col * 9 + 6))) |||
      ((((List.range 6).foldl (fun (acc : Bitboard) row =>
        let value := mapping (Game.cell g row col)
        if value != 2 then
          let bit_pos := col * 9 + row
          let board2 := if value == 1 then acc.board ||| (1 <<< bit_pos)
            else acc.board
          (⟨board2, acc.heights.set col
            (max (acc.heights.getD col 0) (row + 1))⟩ : Bitboard)
        else acc) m).heights.getD col 0) <<< (col * 9 + 6))).testBit i =
      (if i - col * 9 < 6 then (mapping (Game.cell g (i - col * 9) col) == 1)
       else ((List.range 6).foldl (fun h row =>
         if mapping (Game.cell g row col) != 2 then max h (row + 1) else h)
         0).testBit (i - col * 9 - 6)) := by
  have hHeq : ((List.range 6).foldl (fun (acc : Bitboard) row =>
      let value := mapping (Game.cell g row col)
      if value != 2 then
        let bit_pos := col * 9 + row
        let board2 := if value == 1 then acc.board ||| (1 <<< bit_pos)
          else acc.board
        (⟨board2, acc.heights.set col
          (max (acc.heights.getD col 0) (row + 1))⟩ : Bitboard)
      else acc) m).heights.getD col 0 =
      (List.range 6).foldl (fun h row =>
        if mapping (Game.cell g row col) != 2 then max h (row + 1) else h) 0 := by
    rw [from2d_inner_height g col hcol (List.range 6) m hlen, hz]
  have hH8 : (List.range 6).foldl (fun h row =>
      if mapping (Game.cell g row col) != 2 then max h (row + 1) else h) 0 < 8 := by
    have := from2d_colheight_le g col 0 (by omega)
    omega
  rw [Nat.testBit_lor, testBit_and_not, from2d_inner_bits, hHeq,
    testBit_shift_small 7 (col * 9 + 6) i (by omega),
    testBit_shift_small _ (col * 9 + 6) i hH8]
  by_cases hoff : i - col * 9 < 6
  · rw [if_pos hoff]
    have e2 : (decide (col * 9 + 6 ≤ i)) = false := by
      simp only [decide_eq_false_iff_not]
      omega
    have hany : (List.range 6).any (fun row =>
        (mapping (Game.cell g row col) == 1) && decide (i = col * 9 + row)) =
        (mapping (Game.cell g (i - col * 9) col) == 1) := by
      cases hcb : (mapping (Game.cell g (i - col * 9) col) == 1)
      · rw [List.any_eq_false]
        intro row hrow
        simp only [Bool.and_eq_true, decide_eq_true_eq, not_and]
        intro hb1 hb2
        rw [show row = i - col * 9 from by omega, hcb] at hb1
        exact Bool.noConfusion hb1
      · rw [List.any_eq_true]
        refine ⟨i - col * 9, List.mem_range.mpr hoff, ?_⟩
        rw [hcb, Bool.true_and, decide_eq_true_eq]
        omega
    rw [e2, hany, hbz i hlo hhi]
    simp
  · rw [if_neg hoff]
    have e3 : (decide (col * 9 + 6 ≤ i)) = true := by
      simp only [decide_eq_true_eq]
      omega
    have e4 : (decide (i - (col * 9 + 6) < 3)) = true := by
      simp only [decide_eq_true_eq]
      omega
    have hany : (List.range 6).any (fun row =>
        (mapping (Game.cell g row col) == 1) && decide (i = col * 9 + row)) = false := by
      rw [List.any_eq_false]
      intro row hrow
      simp only [List.mem_range] at hrow
      simp only [Bool.and_eq_true, decide_eq_true_eq, not_and]
      intro _ hb2
      omega
    rw [e3, e4, hany, hbz i hlo hhi,
      seven_testBit_lt3 (i - (col * 9 + 6)) (by omega),
      show i - (col * 9 + 6) = i - col * 9 - 6 from by omega]
    simp

theorem from_2d_heights (g : Game.Board) (c : Nat) (hc : c < 7) :
    (from_2d_array g).heights.getD c 0 =
      (List.range 6).foldl (fun h row =>
        if mapping (Game.cell g row c) != 2 then max h (row + 1) else h) 0 := by
  unfold from_2d_array
  exact @foldl_heights_inP
    (fun bb col =>
      let bb2 := (List.range 6).foldl (fun (acc : Bitboard) row =>
        let value := mapping (Game.cell g row col)
        if value != 2 then
          let bit_pos := col * 9 + row
          let board2 := if value == 1 then acc.board ||| (1 <<< bit_pos)
            else acc.board
          ⟨board2, acc.heights.set col (max (acc.heights.getD col 0) (row + 1))⟩
        else acc) bb
      let height_mask := 7 <<< (col * 9 + 6)
      ⟨(and_not bb2.board height_mask) |||
          ((bb2.heights.getD col 0) <<< (col * 9 + 6)),
        bb2.heights⟩)
    (fun col => col)
    (fun col => (List.range 6).foldl (fun h row =>
      if mapping (Game.cell g row col) != 2 then max h (row + 1) else h) 0)
    (List.range 7)
    (fun m col j _ hj => by
      dsimp only
      exact from2d_inner_heights_ne g col (List.range 6) m j hj)
    (fun m col _ hcol hlen hz => by
      dsimp only
      rw [from2d_inner_height g col hcol (List.range 6) m hlen, hz])
    (fun m col => by
      dsimp only
      exact from2d_inner_len g col (List.range 6) m)
    emptyBB c (List.mem_range.mpr hc) (List.nodup_range 7)
    (fun c1 _ c2 _ he => he)
    (fun cc hcc => List.mem_range.mp hcc)
    rfl
    (fun cc hcc => by
      have := List.mem_range.mp hcc
      interval_cases cc <;> rfl)

theorem from_2d_board_bit (g : Game.Board) (c off : Nat) (hc : c < 7)
    (hoff9 : off < 9) :
    (from_2d_array g).board.testBit (c * 9 + off) =
      (if off < 6 then (mapping (Game.cell g off c) == 1)
       else ((List.range 6).foldl (fun h row =>
         if mapping (Game.cell g row c) != 2 then max h (row + 1) else h)
         0).testBit (off - 6)) := by
  unfold from_2d_array
  have h := @foldl_bits_inPZ
    (fun bb col =>
      let bb2 := (List.range 6).foldl (fun (acc : Bitboard) row =>
        let value := mapping (Game.cell g row col)
        if value != 2 then
          let bit_pos := col * 9 + row
          let board2 := if value == 1 then acc.board ||| (1 <<< bit_pos)
            else acc.board
          ⟨board2, acc.heights.set col (max (acc.heights.getD col 0) (row + 1))⟩
        else acc) bb
      let height_mask := 7 <<< (col * 9 + 6)
      ⟨(and_not bb2.board height_mask) |||
          ((bb2.heights.getD col 0) <<< (col * 9 + 6)),
        bb2.heights⟩)
    (fun col => col)
    (fun col o => if o < 6 then (mapping (Game.cell g o col) == 1)
      else ((List.range 6).foldl (fun h row =>
        if mapping (Game.cell g row col) != 2 then max h (row + 1) else h)
        0).testBit (o - 6))
    (fun m => m.heights.length = 7 ∧ ∀ cc, m.heights.getD cc 0 < 8)
    (List.range 7)
    (fun m col hcm hP => by
      refine ⟨?_, ?_⟩
      · dsimp only
        rw [from2d_inner_len g col (List.range 6) m]
        exact hP.1
      · intro cc
        dsimp only
        by_cases hcc : cc = col
        · subst hcc
          rw [from2d_inner_height g cc (List.mem_range.mp hcm) (List.range 6) m hP.1]
          have := from2d_colheight_le g cc (m.heights.getD cc 0)
            (by have := hP.2 cc; omega)
          omega
        · rw [from2d_inner_heights_ne g col (List.range 6) m cc hcc]
          exact hP.2 cc)
    (fun m col i hcm hP hreg => by
      dsimp only
      exact from2d_step_out g m col i (List.mem_range.mp hcm) hP.1 hP.2 hreg)
    (fun m col j _ hj => by
      dsimp only
      exact from2d_inner_heights_ne g col (List.range 6) m j hj)
    (fun m col i hcm hP hz hbz hlo hhi => by
      dsimp only
      exact from2d_step_in g m col i (List.mem_range.mp hcm) hP.1 hP.2 hz hbz hlo hhi)
    emptyBB c (c * 9 + off)
    ⟨rfl, fun cc => by
      rcases Nat.lt_or_ge cc 7 with hlt | hge
      · interval_cases cc <;> decide
      · rw [List.getD_eq_default _ _ (by simpa using hge)]
        omega⟩
    (List.mem_range.mpr hc) (List.nodup_range 7)
    (fun c1 _ c2 _ he => he)
    (fun cc hcc => by
      have := List.mem_range.mp hcc
      interval_cases cc <;> rfl)
    (fun cc _ j _ _ => Nat.zero_testBit j)
    (by dsimp only; omega) (by dsimp only; omega)
  dsimp only at h
  rw [show c * 9 + off - c * 9 = off from by omega] at h
  exact h

theorem colheight_ge (g : Game.Board) (c : Nat) :
    ∀ (l : List Nat) (h r : Nat), r ∈ l → (mapping (Game.cell g r c) != 2) = true →
      r + 1 ≤ l.foldl (fun h row =>
        if mapping (Game.cell g row c) != 2 then max h (row + 1) else h) h := by
  intro l
  induction l with
  | nil =>
    intro h r hr
    exact absurd hr (List.not_mem_nil r)
  | cons a t ih =>
    intro h r hr hm
    rw [List.foldl_cons]
    rcases List.mem_cons.mp hr with hra | hrt
    · subst hra
      rw [if_pos hm]
      have hge := hfold_ge (fun h row =>
        if mapping (Game.cell g row c) != 2 then max h (row + 1) else h)
        (fun h2 r2 => by dsimp only; split <;> omega) t (max h (r + 1))
      omega
    · exact ih _ r hrt hm

theorem colheight_attained (g : Game.Board) (c : Nat) :
    ∀ (l : List Nat) (h : Nat),
      (l.foldl (fun h row =>
        if mapping (Game.cell g row c) != 2 then max h (row + 1) else h) h = h) ∨
      (∃ r ∈ l, l.foldl (fun h row =>
          if mapping (Game.cell g row c) != 2 then max h (row + 1) else h) h = r + 1 ∧
        (mapping (Game.cell g r c) != 2) = true) := by
  intro l
  induction l with
  | nil =>
    intro h
    exact Or.inl rfl
  | cons a t ih =>
    intro h
    rw [List.foldl_cons]
    by_cases hm : (mapping (Game.cell g a c) != 2) = true
    · rw [if_pos hm]
      rcases ih (max h (a + 1)) with h0 | ⟨r, hr, heq, hm2⟩
      · rcases Nat.le_total (a + 1) h with hle | hle
        · rw [h0]
          exact Or.inl (by omega)
        · refine Or.inr ⟨a, List.mem_cons_self a t, ?_, hm⟩
          rw [h0]
          omega
      · exact Or.inr ⟨r, List.mem_cons_of_mem a hr, heq, hm2⟩
    · rw [if_neg hm]
      rcases ih h with h0 | ⟨r, hr, heq, hm2⟩
      · exact Or.inl h0
      · exact Or.inr ⟨r, List.mem_cons_of_mem a hr, heq, hm2⟩

theorem grav_chain (g : Game.Board) (c : Nat)
    (hgrav : ∀ r, r < 5 → Game.cell g (r + 1) c ≠ 0 → Game.cell g r c ≠ 0) :
    ∀ r, r < 6 → Game.cell g r c ≠ 0 → ∀ r2, r2 ≤ r → Game.cell g r2 c ≠ 0 := by
  intro r
  induction r with
  | zero =>
    intro _ hne r2 hle
    rw [Nat.le_zero.mp hle]
    exact hne
  | succ n ih =>
    intro hr hne r2 hle
    rcases Nat.eq_or_lt_of_le hle with heq | hlt
    · rw [heq]
      exact hne
    · exact ih (by omega) (hgrav n (by omega) hne) r2 (by omega)

end BB

theorem cells_ok_cell (g : Game.Board) (hok : cells_ok g = true) (r c : Nat)
    (hr : r < 6) (hc : c < 7) :
    Game.cell g r c = 1 ∨ Game.cell g r c = -1 ∨ Game.cell g r c = 0 := by
  unfold cells_ok at hok
  rw [List.all_eq_true] at hok
  have h1 := hok r (List.mem_range.mpr hr)
  rw [List.all_eq_true] at h1
  have h2 := h1 c (List.mem_range.mpr hc)
  simpa [or_assoc] using h2

namespace BB

theorem mapping_ne_two (v : Int) (hv : v = 1 ∨ v = -1) :
    (mapping v != 2) = true := by
  rcases hv with hv | hv <;> rw [hv] <;> rfl

theorem from_2d_get_cell (g : Game.Board) (hok : cells_ok g = true)
    (hgrav : ∀ c, c < 7 → ∀ r, r < 5 → Game.cell g (r + 1) c ≠ 0 →
      Game.cell g r c ≠ 0)
    (r c : Nat) (hr : r < 6) (hc : c < 7) :
    get_cell (from_2d_array g) r c = mapping (Game.cell g r c) := by
  rw [get_cell_testBit _ _ _ hr, from_2d_heights g c hc]
  set HV := (List.range 6).foldl (fun h row =>
    if mapping (Game.cell g row c) != 2 then max h (row + 1) else h) 0 with hHV
  by_cases hle : HV ≤ r
  · rw [if_pos hle]
    have hcell0 : Game.cell g r c = 0 := by
      by_contra hne
      have hm : (mapping (Game.cell g r c) != 2) = true := by
        rcases cells_ok_cell g hok r c hr hc with h1 | h1 | h1
        · exact mapping_ne_two _ (Or.inl h1)
        · exact mapping_ne_two _ (Or.inr h1)
        · exact absurd h1 hne
      have hge := colheight_ge g c (List.range 6) 0 r (List.mem_range.mpr hr) hm
      omega
    rw [hcell0]
    rfl
  · rw [if_neg hle]
    have hbit := from_2d_board_bit g c r hc (by omega)
    rw [if_pos hr] at hbit
    rw [hbit]
    have hne : Game.cell g r c ≠ 0 := by
      rcases colheight_attained g c (List.range 6) 0 with h0 | ⟨rt, hrt, heq, hm⟩
      · omega
      · have hrt6 := List.mem_range.mp hrt
        have hcellt : Game.cell g rt c ≠ 0 := by
          intro h0'
          rw [h0'] at hm
          exact absurd hm (by decide)
        exact grav_chain g c (hgrav c hc) rt hrt6 hcellt r (by omega)
    rcases cells_ok_cell g hok r c hr hc with h1 | h1 | h1
    · rw [h1]
      rfl
    · rw [h1]
      rfl
    · exact absurd h1 hne

end BB

theorem cell_getElem (g : Game.Board) (i j : Nat) (h1 : i < g.length)
    (h2 : j < (g[i]).length) : Game.cell g i j = (g[i])[j] := by
  unfold Game.cell
  rw [List.getD_eq_getElem g [] h1, List.getD_eq_getElem _ 0 h2]

/-- C4: for every well-formed gravity-respecting 6x7 grid over the
traditional values (a superset of the positions reachable by drops),
packing with `from_2d_array` and unpacking with `to_2d_array` returns
exactly the image of the grid under the documented value map
(1 to 0, -1 to 1, 0 to 2), and decoding back yields a grid identical to
the original: every cell's owner and every empty cell is preserved. -/
theorem C4_round_trip_lossless (g : Game.Board)
    (hlen : g.length = 6) (hrows : ∀ row ∈ g, row.length = 7)
    (hok : cells_ok g = true)
    (hgrav : ∀ c, c < 7 → ∀ r, r < 5 → Game.cell g (r + 1) c ≠ 0 →
      Game.cell g r c ≠ 0) :
    BB.to_2d_array (BB.from_2d_array g) = g.map (List.map BB.mapping) ∧
    BB.trad_of_bb (BB.from_2d_array g) = g := by
  have hto : BB.to_2d_array (BB.from_2d_array g) = g.map (List.map BB.mapping) := by
    apply List.ext_getElem
    · simp [BB.to_2d_array, hlen]
    · intro i h1 h2
      have hi6 : i < 6 := by simpa [BB.to_2d_array] using h1
      have hig : i < g.length := by omega
      have hrow7 : (g[i]).length = 7 := hrows _ (List.getElem_mem hig)
      simp only [BB.to_2d_array, List.getElem_map, List.getElem_range]
      apply List.ext_getElem
      · simp [hrow7]
      · intro j hj1 hj2
        have hj7 : j < 7 := by simpa using hj1
        simp only [List.getElem_map, List.getElem_range]
        rw [BB.from_2d_get_cell g hok hgrav i j hi6 hj7,
          cell_getElem g i j hig (by omega)]
  refine ⟨hto, ?_⟩
  unfold BB.trad_of_bb
  rw [hto, List.map_map]
  apply List.ext_getElem
  · simp [hlen]
  · intro i h1 h2
    have hig : i < g.length := by simpa using h1
    have hi6 : i < 6 := by omega
    have hrow7 : (g[i]).length = 7 := hrows _ (List.getElem_mem hig)
    simp only [List.getElem_map, Function.comp, List.map_map]
    apply List.ext_getElem
    · simp [hrow7]
    · intro j hj1 hj2
      have hj7 : j < 7 := by simpa [hrow7] using hj2
      simp only [List.getElem_map, Function.comp]
      have hcg : Game.cell g i j = (g[i])[j] :=
        cell_getElem g i j hig (by omega)
      rcases cells_ok_cell g hok i j hi6 hj7 with h3 | h3 | h3 <;>
        rw [hcg] at h3 <;> rw [h3] <;> rfl

theorem C4_round_trip_lossless_witness :
    BB.to_2d_array (BB.from_2d_array
        [[1,-1,0,0,0,0,0],[1,0,0,0,0,0,0],[0,0,0,0,0,0,0],
         [0,0,0,0,0,0,0],[0,0,0,0,0,0,0],[0,0,0,0,0,0,0]]) =
      ([[1,-1,0,0,0,0,0],[1,0,0,0,0,0,0],[0,0,0,0,0,0,0],
        [0,0,0,0,0,0,0],[0,0,0,0,0,0,0],[0,0,0,0,0,0,0]] : Game.Board).map
        (List.map BB.mapping) ∧
    BB.trad_of_bb (BB.from_2d_array
        [[1,-1,0,0,0,0,0],[1,0,0,0,0,0,0],[0,0,0,0,0,0,0],
         [0,0,0,0,0,0,0],[0,0,0,0,0,0,0],[0,0,0,0,0,0,0]]) =
      [[1,-1,0,0,0,0,0],[1,0,0,0,0,0,0],[0,0,0,0,0,0,0],
       [0,0,0,0,0,0,0],[0,0,0,0,0,0,0],[0,0,0,0,0,0,0]] :=
  C4_round_trip_lossless
    [[1,-1,0,0,0,0,0],[1,0,0,0,0,0,0],[0,0,0,0,0,0,0],
     [0,0,0,0,0,0,0],[0,0,0,0,0,0,0],[0,0,0,0,0,0,0]]
    (by decide) (by decide) (by decide) (by decide)

/-! ### The MCTS loop at arbitrary budgets -/

namespace MCTS

theorem mem_set_elim {α : Type} (P : α → Prop) :
    ∀ (l : List α) (i : Nat) (x a : α), (∀ c ∈ l, P c) → (i < l.length → P x) →
      a ∈ l.set i x → P a := by
  intro l
  induction l with
  | nil =>
    intro i x a _ _ ha
    simp at ha
  | cons c t ih =>
    intro i x a hl hx ha
    cases i with
    | zero =>
      rw [List.set_cons_zero] at ha
      rcases List.mem_cons.mp ha with h | h
      · rw [h]
        exact hx (by simp)
      · exact hl a (List.mem_cons_of_mem c h)
    | succ k =>
      rw [List.set_cons_succ] at ha
      rcases List.mem_cons.mp ha with h | h
      · rw [h]
        exact hl c (List.mem_cons_self c t)
      · exact ih k x a (fun c2 hc2 => hl c2 (List.mem_cons_of_mem c hc2))
          (fun hk => hx (by simp only [List.length_cons]; omega)) h

/-- An iteration never changes the move that leads to a node. -/
theorem mcts_iterate_move (cp : Int) (pick : List Nat → Nat)
    (sel : List MCTSNodeV2 → Nat) (simres : BB.Bitboard → Int → Int → Rat) :
    ∀ (fuel : Nat) (n : MCTSNodeV2),
      (mcts_iterate cp pick sel simres fuel n).1.move = n.move := by
  intro fuel n
  cases fuel with
  | zero => rfl
  | succ f =>
    cases n with
    | mk b mv pl w v u cs =>
      rw [mcts_iterate]
      split
      · rfl
      · split
        · rfl
        · rfl

/-- An iteration preserves the root invariant: untried moves stay
inside `valid`, and every child was reached by a move in `valid` (a
fresh child's move is picked from the untried moves). -/
theorem mcts_iterate_inv (cp : Int) (pick : List Nat → Nat)
    (sel : List MCTSNodeV2 → Nat) (simres : BB.Bitboard → Int → Int → Rat)
    (valid : List Nat) (hpick : ∀ l : List Nat, l ≠ [] → pick l ∈ l) :
    ∀ (fuel : Nat) (n : MCTSNodeV2),
      (∀ m ∈ n.untried_moves, m ∈ valid) →
      (∀ c ∈ n.children, ∃ m ∈ valid, c.move = some m) →
      (∀ m ∈ (mcts_iterate cp pick sel simres fuel n).1.untried_moves, m ∈ valid) ∧
      (∀ c ∈ (mcts_iterate cp pick sel simres fuel n).1.children,
        ∃ m ∈ valid, c.move = some m) := by
  intro fuel n hu hc
  cases fuel with
  | zero => exact ⟨hu, hc⟩
  | succ f =>
    cases n with
    | mk b mv pl w v u cs =>
      simp only [MCTSNodeV2.untried_moves, MCTSNodeV2.children] at hu hc
      rw [mcts_iterate]
      simp only [MCTSNodeV2.untried_moves, MCTSNodeV2.children, MCTSNodeV2.update,
        MCTSNodeV2.bitboard, MCTSNodeV2.move, MCTSNodeV2.player, MCTSNodeV2.wins,
        MCTSNodeV2.visits]
      by_cases h1 : u = [] ∧ cs.isEmpty = false
      · rw [if_pos h1]
        simp only [MCTSNodeV2.untried_moves, MCTSNodeV2.children]
        refine ⟨hu, ?_⟩
        intro c2 hc2
        refine mem_set_elim (fun c => ∃ m ∈ valid, c.move = some m) cs (sel cs)
          ((mcts_iterate cp pick sel simres f (cs.getD (sel cs) dfltNode)).1)
          c2 hc ?_ hc2
        intro hlt
        have hmv := mcts_iterate_move cp pick sel simres f (cs.getD (sel cs) dfltNode)
        obtain ⟨m, hm, hmove⟩ := hc _ (List.getElem_mem hlt)
        exact ⟨m, hm, by rw [hmv, List.getD_eq_getElem cs dfltNode hlt, hmove]⟩
      · rw [if_neg h1]
        by_cases h2 : u ≠ []
        · rw [if_pos h2]
          simp only [MCTSNodeV2.untried_moves, MCTSNodeV2.children]
          refine ⟨?_, ?_⟩
          · intro m hm
            exact hu m (List.mem_of_mem_erase hm)
          · intro c2 hc2
            rcases List.mem_append.mp hc2 with h | h
            · exact hc c2 h
            · rw [List.mem_singleton] at h
              rw [h]
              exact ⟨pick u, hu _ (hpick u h2), rfl⟩
        · rw [if_neg h2]
          simp only [MCTSNodeV2.untried_moves, MCTSNodeV2.children]
          exact ⟨hu, hc⟩

/-- An iteration never empties a non-empty children list. -/
theorem mcts_iterate_children_ne (cp : Int) (pick : List Nat → Nat)
    (sel : List MCTSNodeV2 → Nat) (simres : BB.Bitboard → Int → Int → Rat) :
    ∀ (fuel : Nat) (n : MCTSNodeV2), n.children ≠ [] →
      (mcts_iterate cp pick sel simres fuel n).1.children ≠ [] := by
  intro fuel n hne
  cases fuel with
  | zero => exact hne
  | succ f =>
    cases n with
    | mk b mv pl w v u cs =>
      simp only [MCTSNodeV2.children] at hne
      rw [mcts_iterate]
      simp only [MCTSNodeV2.untried_moves, MCTSNodeV2.children, MCTSNodeV2.update,
        MCTSNodeV2.bitboard, MCTSNodeV2.move, MCTSNodeV2.player, MCTSNodeV2.wins,
        MCTSNodeV2.visits]
      by_cases h1 : u = [] ∧ cs.isEmpty = false
      · rw [if_pos h1]
        simp only [MCTSNodeV2.children]
        intro h
        have hl := congrArg List.length h
        rw [List.length_set] at hl
        exact hne (List.length_eq_zero.mp (by simpa using hl))
      · rw [if_neg h1]
        by_cases h2 : u ≠ []
        · rw [if_pos h2]
          simp only [MCTSNodeV2.children]
          simp
        · rw [if_neg h2]
          simp only [MCTSNodeV2.children]
          exact hne

/-- With positive fuel, an iteration at a childless node with untried
moves expands a child. -/
theorem mcts_iterate_expands (cp : Int) (pick : List Nat → Nat)
    (sel : List MCTSNodeV2 → Nat) (simres : BB.Bitboard → Int → Int → Rat) :
    ∀ (fuel : Nat) (n : MCTSNodeV2), 0 < fuel → n.children = [] →
      n.untried_moves ≠ [] →
      (mcts_iterate cp pick sel simres fuel n).1.children ≠ [] := by
  intro fuel n hf hch hu
  cases fuel with
  | zero => omega
  | succ f =>
    cases n with
    | mk b mv pl w v u cs =>
      simp only [MCTSNodeV2.children] at hch
      simp only [MCTSNodeV2.untried_moves] at hu
      subst hch
      rw [mcts_iterate]
      simp only [MCTSNodeV2.untried_moves, MCTSNodeV2.children]
      rw [if_neg (by simp), if_pos hu]
      simp only [MCTSNodeV2.update, MCTSNodeV2.children]
      simp

/-- An iteration at a node with no untried move and no child (a full
board at the root) only updates statistics. -/
theorem mcts_iterate_barren (cp : Int) (pick : List Nat → Nat)
    (sel : List MCTSNodeV2 → Nat) (simres : BB.Bitboard → Int → Int → Rat) :
    ∀ (fuel : Nat) (n : MCTSNodeV2), n.untried_moves = [] → n.children = [] →
      (mcts_iterate cp pick sel simres fuel n).1.untried_moves = [] ∧
      (mcts_iterate cp pick sel simres fuel n).1.children = [] := by
  intro fuel n hu hch
  cases fuel with
  | zero => exact ⟨hu, hch⟩
  | succ f =>
    cases n with
    | mk b mv pl w v u cs =>
      simp only [MCTSNodeV2.untried_moves] at hu
      simp only [MCTSNodeV2.children] at hch
      subst hu
      subst hch
      rw [mcts_iterate]
      simp [MCTSNodeV2.untried_moves, MCTSNodeV2.children, MCTSNodeV2.update]

theorem mcts_loop_inv (cp : Int) (pick : List Nat → Nat)
    (sel : List MCTSNodeV2 → Nat) (simres : BB.Bitboard → Int → Int → Rat)
    (fuel : Nat) (valid : List Nat)
    (hpick : ∀ l : List Nat, l ≠ [] → pick l ∈ l) :
    ∀ (k : Nat) (n : MCTSNodeV2),
      (∀ m ∈ n.untried_moves, m ∈ valid) →
      (∀ c ∈ n.children, ∃ m ∈ valid, c.move = some m) →
      n.children ≠ [] →
      (∀ c ∈ (mcts_loop cp pick sel simres fuel k n).children,
        ∃ m ∈ valid, c.move = some m) ∧
      (mcts_loop cp pick sel simres fuel k n).children ≠ [] := by
  intro k
  induction k with
  | zero =>
    intro n _ hc hne
    exact ⟨hc, hne⟩
  | succ j ih =>
    intro n hu hc hne
    rw [mcts_loop]
    obtain ⟨hu2, hc2⟩ := mcts_iterate_inv cp pick sel simres valid hpick fuel n hu hc
    exact ih _ hu2 hc2 (mcts_iterate_children_ne cp pick sel simres fuel n hne)

theorem mcts_loop_barren (cp : Int) (pick : List Nat → Nat)
    (sel : List MCTSNodeV2 → Nat) (simres : BB.Bitboard → Int → Int → Rat)
    (fuel : Nat) :
    ∀ (k : Nat) (n : MCTSNodeV2), n.untried_moves = [] → n.children = [] →
      (mcts_loop cp pick sel simres fuel k n).children = [] := by
  intro k
  induction k with
  | zero =>
    intro n _ hch
    exact hch
  | succ j ih =>
    intro n hu hch
    rw [mcts_loop]
    obtain ⟨h1, h2⟩ := mcts_iterate_barren cp pick sel simres fuel n hu hch
    exact ih _ h1 h2

theorem foldl_best_mem :
    ∀ (t : List MCTSNodeV2) (b : MCTSNodeV2),
      t.foldl (fun best c => if best.visits < c.visits then c else best) b ∈ b :: t := by
  intro t
  induction t with
  | nil =>
    intro b
    exact List.mem_singleton.mpr rfl
  | cons c t2 ih =>
    intro b
    rw [List.foldl_cons]
    rcases List.mem_cons.mp (ih (if b.visits < c.visits then c else b)) with h | h
    · rw [h]
      split
      · exact List.mem_cons_of_mem b (List.mem_cons_self c t2)
      · exact List.mem_cons_self b _
    · exact List.mem_cons_of_mem b (List.mem_cons_of_mem c h)

theorem most_visited_child_mem (c0 : MCTSNodeV2) (rest : List MCTSNodeV2) :
    most_visited_child c0 rest ∈ c0 :: rest :=
  foldl_best_mem rest c0

end MCTS

/-- C9 (amended): for every strictly positive iteration budget, every
starting position with at least one legal move, and every outcome of
the random choices, the UCB selection and the rollouts, `mcts_search_v2`
returns a legal column, provided the answer is not served from a
trusted transposition entry (no stored entry for this canonical hash
has visits above 500): the root's children are only ever created from
its own untried (legal) moves, and the returned column is the move of
one of them. -/
theorem C9_mcts_move_legal (bb : BB.Bitboard) (cp : Int) (iterations : Nat)
    (use_tt : Bool) (tt : List (Nat × MCTS.TTEntry)) (pick : List Nat → Nat)
    (sel : List MCTS.MCTSNodeV2 → Nat) (simres : BB.Bitboard → Int → Int → Rat)
    (hiter : 0 < iterations)
    (hpick : ∀ l : List Nat, l ≠ [] → pick l ∈ l)
    (hvalid : MCTS.bitboard_get_valid_moves bb ≠ [])
    (hmiss : ∀ e, tt.lookup (MCTS.get_canonical_hash bb) = some e → e.visits ≤ 500) :
    (MCTS.mcts_search_v2 bb cp iterations use_tt tt pick sel simres).1.1 ∈
      MCTS.bitboard_get_valid_moves bb := by
  obtain ⟨j, rfl⟩ : ∃ j, iterations = j + 1 := ⟨iterations - 1, by omega⟩
  unfold MCTS.mcts_search_v2
  have hhit : (if use_tt then
      match tt.lookup (MCTS.get_canonical_hash bb) with
      | some e => if 500 < e.visits then some e else none
      | none => none
    else none) = none := by
    cases use_tt
    · rfl
    · simp only [if_true]
      cases hl : tt.lookup (MCTS.get_canonical_hash bb) with
      | none => rfl
      | some e =>
        have := hmiss e hl
        show (if 500 < e.visits then some e else none) = none
        rw [if_neg (by omega)]
  simp only [hhit]
  set root : MCTS.MCTSNodeV2 := MCTS.MCTSNodeV2.mk bb none (-cp) 0 0
    (MCTS.bitboard_get_valid_moves bb) []
  have hstep : MCTS.mcts_loop cp pick sel simres (j + 1 + 1) (j + 1) root =
      MCTS.mcts_loop cp pick sel simres (j + 1 + 1) j
        (MCTS.mcts_iterate cp pick sel simres (j + 1 + 1) root).1 := by
    rw [MCTS.mcts_loop]
  have hn1 := MCTS.mcts_iterate_inv cp pick sel simres
    (MCTS.bitboard_get_valid_moves bb) hpick (j + 1 + 1) root
    (fun m hm => hm) (fun c hc => absurd hc (List.not_mem_nil c))
  have hne1 : (MCTS.mcts_iterate cp pick sel simres (j + 1 + 1) root).1.children ≠ [] :=
    MCTS.mcts_iterate_expands cp pick sel simres (j + 1 + 1) root (by omega) rfl hvalid
  have hloop := MCTS.mcts_loop_inv cp pick sel simres (j + 1 + 1)
    (MCTS.bitboard_get_valid_moves bb) hpick j
    (MCTS.mcts_iterate cp pick sel simres (j + 1 + 1) root).1
    hn1.1 hn1.2 hne1
  rw [hstep]
  cases hch : (MCTS.mcts_loop cp pick sel simres (j + 1 + 1) j
      (MCTS.mcts_iterate cp pick sel simres (j + 1 + 1) root).1).children with
  | nil => exact absurd hch hloop.2
  | cons c0 rest =>
    have hbest := MCTS.most_visited_child_mem c0 rest
    rw [← hch] at hbest
    obtain ⟨m, hm, hmove⟩ := hloop.1 _ hbest
    show (MCTS.most_visited_child c0 rest).move.getD 0 ∈
      MCTS.bitboard_get_valid_moves bb
    rw [hmove, Option.getD_some]
    exact hm

theorem C9_mcts_move_legal_witness :
    (MCTS.mcts_search_v2 BB.emptyBB 0 3 true [] (fun l => l.headD 0)
        (fun _ => 0) (fun _ _ _ => 0)).1.1 ∈
      MCTS.bitboard_get_valid_moves BB.emptyBB :=
  C9_mcts_move_legal BB.emptyBB 0 3 true [] (fun l => l.headD 0)
    (fun _ => 0) (fun _ _ _ => 0) (by omega)
    (fun l hl => by
      cases l with
      | nil => exact absurd rfl hl
      | cons a t => exact List.mem_cons_self a t)
    (by decide) (fun e h => nomatch h)

/-- C10: on a position with no legal move, neither engine raises: the
bitboard Minimax API falls through its empty scans and empty main loop
to the fallback best column 3 (for every player, depth, developer flag
and cache state), and `mcts_search_v2` (every iteration budget, every
oracle outcome, no trusted transposition hit) never expands a child of
the root and returns the constant 3. -/
theorem C10_full_board_returns_3 (board : Game.Board) (player : Int) (depth : Nat)
    (dev : Bool) (st : ABB.BState) (bb2 : BB.Bitboard) (cp : Int)
    (iterations : Nat) (use_tt : Bool) (tt : List (Nat × MCTS.TTEntry))
    (pick : List Nat → Nat) (sel : List MCTS.MCTSNodeV2 → Nat)
    (simres : BB.Bitboard → Int → Int → Rat)
    (h1 : ABB.get_valid_moves_bitboard (ABB.bitboard_from_2d board) = [])
    (h2 : MCTS.bitboard_get_valid_moves bb2 = [])
    (h3 : ∀ e, tt.lookup (MCTS.get_canonical_hash bb2) = some e → e.visits ≤ 500) :
    (ABB.get_best_move_bitboard board player depth dev st).1.1 = 3 ∧
    (MCTS.mcts_search_v2 bb2 cp iterations use_tt tt pick sel simres).1.1 = 3 := by
  constructor
  · simp [ABB.get_best_move_bitboard, h1, ABB.gbm_loop]
  · unfold MCTS.mcts_search_v2
    have hhit : (if use_tt then
        match tt.lookup (MCTS.get_canonical_hash bb2) with
        | some e => if 500 < e.visits then some e else none
        | none => none
      else none) = none := by
      cases use_tt
      · rfl
      · simp only [if_true]
        cases hl : tt.lookup (MCTS.get_canonical_hash bb2) with
        | none => rfl
        | some e =>
          have := h3 e hl
          show (if 500 < e.visits then some e else none) = none
          rw [if_neg (by omega)]
    simp only [hhit]
    have hbar := MCTS.mcts_loop_barren cp pick sel simres (iterations + 1) iterations
      (MCTS.MCTSNodeV2.mk bb2 none (-cp) 0 0 (MCTS.bitboard_get_valid_moves bb2) [])
      h2 rfl
    rw [hbar]
    simp [h2]

theorem C10_full_board_returns_3_witness :
    (ABB.get_best_move_bitboard
        [[1,1,1,1,1,1,1],[-1,-1,-1,-1,-1,-1,-1],[1,1,1,1,1,1,1],
         [-1,-1,-1,-1,-1,-1,-1],[1,1,1,1,1,1,1],[-1,-1,-1,-1,-1,-1,-1]]
        1 4 false ABB.emptyBState).1.1 = 3 ∧
    (MCTS.mcts_search_v2
        (ABB.bitboard_from_2d
          [[1,1,1,1,1,1,1],[-1,-1,-1,-1,-1,-1,-1],[1,1,1,1,1,1,1],
           [-1,-1,-1,-1,-1,-1,-1],[1,1,1,1,1,1,1],[-1,-1,-1,-1,-1,-1,-1]])
        0 2 true [] (fun l => l.headD 0) (fun _ => 0) (fun _ _ _ => 0)).1.1 = 3 :=
  C10_full_board_returns_3
    [[1,1,1,1,1,1,1],[-1,-1,-1,-1,-1,-1,-1],[1,1,1,1,1,1,1],
     [-1,-1,-1,-1,-1,-1,-1],[1,1,1,1,1,1,1],[-1,-1,-1,-1,-1,-1,-1]]
    1 4 false ABB.emptyBState
    (ABB.bitboard_from_2d
      [[1,1,1,1,1,1,1],[-1,-1,-1,-1,-1,-1,-1],[1,1,1,1,1,1,1],
       [-1,-1,-1,-1,-1,-1,-1],[1,1,1,1,1,1,1],[-1,-1,-1,-1,-1,-1,-1]])
    0 2 true [] (fun l => l.headD 0) (fun _ => 0) (fun _ _ _ => 0)
    (by decide) (by decide) (fun e h => nomatch h)
